import Mathlib

/-!
A shallow embedding of the `tries` package.

Source files embedded: `contracts.go`, `converter.go`, `simple_node.go`,
`simple_trie.go`.

Conventions of the embedding.

* `uint8` is `Fin 256`; wider machine integers are `Nat`/`Int` reduced
  explicitly modulo `2^w` at every conversion.
* Pointers into a child slice (`&this.next[i]`) are indices, and every method
  with a pointer receiver returns the updated receiver.
* A run-time panic (index out of range, failed type assertion, nil pointer
  dereference) and the exhaustion of the iteration budget of a loop or a
  recursion are values of `Fault`; fallible code returns `Except Fault _`.
  `Next` returns the byte, the flag `ok` and the updated receiver; `Load`
  returns the updated receiver and the `error` result (`none` is `nil`).
* The loop of `converterTransforms.Next` and the recursions of
  `simpleNode.add` and `simpleNode.Find` end when the converter is exhausted;
  they are given an iteration budget computed from the loaded key
  (`converter.bound`), and the theorems prove that the budget is never
  exhausted: the operations return `.ok`.  The loop of `binarySearchNext` has
  the number of children as its budget.
* A boxed key (`any(value)`) is a `Key`: its dynamic type and its value.  The
  static typing of `Trie[TKey, TValue]` is the hypothesis `Key.HasType` on the
  keys passed to `Add` and `Find`.
* The `converter[T]` interface is the closed family of its implementations.
  The interface-typed fields are narrowed to the implementations that
  `selectConverter` and `wrapConverter` can put there: the nested converter of
  `converterIntSlice` is a converter without a nested converter, and the nested
  converter of `converterTransforms` is a converter that is not itself a
  `converterTransforms`.
* A `TransformFunc` is a function of the byte alone (the "keyhole" contract of
  `contracts.go`).
* `SimpleTrie.length` is an unbounded natural number: the 64-bit counter
  cannot overflow before memory is exhausted.
-/

namespace tries

/-! ## Basic types -/

/-- Values of Go type `uint8`. -/
abbrev Byte := Fin 256

/-- Abnormal terminations of the embedded code. -/
inductive Fault where
  | indexOutOfRange
  | typeAssertion
  | nilDereference
  | outOfFuel
  deriving DecidableEq, Repr

/-- Modelled from the spec: the sentinel `ErrorBadTrieKey`, whose declaration
is not among the source files; every error built by the package wraps it. -/
inductive Error where
  | ErrorBadTrieKey
  deriving DecidableEq, Repr

/-- The Go types that matter to the package: the predeclared integer types,
`string`, a type outside the `TrieKey` constraint, slices and named types. -/
inductive GoType where
  | uint8 | int8 | uint16 | int16 | uint32 | int32 | uint64 | int64
  | uint | int | uintptr
  | float64
  | string
  | slice (elem : GoType)
  | named (id : Nat) (underlying : GoType)
  deriving DecidableEq, Repr

/-- A key boxed as `any(value)`: the dynamic type together with the value
(an integer, the bytes of a string, or the integer elements of a slice). -/
inductive Key where
  | int (t : GoType) (v : Int)
  | str (t : GoType) (s : List Byte)
  | slice (t : GoType) (xs : List Int)
  deriving DecidableEq, Repr

/-- The dynamic type of a boxed key. -/
def Key.type : Key → GoType
  | .int t _ => t
  | .str t _ => t
  | .slice t _ => t

/-- The range of values of a predeclared integer type (64-bit platform);
`none` for a type that is not a predeclared integer type. -/
def GoType.range : GoType → Option (Int × Int)
  | .uint8 => some (0, 2 ^ 8 - 1)
  | .int8 => some (-(2 ^ 7), 2 ^ 7 - 1)
  | .uint16 => some (0, 2 ^ 16 - 1)
  | .int16 => some (-(2 ^ 15), 2 ^ 15 - 1)
  | .uint32 => some (0, 2 ^ 32 - 1)
  | .int32 => some (-(2 ^ 31), 2 ^ 31 - 1)
  | .uint64 => some (0, 2 ^ 64 - 1)
  | .int64 => some (-(2 ^ 63), 2 ^ 63 - 1)
  | .uint => some (0, 2 ^ 64 - 1)
  | .int => some (-(2 ^ 63), 2 ^ 63 - 1)
  | .uintptr => some (0, 2 ^ 64 - 1)
  | _ => none

/-- The underlying type of a type. -/
def GoType.underlying : GoType → GoType
  | .named _ u => u.underlying
  | t => t

/-- The integer `v` is a value of the integer type `t`. -/
def GoType.holds (t : GoType) (v : Int) : Bool :=
  match t.underlying.range with
  | some (lo, hi) => decide (lo ≤ v) && decide (v ≤ hi)
  | none => false

/-- The boxed key `k` is a well-formed value of static type `t`: its dynamic
type is `t` and its contents fit the type. -/
def Key.HasType (k : Key) (t : GoType) : Bool :=
  decide (k.type = t) &&
  match k with
  | .int _ v => t.holds v
  | .str _ _ => decide (t.underlying = .string)
  | .slice _ xs =>
    match t.underlying with
    | .slice e => xs.all e.holds
    | _ => false

/-- The type `TransformFunc` of `contracts.go`: `in ↦ (out, use)`. -/
abbrev TransformFunc := Byte → Byte × Bool

/-! ## Integer conversions and `encoding/binary` -/

/-- Conversion `uint8(n)` of a non-negative integer: the low 8 bits. -/
def byte (n : Nat) : Byte := ⟨n % 256, Nat.mod_lt _ (by decide)⟩

/-- Conversion of an integer to the `w`-bit unsigned type: the value modulo
`2^w`, i.e. the `w`-bit two's-complement bit pattern. -/
def toUint (w : Nat) (v : Int) : Nat := (v % 2 ^ w).toNat

/-- The function `binary.BigEndian.PutUint16` on a two-byte buffer. -/
def PutUint16 (v : Nat) : List Byte :=
  [byte (v / 2 ^ 8), byte v]

/-- The function `binary.BigEndian.PutUint32` on a four-byte buffer. -/
def PutUint32 (v : Nat) : List Byte :=
  [byte (v / 2 ^ 24), byte (v / 2 ^ 16), byte (v / 2 ^ 8), byte v]

/-- The function `binary.BigEndian.PutUint64` on an eight-byte buffer. -/
def PutUint64 (v : Nat) : List Byte :=
  [byte (v / 2 ^ 56), byte (v / 2 ^ 48), byte (v / 2 ^ 40), byte (v / 2 ^ 32),
   byte (v / 2 ^ 24), byte (v / 2 ^ 16), byte (v / 2 ^ 8), byte v]

/-- Indexing `xs[i]` with the run-time bounds check. -/
def index {α : Type} (xs : List α) (i : Nat) : Except Fault α :=
  match xs[i]? with
  | some x => .ok x
  | none => .error .indexOutOfRange

/-- Assignment `xs[i] = x` with the run-time bounds check. -/
def assign {α : Type} (xs : List α) (i : Nat) (x : α) : Except Fault (List α) :=
  if i < xs.length then .ok (xs.set i x) else .error .indexOutOfRange

/-! ## converter.go: the converter structs -/

/-- The struct `converterUInt8`. -/
structure converterUInt8 where
  position : Nat
  value : Byte

/-- The struct `converterInt8`. -/
structure converterInt8 where
  position : Nat
  value : Byte

/-- The struct `converterUInt16`; `value` is the array `[2]uint8`. -/
structure converterUInt16 where
  position : Nat
  value : List Byte

/-- The struct `converterInt16`; `value` is the array `[2]uint8`. -/
structure converterInt16 where
  position : Nat
  value : List Byte

/-- The struct `converterUInt32`; `value` is the array `[4]uint8`. -/
structure converterUInt32 where
  position : Nat
  value : List Byte

/-- The struct `converterInt32`; `value` is the array `[4]uint8`. -/
structure converterInt32 where
  position : Nat
  value : List Byte

/-- The struct `converterUInt64`; `value` is the array `[8]uint8`. -/
structure converterUInt64 where
  position : Nat
  value : List Byte

/-- The struct `converterInt64`; `value` is the array `[8]uint8`. -/
structure converterInt64 where
  position : Nat
  value : List Byte

/-- The struct `converterString`. -/
structure converterString where
  position : Nat
  value : List Byte

/-- The struct `converterInt8Slice[TItem, TKey]`; `item` is `TItem`. -/
structure converterInt8Slice where
  item : GoType
  position : Nat
  value : List Int

/-- The implementations of `converter[T]` that hold no nested converter. -/
inductive leafConverter where
  | UInt8 (c : converterUInt8)
  | Int8 (c : converterInt8)
  | UInt16 (c : converterUInt16)
  | Int16 (c : converterInt16)
  | UInt32 (c : converterUInt32)
  | Int32 (c : converterInt32)
  | UInt64 (c : converterUInt64)
  | Int64 (c : converterInt64)
  | String (c : converterString)
  | Int8Slice (c : converterInt8Slice)

/-- The struct `converterIntSlice[TItem, TKey]`; `item` is `TItem`. -/
structure converterIntSlice where
  item : GoType
  position : Nat
  subConverter : leafConverter
  value : List Int

/-- The implementations of `converter[T]` other than `converterTransforms`. -/
inductive plainConverter where
  | leaf (c : leafConverter)
  | IntSlice (c : converterIntSlice)

/-- The struct `converterTransforms`. -/
structure converterTransforms where
  subConverter : plainConverter
  transforms : List TransformFunc

/-- The interface `converter[T]`: one of its implementations. -/
inductive converter where
  | plain (c : plainConverter)
  | Transforms (c : converterTransforms)

/-! ## converter.go: `Load` and `Next` -/

/-! ### uint8 -/

/-- The method `converterUInt8.Load`: the assertion `any(value).(uint8)`
panics on any other dynamic type; the value is stored as it is. -/
def converterUInt8.Load (this : converterUInt8) (value : Key) : Except Fault (converterUInt8 × Option Error) :=
  let this := { this with position := 0 }
  match value with
  | .int .uint8 v => .ok ({ this with value := byte (toUint 8 v) }, none)
  | _ => .error .typeAssertion

/-- The method `converterUInt8.Next`. -/
def converterUInt8.Next (this : converterUInt8) : Except Fault ((Byte × Bool) × converterUInt8) :=
  let oneByte := 0
  if this.position > oneByte then
    .ok ((0, false), this)
  else
    let this := { this with position := 1 }
    .ok ((this.value, true), this)

/-! ### int8 -/

/-- The method `converterInt8.Load`: the assertion `any(value).(int8)`
panics on any other dynamic type; the value is converted with `uint8(_)`. -/
def converterInt8.Load (this : converterInt8) (value : Key) : Except Fault (converterInt8 × Option Error) :=
  let this := { this with position := 0 }
  match value with
  | .int .int8 v => .ok ({ this with value := byte (toUint 8 v) }, none)
  | _ => .error .typeAssertion

/-- The method `converterInt8.Next`. -/
def converterInt8.Next (this : converterInt8) : Except Fault ((Byte × Bool) × converterInt8) :=
  let oneByte := 0
  if this.position > oneByte then
    .ok ((0, false), this)
  else
    let this := { this with position := 1 }
    .ok ((this.value, true), this)

/-! ### uint16 -/

/-- The method `converterUInt16.Load`: the assertion `any(value).(uint16)`
panics on any other dynamic type; the value is written big-endian. -/
def converterUInt16.Load (this : converterUInt16) (value : Key) : Except Fault (converterUInt16 × Option Error) :=
  let this := { this with position := 0 }
  match value with
  | .int .uint16 v => .ok ({ this with value := PutUint16 (toUint 16 v) }, none)
  | _ => .error .typeAssertion

/-- The method `converterUInt16.Next`; `position` is a `uint8`. -/
def converterUInt16.Next (this : converterUInt16) : Except Fault ((Byte × Bool) × converterUInt16) :=
  let twoBytes := 1
  if this.position > twoBytes then
    .ok ((0, false), this)
  else do
    let value ← index this.value this.position
    let this := { this with position := (this.position + 1) % 2 ^ 8 }
    .ok ((value, true), this)

/-! ### int16 -/

/-- The method `converterInt16.Load`: the assertion `any(value).(int16)`
panics on any other dynamic type; the value is converted with `uint16(_)` and written big-endian. -/
def converterInt16.Load (this : converterInt16) (value : Key) : Except Fault (converterInt16 × Option Error) :=
  let this := { this with position := 0 }
  match value with
  | .int .int16 v => .ok ({ this with value := PutUint16 (toUint 16 v) }, none)
  | _ => .error .typeAssertion

/-- The method `converterInt16.Next`; `position` is a `uint8`. -/
def converterInt16.Next (this : converterInt16) : Except Fault ((Byte × Bool) × converterInt16) :=
  let twoBytes := 1
  if this.position > twoBytes then
    .ok ((0, false), this)
  else do
    let value ← index this.value this.position
    let this := { this with position := (this.position + 1) % 2 ^ 8 }
    .ok ((value, true), this)

/-! ### uint32 -/

/-- The method `converterUInt32.Load`: the assertion `any(value).(uint32)`
panics on any other dynamic type; the value is written big-endian. -/
def converterUInt32.Load (this : converterUInt32) (value : Key) : Except Fault (converterUInt32 × Option Error) :=
  let this := { this with position := 0 }
  match value with
  | .int .uint32 v => .ok ({ this with value := PutUint32 (toUint 32 v) }, none)
  | _ => .error .typeAssertion

/-- The method `converterUInt32.Next`; `position` is a `uint8`. -/
def converterUInt32.Next (this : converterUInt32) : Except Fault ((Byte × Bool) × converterUInt32) :=
  let fourBytes := 3
  if this.position > fourBytes then
    .ok ((0, false), this)
  else do
    let value ← index this.value this.position
    let this := { this with position := (this.position + 1) % 2 ^ 8 }
    .ok ((value, true), this)

/-! ### int32 -/

/-- The method `converterInt32.Load`: the assertion `any(value).(int32)`
panics on any other dynamic type; the value is converted with `uint32(_)` and written big-endian. -/
def converterInt32.Load (this : converterInt32) (value : Key) : Except Fault (converterInt32 × Option Error) :=
  let this := { this with position := 0 }
  match value with
  | .int .int32 v => .ok ({ this with value := PutUint32 (toUint 32 v) }, none)
  | _ => .error .typeAssertion

/-- The method `converterInt32.Next`; `position` is a `uint8`. -/
def converterInt32.Next (this : converterInt32) : Except Fault ((Byte × Bool) × converterInt32) :=
  let fourBytes := 3
  if this.position > fourBytes then
    .ok ((0, false), this)
  else do
    let value ← index this.value this.position
    let this := { this with position := (this.position + 1) % 2 ^ 8 }
    .ok ((value, true), this)

/-! ### uint64 -/

/-- The method `converterUInt64.Load`: the assertion `any(value).(uint64)`
panics on any other dynamic type; the value is written big-endian. -/
def converterUInt64.Load (this : converterUInt64) (value : Key) : Except Fault (converterUInt64 × Option Error) :=
  let this := { this with position := 0 }
  match value with
  | .int .uint64 v => .ok ({ this with value := PutUint64 (toUint 64 v) }, none)
  | _ => .error .typeAssertion

/-- The method `converterUInt64.Next`; `position` is a `uint8`. -/
def converterUInt64.Next (this : converterUInt64) : Except Fault ((Byte × Bool) × converterUInt64) :=
  let eightBytes := 7
  if this.position > eightBytes then
    .ok ((0, false), this)
  else do
    let value ← index this.value this.position
    let this := { this with position := (this.position + 1) % 2 ^ 8 }
    .ok ((value, true), this)

/-! ### int64 -/

/-- The method `converterInt64.Load`: the assertion `any(value).(int64)`
panics on any other dynamic type; the value is converted with `uint64(_)` and written big-endian. -/
def converterInt64.Load (this : converterInt64) (value : Key) : Except Fault (converterInt64 × Option Error) :=
  let this := { this with position := 0 }
  match value with
  | .int .int64 v => .ok ({ this with value := PutUint64 (toUint 64 v) }, none)
  | _ => .error .typeAssertion

/-- The method `converterInt64.Next`; `position` is a `uint8`. -/
def converterInt64.Next (this : converterInt64) : Except Fault ((Byte × Bool) × converterInt64) :=
  let eightBytes := 7
  if this.position > eightBytes then
    .ok ((0, false), this)
  else do
    let value ← index this.value this.position
    let this := { this with position := (this.position + 1) % 2 ^ 8 }
    .ok ((value, true), this)

/-! ### string -/

/-- The method `converterString.Load`: the type switch on `any(value)`. -/
def converterString.Load (this : converterString) (value : Key) :
    Except Fault (converterString × Option Error) :=
  let this := { this with position := 0 }
  match value with
  | .str .string v => .ok ({ this with value := v }, none)
  | _ => .ok (this, some .ErrorBadTrieKey)

/-- The method `converterString.Next`. -/
def converterString.Next (this : converterString) :
    Except Fault ((Byte × Bool) × converterString) :=
  if this.position ≥ this.value.length then
    .ok ((0, false), this)
  else do
    let value ← index this.value this.position
    let this := { this with position := this.position + 1 }
    .ok ((value, true), this)

/-! ### []int8 -/

/-- The method `converterInt8Slice.Load`: the case `[]TItem` of the type
switch is the dynamic type `slice item`. -/
def converterInt8Slice.Load (this : converterInt8Slice) (value : Key) :
    Except Fault (converterInt8Slice × Option Error) :=
  let this := { this with position := 0 }
  match value with
  | .slice t v =>
    if t = .slice this.item then .ok ({ this with value := v }, none)
    else .ok (this, some .ErrorBadTrieKey)
  | _ => .ok (this, some .ErrorBadTrieKey)

/-- The method `converterInt8Slice.Next`; the element is converted with
`uint8(_)`. -/
def converterInt8Slice.Next (this : converterInt8Slice) :
    Except Fault ((Byte × Bool) × converterInt8Slice) :=
  if this.position ≥ this.value.length then
    .ok ((0, false), this)
  else do
    let value ← index this.value this.position
    let value := byte (toUint 8 value)
    let this := { this with position := this.position + 1 }
    .ok ((value, true), this)

/-! ### dynamic dispatch on a converter without a nested converter -/

/-- Interface call `Load` on a converter without a nested converter. -/
def leafConverter.Load (this : leafConverter) (value : Key) :
    Except Fault (leafConverter × Option Error) :=
  match this with
  | .UInt8 c => (c.Load value).map fun r => (.UInt8 r.1, r.2)
  | .Int8 c => (c.Load value).map fun r => (.Int8 r.1, r.2)
  | .UInt16 c => (c.Load value).map fun r => (.UInt16 r.1, r.2)
  | .Int16 c => (c.Load value).map fun r => (.Int16 r.1, r.2)
  | .UInt32 c => (c.Load value).map fun r => (.UInt32 r.1, r.2)
  | .Int32 c => (c.Load value).map fun r => (.Int32 r.1, r.2)
  | .UInt64 c => (c.Load value).map fun r => (.UInt64 r.1, r.2)
  | .Int64 c => (c.Load value).map fun r => (.Int64 r.1, r.2)
  | .String c => (c.Load value).map fun r => (.String r.1, r.2)
  | .Int8Slice c => (c.Load value).map fun r => (.Int8Slice r.1, r.2)

/-- Interface call `Next` on a converter without a nested converter. -/
def leafConverter.Next (this : leafConverter) :
    Except Fault ((Byte × Bool) × leafConverter) :=
  match this with
  | .UInt8 c => c.Next.map fun r => (r.1, .UInt8 r.2)
  | .Int8 c => c.Next.map fun r => (r.1, .Int8 r.2)
  | .UInt16 c => c.Next.map fun r => (r.1, .UInt16 r.2)
  | .Int16 c => c.Next.map fun r => (r.1, .Int16 r.2)
  | .UInt32 c => c.Next.map fun r => (r.1, .UInt32 r.2)
  | .Int32 c => c.Next.map fun r => (r.1, .Int32 r.2)
  | .UInt64 c => c.Next.map fun r => (r.1, .UInt64 r.2)
  | .Int64 c => c.Next.map fun r => (r.1, .Int64 r.2)
  | .String c => c.Next.map fun r => (r.1, .String r.2)
  | .Int8Slice c => c.Next.map fun r => (r.1, .Int8Slice r.2)

/-! ### []int(x) -/

/-- The method `converterIntSlice.Load`; the result of the nested `Load` is
discarded, a panic of it is not. -/
def converterIntSlice.Load (this : converterIntSlice) (value : Key) :
    Except Fault (converterIntSlice × Option Error) :=
  let this := { this with position := 0 }
  match value with
  | .slice t v =>
    if t = .slice this.item then
      let this := { this with value := v }
      if this.value.length > 0 then do
        let first ← index this.value 0
        let (sub, _) ← this.subConverter.Load (.int this.item first)
        .ok ({ this with subConverter := sub }, none)
      else
        .ok (this, none)
    else .ok (this, some .ErrorBadTrieKey)
  | _ => .ok (this, some .ErrorBadTrieKey)

/-- The method `converterIntSlice.Next`. -/
def converterIntSlice.Next (this : converterIntSlice) :
    Except Fault ((Byte × Bool) × converterIntSlice) :=
  if this.position ≥ this.value.length then
    .ok ((0, false), this)
  else do
    let ((value, ok), sub) ← this.subConverter.Next
    let this := { this with subConverter := sub }
    if !ok then
      let this := { this with position := this.position + 1 }
      if this.position ≥ this.value.length then
        .ok ((0, false), this)
      else do
        let item ← index this.value this.position
        let (sub, _) ← this.subConverter.Load (.int this.item item)
        let ((value, _), sub) ← sub.Next
        .ok ((value, true), { this with subConverter := sub })
    else
      .ok ((value, true), this)

/-! ### dynamic dispatch on a converter other than `converterTransforms` -/

/-- Interface call `Load` on a converter that is not a `converterTransforms`. -/
def plainConverter.Load (this : plainConverter) (value : Key) :
    Except Fault (plainConverter × Option Error) :=
  match this with
  | .leaf c => (c.Load value).map fun r => (.leaf r.1, r.2)
  | .IntSlice c => (c.Load value).map fun r => (.IntSlice r.1, r.2)

/-- Interface call `Next` on a converter that is not a `converterTransforms`. -/
def plainConverter.Next (this : plainConverter) :
    Except Fault ((Byte × Bool) × plainConverter) :=
  match this with
  | .leaf c => c.Next.map fun r => (r.1, .leaf r.2)
  | .IntSlice c => c.Next.map fun r => (r.1, .IntSlice r.2)

/-- An upper bound on the number of bytes a converter without a nested
converter holds: the iteration budget of the loops that drain it. -/
def leafConverter.bound : leafConverter → Nat
  | .UInt8 _ => 1
  | .Int8 _ => 1
  | .UInt16 _ => 2
  | .Int16 _ => 2
  | .UInt32 _ => 4
  | .Int32 _ => 4
  | .UInt64 _ => 8
  | .Int64 _ => 8
  | .String c => c.value.length
  | .Int8Slice c => c.value.length

/-- An upper bound on the number of bytes a converter holds (at most eight
bytes for each element of a slice of wide integers). -/
def plainConverter.bound : plainConverter → Nat
  | .leaf c => c.bound
  | .IntSlice c => 8 * c.value.length

/-! ### transforms -/

/-- The method `converterTransforms.Load`. -/
def converterTransforms.Load (this : converterTransforms) (value : Key) :
    Except Fault (converterTransforms × Option Error) :=
  (this.subConverter.Load value).map fun r => ({ this with subConverter := r.1 }, r.2)

/-- The inner loop of `converterTransforms.Next`,
`for _, transform := range this.transforms`, started with `passes = true`:
the final `(value, passes)`. -/
def converterTransforms.Next.range : List TransformFunc → Byte → Byte × Bool
  | [], value => (value, true)
  | transform :: rest, value =>
    let (value, passes) := transform value
    if !passes then (value, passes)
    else converterTransforms.Next.range rest value

/-- The outer loop `for { ... }` of `converterTransforms.Next`, with an
iteration budget. -/
def converterTransforms.Next.loop (transforms : List TransformFunc) :
    Nat → plainConverter → Except Fault ((Byte × Bool) × plainConverter)
  | 0, _ => .error .outOfFuel
  | fuel + 1, sub => do
    let ((value, ok), sub) ← sub.Next
    if !ok then
      .ok ((value, ok), sub)
    else
      let (value, passes) := converterTransforms.Next.range transforms value
      if passes then
        .ok ((value, ok), sub)
      else
        converterTransforms.Next.loop transforms fuel sub

/-- The method `converterTransforms.Next`; the budget of the loop is one more
than the number of bytes the nested converter can hold. -/
def converterTransforms.Next (this : converterTransforms) :
    Except Fault ((Byte × Bool) × converterTransforms) :=
  (converterTransforms.Next.loop this.transforms (this.subConverter.bound + 1)
      this.subConverter).map
    fun r => (r.1, { this with subConverter := r.2 })

/-! ### the interface -/

/-- Interface call `Load`. -/
def converter.Load (this : converter) (value : Key) :
    Except Fault (converter × Option Error) :=
  match this with
  | .plain c => (c.Load value).map fun r => (.plain r.1, r.2)
  | .Transforms c => (c.Load value).map fun r => (.Transforms r.1, r.2)

/-- Interface call `Next`. -/
def converter.Next (this : converter) :
    Except Fault ((Byte × Bool) × converter) :=
  match this with
  | .plain c => c.Next.map fun r => (r.1, .plain r.2)
  | .Transforms c => c.Next.map fun r => (r.1, .Transforms r.2)

/-- An upper bound on the number of bytes a converter can still deliver. -/
def converter.bound : converter → Nat
  | .plain c => c.bound
  | .Transforms c => c.subConverter.bound

/-! ### selectConverter, wrapConverter -/

/-- The function `selectConverter[T]`: the type switch on `any(dummy)`, whose
dynamic type is `T`; `new(_)` is the zero value of the struct. -/
def selectConverter (T : GoType) : Except Error plainConverter :=
  match T with
  | .uint8 => .ok (.leaf (.UInt8 ⟨0, 0⟩))
  | .int8 => .ok (.leaf (.Int8 ⟨0, 0⟩))
  | .uint16 => .ok (.leaf (.UInt16 ⟨0, [0, 0]⟩))
  | .int16 => .ok (.leaf (.Int16 ⟨0, [0, 0]⟩))
  | .uint32 => .ok (.leaf (.UInt32 ⟨0, [0, 0, 0, 0]⟩))
  | .int32 => .ok (.leaf (.Int32 ⟨0, [0, 0, 0, 0]⟩))
  | .uint64 => .ok (.leaf (.UInt64 ⟨0, [0, 0, 0, 0, 0, 0, 0, 0]⟩))
  | .int64 => .ok (.leaf (.Int64 ⟨0, [0, 0, 0, 0, 0, 0, 0, 0]⟩))
  | .string => .ok (.leaf (.String ⟨0, []⟩))
  | .slice .uint8 => .ok (.leaf (.Int8Slice ⟨.uint8, 0, []⟩))
  | .slice .int8 => .ok (.leaf (.Int8Slice ⟨.int8, 0, []⟩))
  | .slice .uint16 => .ok (.IntSlice ⟨.uint16, 0, .UInt16 ⟨0, [0, 0]⟩, []⟩)
  | .slice .int16 => .ok (.IntSlice ⟨.int16, 0, .Int16 ⟨0, [0, 0]⟩, []⟩)
  | .slice .uint32 => .ok (.IntSlice ⟨.uint32, 0, .UInt32 ⟨0, [0, 0, 0, 0]⟩, []⟩)
  | .slice .int32 => .ok (.IntSlice ⟨.int32, 0, .Int32 ⟨0, [0, 0, 0, 0]⟩, []⟩)
  | .slice .uint64 =>
    .ok (.IntSlice ⟨.uint64, 0, .UInt64 ⟨0, [0, 0, 0, 0, 0, 0, 0, 0]⟩, []⟩)
  | .slice .int64 =>
    .ok (.IntSlice ⟨.int64, 0, .Int64 ⟨0, [0, 0, 0, 0, 0, 0, 0, 0]⟩, []⟩)
  | _ => .error .ErrorBadTrieKey

/-- The function `wrapConverter`. -/
def wrapConverter (converter : plainConverter) (transforms : List TransformFunc) :
    tries.converter :=
  .Transforms { subConverter := converter, transforms := transforms }

/-! ## simple_node.go -/

/-- The struct `simpleNode[TKey, TValue]`. -/
inductive simpleNode (V : Type) where
  | mk (hasValue : Bool) (value : V) (key : Byte) (next : List (simpleNode V)) :
      simpleNode V

namespace simpleNode

variable {V : Type}

/-- Field `hasValue`. -/
def hasValue : simpleNode V → Bool
  | mk h _ _ _ => h

/-- Field `value`. -/
def value : simpleNode V → V
  | mk _ v _ _ => v

/-- Field `key`. -/
def key : simpleNode V → Byte
  | mk _ _ k _ => k

/-- Field `next`. -/
def next : simpleNode V → List (simpleNode V)
  | mk _ _ _ n => n

/-- The composite literal `simpleNode[TKey, TValue]{key: key}`; with `key = 0`
it is the zero value `simpleNode[TKey, TValue]{}`. -/
def literal [Inhabited V] (key : Byte) : simpleNode V :=
  mk false default key []

/-- The loop of `binarySearchNext` over `bottom`, `top` and `nextNode` (an
index into `next`, `none` for `nil`), with an iteration budget.  The operands
of the division are `int`s, so it truncates. -/
def binarySearchNext.loop (next : List (simpleNode V)) (key : Byte) :
    Nat → Int → Int → Option Nat → Except Fault (Option Nat × Bool)
  | 0, bottom, top, nextNode =>
    if top ≥ bottom then .error .outOfFuel else .ok (nextNode, false)
  | fuel + 1, bottom, top, nextNode =>
    if top ≥ bottom then
      let index := (Int.tdiv (top - bottom) 2) + bottom
      if index < 0 then .error .indexOutOfRange
      else do
        let node ← tries.index next index.toNat
        let nextNode := some index.toNat
        let test := node.key
        if test = key then
          .ok (nextNode, true)
        else if test > key then
          binarySearchNext.loop next key fuel bottom (index - 1) nextNode
        else
          binarySearchNext.loop next key fuel (index + 1) top nextNode
    else
      .ok (nextNode, false)

/-- The method `simpleNode.binarySearchNext`: the pointer `nextNode` as an
index into `this.next`, and `found`.  The budget of the loop is the number of
children. -/
def binarySearchNext (this : simpleNode V) (key : Byte) :
    Except Fault (Option Nat × Bool) :=
  let bottom : Int := 0
  let top : Int := (this.next.length : Int) - 1
  binarySearchNext.loop this.next key this.next.length bottom top none

/-- The loop `for ; index >= 0; index--` of `insertNewNode`, entered with
`index = n - 1`: the slice and the value of `index` when the loop is left. -/
def insertNewNode.loop (key : Byte) :
    Nat → List (simpleNode V) → Except Fault (List (simpleNode V) × Int)
  | 0, next => .ok (next, -1)
  | index + 1, next => do
    let node ← tries.index next index
    if node.key > key then
      let next ← assign next (index + 1) node
      insertNewNode.loop key index next
    else
      .ok (next, (index : Int))

/-- The method `simpleNode.insertNewNode`: the updated receiver and the
returned pointer as an index into its `next`. -/
def insertNewNode [Inhabited V] (this : simpleNode V) (key : Byte) :
    Except Fault (simpleNode V × Nat) :=
  match this with
  | mk hasValue value k next =>
    if next.length = 0 then
      let next := next ++ [literal key]
      .ok (mk hasValue value k next, 0)
    else do
      let next := next ++ [literal 0]
      let index : Int := (next.length : Int) - 2
      let (next, index) ← insertNewNode.loop key (index + 1).toNat next
      let index := index + 1
      if index < 0 then .error .indexOutOfRange
      else do
        let next ← assign next index.toNat (literal key)
        .ok (mk hasValue value k next, index.toNat)

/-- Dereference of a pointer into `this.next`. -/
def deref (this : simpleNode V) (nextNode : Option Nat) : Except Fault (simpleNode V) :=
  match nextNode with
  | none => .error .nilDereference
  | some i => tries.index this.next i

/-- Write-back through a pointer into `this.next`. -/
def store (this : simpleNode V) (i : Nat) (node : simpleNode V) :
    Except Fault (simpleNode V) :=
  match this with
  | mk hasValue value key next => (assign next i node).map (mk hasValue value key)

/-- The method `simpleNode.Find`, with a budget for the depth of the
recursion: the result `(value, ok)` and the converter as the call leaves it. -/
def Find [Inhabited V] : Nat → simpleNode V → converter →
    Except Fault ((V × Bool) × converter)
  | 0, _, _ => .error .outOfFuel
  | fuel + 1, this, key => do
    let value : V := default
    let ((k, ok), key) ← key.Next
    if !ok then
      if this.hasValue then
        .ok ((this.value, true), key)
      else
        .ok ((value, false), key)
    else
      let (nextNode, found) ← this.binarySearchNext k
      if !found then
        .ok ((value, false), key)
      else
        let nextNode ← this.deref nextNode
        Find fuel nextNode key

/-- The method `simpleNode.add`, with a budget for the depth of the
recursion: `expanded`, the updated receiver, and the converter as the call
leaves it. -/
def add [Inhabited V] : Nat → simpleNode V → converter → V →
    Except Fault ((Bool × simpleNode V) × converter)
  | 0, _, _, _ => .error .outOfFuel
  | fuel + 1, this, key, value => do
    let ((k, ok), key) ← key.Next
    if !ok then
      let expanded := !this.hasValue
      .ok ((expanded, mk true value this.key this.next), key)
    else
      let (nextNode, found) ← this.binarySearchNext k
      if found then
        match nextNode with
        | none => .error .nilDereference
        | some i =>
          let child ← tries.index this.next i
          let ((expanded, child), key) ← add fuel child key value
          let this ← this.store i child
          .ok ((expanded, this), key)
      else
        let (this, i) ← this.insertNewNode k
        let child ← tries.index this.next i
        let ((expanded, child), key) ← add fuel child key value
        let this ← this.store i child
        .ok ((expanded, this), key)

end simpleNode

/-! ## simple_trie.go -/

/-- The struct `SimpleTrie[TKey, TValue]`. -/
structure SimpleTrie (V : Type) where
  converter : converter
  head : simpleNode V
  length : Nat

/-- The function `NewTrie[TKey, TValue]`. -/
def NewTrie (V : Type) [Inhabited V] (TKey : GoType) (transforms : List TransformFunc) :
    Except Error (SimpleTrie V) :=
  match selectConverter TKey with
  | .error err => .error err
  | .ok selected =>
    let converter : converter :=
      if transforms.length > 0 then wrapConverter selected transforms
      else .plain selected
    .ok { converter := converter, head := simpleNode.literal 0, length := 0 }

namespace SimpleTrie

variable {V : Type}

/-- The method `SimpleTrie.Add`: `expanded` and the updated receiver.  The
result of `Load` is discarded.  The recursion of `add` gets a budget of one
more than the number of bytes the loaded converter can hold. -/
def Add [Inhabited V] (this : SimpleTrie V) (key : Key) (value : V) :
    Except Fault (Bool × SimpleTrie V) := do
  let (converter, _) ← this.converter.Load key
  let ((expanded, head), converter) ← this.head.add (converter.bound + 1) converter value
  let this := { this with converter := converter, head := head }
  if expanded then
    .ok (expanded, { this with length := this.length + 1 })
  else
    .ok (expanded, this)

/-- The method `SimpleTrie.Find`: `(value, found)` and the receiver, whose
converter the call has advanced. -/
def Find [Inhabited V] (this : SimpleTrie V) (key : Key) :
    Except Fault ((V × Bool) × SimpleTrie V) := do
  let (converter, _) ← this.converter.Load key
  let (result, converter) ← this.head.Find (converter.bound + 1) converter
  .ok (result, { this with converter := converter })

/-- The method `SimpleTrie.Length`. -/
def Length (this : SimpleTrie V) : Nat :=
  this.length

end SimpleTrie

/-! ## Running a converter to exhaustion -/

/-- Calls `Next` until it returns `ok = false` and collects the bytes, with
an iteration budget: the bytes and the converter as the last call leaves it. -/
def converter.drain : Nat → converter → Except Fault (List Byte × converter)
  | 0, _ => .error .outOfFuel
  | fuel + 1, c => do
    let ((value, ok), c) ← c.Next
    if !ok then
      .ok ([], c)
    else
      let (rest, c) ← converter.drain fuel c
      .ok (value :: rest, c)

/-- The byte stream of a key under a converter: `Load`, then `Next` until it
reports no more.  With a transform list this is the effective stream. -/
def converter.stream (c : converter) (key : Key) : Except Fault (List Byte) := do
  let (c, _) ← c.Load key
  let (bytes, _) ← c.drain (c.bound + 1)
  .ok bytes

/-! ## Reachable tries -/

/-- The tries of key type `TKey` and transform list `transforms` that a client
can hold: what `NewTrie` returns, and what `Add` and `Find` with keys of type
`TKey` make of it. -/
inductive Reachable {V : Type} [Inhabited V] (TKey : GoType) (transforms : List TransformFunc) :
    SimpleTrie V → Prop where
  | new {trie : SimpleTrie V} :
      NewTrie V TKey transforms = .ok trie → Reachable TKey transforms trie
  | add {trie trie1 : SimpleTrie V} {key : Key} {value : V} {expanded : Bool} :
      Reachable TKey transforms trie → key.HasType TKey = true →
      trie.Add key value = .ok (expanded, trie1) → Reachable TKey transforms trie1
  | find {trie trie1 : SimpleTrie V} {key : Key} {result : V × Bool} :
      Reachable TKey transforms trie → key.HasType TKey = true →
      trie.Find key = .ok (result, trie1) → Reachable TKey transforms trie1

/-- A sequence of `Add` calls, in order: the `expanded` results and the trie. -/
def SimpleTrie.AddAll {V : Type} [Inhabited V] (this : SimpleTrie V) :
    List (Key × V) → Except Fault (List Bool × SimpleTrie V)
  | [] => .ok ([], this)
  | (key, value) :: rest => do
    let (expanded, this) ← this.Add key value
    let (more, this) ← SimpleTrie.AddAll this rest
    .ok (expanded :: more, this)

/-! ## Specification-level definitions

The definitions of this section follow the words of the specification; the
theorems compare the code with them. -/

/-- The big-endian representation of `v` in `n` bytes, most significant byte
first. -/
def bigEndian : Nat → Nat → List Byte
  | 0, _ => []
  | n + 1, v => bigEndian n (v / 256) ++ [byte v]

/-- The bit width of a fixed-width integer type (`0` for any other type). -/
def GoType.bits : GoType → Nat
  | .uint8 | .int8 => 8
  | .uint16 | .int16 => 16
  | .uint32 | .int32 => 32
  | .uint64 | .int64 => 64
  | _ => 0

/-- The canonical encoding of an integer of fixed-width type `t`: the
big-endian representation, in `bits / 8` bytes, of its two's-complement bit
pattern. -/
def encodeInt (t : GoType) (v : Int) : List Byte :=
  bigEndian (t.bits / 8) (toUint t.bits v)

/-- The canonical (raw) encoding of a key: a fixed-width integer is encoded
big-endian, a string is its bytes, a slice is the concatenation of the
encodings of its elements. -/
def encode : Key → List Byte
  | .int t v => encodeInt t v
  | .str _ s => s
  | .slice (.slice e) xs => xs.flatMap (encodeInt e)
  | .slice _ _ => []

/-- One raw byte through the transform list, in list order: `none` as soon as
a transform returns `use = false`, otherwise the output of the last one. -/
def transformByte : List TransformFunc → Byte → Option Byte
  | [], b => some b
  | f :: fs, b => if (f b).2 then transformByte fs (f b).1 else none

/-- A raw byte sequence through the transform list, byte by byte: dropped
bytes removed, kept bytes remapped, order kept. -/
def transformStream (fs : List TransformFunc) (raw : List Byte) : List Byte :=
  raw.filterMap (transformByte fs)

/-- The effective byte stream of a key under a transform list. -/
def effective (fs : List TransformFunc) (key : Key) : List Byte :=
  transformStream fs (encode key)

/-- The bytes a converter without a nested converter has yet to deliver. -/
def leafConverter.remaining : leafConverter → List Byte
  | .UInt8 c => if c.position > 0 then [] else [c.value]
  | .Int8 c => if c.position > 0 then [] else [c.value]
  | .UInt16 c => c.value.drop c.position
  | .Int16 c => c.value.drop c.position
  | .UInt32 c => c.value.drop c.position
  | .Int32 c => c.value.drop c.position
  | .UInt64 c => c.value.drop c.position
  | .Int64 c => c.value.drop c.position
  | .String c => c.value.drop c.position
  | .Int8Slice c => (c.value.drop c.position).map fun x => byte (toUint 8 x)

/-- The bytes a converter has yet to deliver. -/
def plainConverter.remaining : plainConverter → List Byte
  | .leaf c => c.remaining
  | .IntSlice c =>
    if c.position ≥ c.value.length then []
    else c.subConverter.remaining ++ (c.value.drop (c.position + 1)).flatMap (encodeInt c.item)

/-- The bytes a converter has yet to deliver. -/
def converter.remaining : converter → List Byte
  | .plain c => c.remaining
  | .Transforms c => transformStream c.transforms c.subConverter.remaining

/-- The converter is, in some state of its cursor, the one `selectConverter`
builds for key type `T`. -/
def leafConverter.Serves : leafConverter → GoType → Prop
  | .UInt8 _, T => T = .uint8
  | .Int8 _, T => T = .int8
  | .UInt16 c, T => T = .uint16 ∧ c.value.length = 2
  | .Int16 c, T => T = .int16 ∧ c.value.length = 2
  | .UInt32 c, T => T = .uint32 ∧ c.value.length = 4
  | .Int32 c, T => T = .int32 ∧ c.value.length = 4
  | .UInt64 c, T => T = .uint64 ∧ c.value.length = 8
  | .Int64 c, T => T = .int64 ∧ c.value.length = 8
  | .String _, T => T = .string
  | .Int8Slice c, T => T = .slice c.item ∧ (c.item = .uint8 ∨ c.item = .int8)

/-- The fixed-width integer types of more than one byte. -/
def GoType.wide (t : GoType) : Prop :=
  t = .uint16 ∨ t = .int16 ∨ t = .uint32 ∨ t = .int32 ∨ t = .uint64 ∨ t = .int64

/-- The converter is, in some state of its cursors, the one `selectConverter`
builds for key type `T`. -/
def plainConverter.Serves : plainConverter → GoType → Prop
  | .leaf c, T => c.Serves T
  | .IntSlice c, T => T = .slice c.item ∧ c.item.wide ∧ c.subConverter.Serves c.item

/-- The converter is, in some state of its cursors, the one a trie of key
type `T` and transform list `fs` holds. -/
def converter.Serves : converter → GoType → List TransformFunc → Prop
  | .plain c, T, fs => fs = [] ∧ c.Serves T
  | .Transforms c, T, fs => c.transforms = fs ∧ c.subConverter.Serves T

namespace simpleNode

variable {V : Type}

/-- The value stored under a byte sequence: follow, byte by byte, the child
whose edge byte matches; at the end of the sequence the node must hold a
value. -/
def get : simpleNode V → List Byte → Option V
  | n, [] => if n.hasValue then some n.value else none
  | n, b :: bs =>
    match n.next.find? (fun c => c.key = b) with
    | some c => get c bs
    | none => none

/-- The node after a value is stored under a byte sequence: the child with the
next edge byte is updated, or a new child is placed so that the edge bytes stay
ascending. -/
def put [Inhabited V] : simpleNode V → List Byte → V → simpleNode V
  | n, [], v => mk true v n.key n.next
  | n, b :: bs, v =>
    if n.next.any (fun c => c.key = b) then
      mk n.hasValue n.value n.key
        (n.next.map fun c => if c.key = b then put c bs v else c)
    else
      mk n.hasValue n.value n.key
        (n.next.takeWhile (fun c => c.key < b) ++
          put (literal b) bs v :: n.next.dropWhile (fun c => c.key < b))

/-- Every node of the tree has its children strictly ascending by edge
byte. -/
inductive Sorted : simpleNode V → Prop where
  | mk (hasValue : Bool) (value : V) (key : Byte) (next : List (simpleNode V)) :
      next.Pairwise (fun a b => a.key < b.key) → (∀ c ∈ next, Sorted c) →
      Sorted (simpleNode.mk hasValue value key next)

end simpleNode

/-- What `Find` returns for a stored-or-absent value: `(value, true)`, or the
zero value and `false`. -/
def findResult {V : Type} [Inhabited V] : Option V → V × Bool
  | some v => (v, true)
  | none => (default, false)

/-- The contract of a `Next` method against the bytes yet to deliver: on an
empty remainder it returns `(0, false)` and the remainder stays empty, otherwise
it returns the first byte with `true` and the remainder loses that byte; the
state it leaves satisfies `P`. -/
def NextSpec {σ : Type} (next : σ → Except Fault ((Byte × Bool) × σ))
    (rem : σ → List Byte) (P : σ → Prop) (c : σ) : Prop :=
  ∃ c1, P c1 ∧
    match rem c with
    | [] => next c = .ok ((0, false), c1) ∧ rem c1 = []
    | b :: bs => next c = .ok ((b, true), c1) ∧ rem c1 = bs

/-- The invariant of a reachable trie that the operations rely on. -/
def SimpleTrie.Inv {V : Type} (T : GoType) (fs : List TransformFunc) (t : SimpleTrie V) : Prop :=
  t.converter.Serves T fs ∧ t.head.Sorted

/-- The node after a sequence of stores, in order. -/
def simpleNode.putAll {V : Type} [Inhabited V] :
    simpleNode V → List (List Byte × V) → simpleNode V
  | n, [] => n
  | n, (bs, v) :: rest => simpleNode.putAll (simpleNode.put n bs v) rest

/-- The byte sequences under which the trie stores a value are exactly those
of the finite set `S`, and the counter is the size of `S`. -/
def SimpleTrie.Stores {V : Type} (t : SimpleTrie V) (S : Finset (List Byte)) : Prop :=
  (∀ bs, (t.head.get bs).isSome = true ↔ bs ∈ S) ∧ t.length = S.card

/-! ## Test data -/

/-- The transform of `Test_SimpleTrie_Find_WithTransform`: it drops `'-'` and
`'_'` and maps `'A'..'Z'` to `'a'..'z'`. -/
def testTransform : TransformFunc := fun b =>
  if b = 45 ∨ b = 95 then (0, false)
  else if b ≥ 65 ∧ b ≤ 90 then (b - 65 + 97, true)
  else (b, true)

/-- A Go `string` key from the text of an ASCII string. -/
def stringKey (s : String) : Key :=
  .str .string (s.toList.map fun c => byte c.toNat)

/-- The trie `NewTrie[string, int]()` returns. -/
def stringTrie : SimpleTrie Int :=
  { converter := .plain (.leaf (.String ⟨0, []⟩)), head := simpleNode.literal 0, length := 0 }

/-- The trie `NewTrie[string, int](testTransform)` returns. -/
def foldTrie : SimpleTrie Int :=
  { converter := .Transforms ⟨.leaf (.String ⟨0, []⟩), [testTransform]⟩,
    head := simpleNode.literal 0, length := 0 }

/-! ## Sequences of calls -/

/-- A call of a method of the `Trie` interface that takes a key. -/
inductive Call (V : Type) where
  | Add (key : Key) (value : V)
  | Find (key : Key)

/-- The key of a call. -/
def Call.key {V : Type} : Call V → Key
  | .Add key _ => key
  | .Find key => key

/-- What a call returns: `expanded` for `Add`, `(value, found)` for `Find`. -/
inductive Outcome (V : Type) where
  | expanded (e : Bool)
  | found (r : V × Bool)

/-- A sequence of calls, in order: what each returns, and the trie. -/
def SimpleTrie.run {V : Type} [Inhabited V] (this : SimpleTrie V) :
    List (Call V) → Except Fault (List (Outcome V) × SimpleTrie V)
  | [] => .ok ([], this)
  | .Add key value :: rest => do
    let (expanded, this) ← this.Add key value
    let (more, this) ← SimpleTrie.run this rest
    .ok (.expanded expanded :: more, this)
  | .Find key :: rest => do
    let (result, this) ← this.Find key
    let (more, this) ← SimpleTrie.run this rest
    .ok (.found result :: more, this)

/-- The bytes `Next` delivers from a state of a converter that is not a
`converterTransforms`, up to and including the call that returns
`ok = false`. -/
inductive plainConverter.Emits : plainConverter → List Byte → Prop where
  | done {s s1 : plainConverter} {v : Byte} :
      s.Next = .ok ((v, false), s1) → plainConverter.Emits s []
  | step {s s1 : plainConverter} {b : Byte} {raw : List Byte} :
      s.Next = .ok ((b, true), s1) → plainConverter.Emits s1 raw →
      plainConverter.Emits s (b :: raw)

/-! ## contracts.go: the type constraints -/

/-- The constraint `TrieInteger`: the types whose underlying type is one of
the eleven listed integer types. -/
def TrieInteger (t : GoType) : Bool :=
  match t.underlying with
  | .uint8 | .uint16 | .uint32 | .uint64 | .uint | .uintptr => true
  | .int8 | .int16 | .int32 | .int64 | .int => true
  | _ => false

/-- The constraint `TrieString`: the types whose underlying type is `string`. -/
def TrieString (t : GoType) : Bool :=
  match t.underlying with
  | .string => true
  | _ => false

/-- The constraint `TrieSlice`: the types whose underlying type is a slice of
one of the eleven predeclared integer types. -/
def TrieSlice (t : GoType) : Bool :=
  match t.underlying with
  | .slice .uint8 | .slice .uint16 | .slice .uint32 | .slice .uint64 => true
  | .slice .uint | .slice .uintptr => true
  | .slice .int8 | .slice .int16 | .slice .int32 | .slice .int64 | .slice .int => true
  | _ => false

/-- The constraint `TrieIntegerString`. -/
def TrieIntegerString (t : GoType) : Bool :=
  TrieInteger t || TrieString t

/-- The constraint `TrieKey`. -/
def TrieKey (t : GoType) : Bool :=
  TrieIntegerString t || TrieSlice t

/-! ## simple_trie.go: the bulk constructor -/

/-- The function `NewTrieFromMap[TKey, TValue]`.  The map is given as the list
of its pairs in the order in which `range` visits them; the inner result is
the pair `(trie, err)`, of which exactly one is non-nil. -/
def NewTrieFromMap (V : Type) [Inhabited V] (TKey : GoType) (mapped : List (Key × V))
    (transforms : List TransformFunc) : Except Fault (Except Error (SimpleTrie V)) :=
  match NewTrie V TKey transforms with
  | .error err => .ok (.error err)
  | .ok trie => do
    let (_, trie) ← trie.AddAll mapped
    .ok (.ok trie)

/-! ## Converter states, repeated calls of `Next`, the nodes of a tree -/

/-- The states of the converter of a trie of key type `TKey` and transform
list `transforms`: the converter `NewTrie` builds, and what `Load` with a key
of type `TKey` and `Next` make of it. -/
inductive converter.Reached (TKey : GoType) (transforms : List TransformFunc) :
    converter → Prop where
  | new {V : Type} [Inhabited V] {trie : SimpleTrie V} :
      NewTrie V TKey transforms = .ok trie → converter.Reached TKey transforms trie.converter
  | load {c c1 : converter} {key : Key} {err : Option Error} :
      converter.Reached TKey transforms c → key.HasType TKey = true →
      c.Load key = .ok (c1, err) → converter.Reached TKey transforms c1
  | next {c c1 : converter} {r : Byte × Bool} :
      converter.Reached TKey transforms c → c.Next = .ok (r, c1) →
      converter.Reached TKey transforms c1

/-- Calls `Next` a number of times: what the calls return, in order, and the
converter as the last call leaves it. -/
def converter.NextTimes : Nat → converter → Except Fault (List (Byte × Bool) × converter)
  | 0, c => .ok ([], c)
  | n + 1, c => do
    let (r, c) ← c.Next
    let (rs, c) ← converter.NextTimes n c
    .ok (r :: rs, c)

mutual

/-- The nodes of the tree below and including a node, the node first. -/
def simpleNode.nodes {V : Type} : simpleNode V → List (simpleNode V)
  | .mk hasValue value key next =>
    .mk hasValue value key next :: simpleNode.nodesOf next

/-- The nodes of the trees of a list of children. -/
def simpleNode.nodesOf {V : Type} : List (simpleNode V) → List (simpleNode V)
  | [] => []
  | c :: cs => simpleNode.nodes c ++ simpleNode.nodesOf cs

end

/-- The number of nodes of the tree, root included, whose flag `hasValue` is
set. -/
def simpleNode.valueCount {V : Type} (n : simpleNode V) : Nat :=
  n.nodes.countP fun m => m.hasValue

/-- The trie `NewTrie[[]uint16, int]()` returns. -/
def sliceTrie : SimpleTrie Int :=
  { converter := .plain (.IntSlice ⟨.uint16, 0, .UInt16 ⟨0, [0, 0]⟩, []⟩),
    head := simpleNode.literal 0, length := 0 }

/-- The trie `NewTrie[string, int]()` returns, after `Add("b", 1)` and
`Add("a", 2)`. -/
def pairTrie : SimpleTrie Int :=
  { converter := .plain (.leaf (.String ⟨1, [97]⟩)),
    head := .mk false 0 0 [.mk true 2 97 [], .mk true 1 98 []], length := 2 }

/-- The raw bytes (before any transform) a converter has yet to pull from the
key. -/
def converter.rawRemaining : converter → List Byte
  | .plain c => c.remaining
  | .Transforms c => c.subConverter.remaining

mutual

/-- The nodes of the tree below and including a node, each with its path: the
sequence of edge bytes from the node down to it. -/
def simpleNode.paths {V : Type} : simpleNode V → List (List Byte × simpleNode V)
  | .mk hasValue value key next =>
    ([], .mk hasValue value key next) :: simpleNode.pathsOf next

/-- The nodes of the trees of a list of children, each with its path from the
parent of the children. -/
def simpleNode.pathsOf {V : Type} : List (simpleNode V) → List (List Byte × simpleNode V)
  | [] => []
  | c :: cs =>
    (simpleNode.paths c).map (fun p => (c.key :: p.1, p.2)) ++ simpleNode.pathsOf cs

end

/-- The length of the longest prefix of a byte sequence that is present as a
path from the node. -/
def simpleNode.matched {V : Type} : simpleNode V → List Byte → Nat
  | _, [] => 0
  | n, b :: bs =>
    match n.next.find? (fun c => c.key = b) with
    | some c => simpleNode.matched c bs + 1
    | none => 0

/-- The pair a call adds: the key and value of an `Add`, nothing for a
`Find`. -/
def Call.added {V : Type} : Call V → Option (Key × V)
  | .Add key value => some (key, value)
  | .Find _ => none

/-! ## Lemmas: the converters, the node engine -/

theorem cursor_cases {α : Type} (value : List α) (p : Nat) :
    (value.length ≤ p ∧ value.drop p = []) ∨
    (∃ x, p < value.length ∧ value[p]? = some x ∧ value.drop p = x :: value.drop (p + 1)) := by
  by_cases h : p < value.length
  · exact Or.inr ⟨value[p], h, List.getElem?_eq_getElem h, List.drop_eq_getElem_cons h⟩
  · exact Or.inl ⟨by omega, List.drop_eq_nil_of_le (by omega)⟩

theorem leafConverter.leaf_next_spec (c : leafConverter) (T : GoType) (h : c.Serves T) :
    NextSpec leafConverter.Next leafConverter.remaining (fun c1 => c1.Serves T) c := by
  cases c with
  | UInt8 c =>
    obtain ⟨p, v⟩ := c
    rcases p with _ | p
    · exact ⟨.UInt8 ⟨1, v⟩, h, by
        simp [leafConverter.remaining, leafConverter.Next, converterUInt8.Next, Except.map]⟩
    · exact ⟨.UInt8 ⟨p + 1, v⟩, h, by
        simp [leafConverter.remaining, leafConverter.Next, converterUInt8.Next, Except.map]⟩
  | Int8 c =>
    obtain ⟨p, v⟩ := c
    rcases p with _ | p
    · exact ⟨.Int8 ⟨1, v⟩, h, by
        simp [leafConverter.remaining, leafConverter.Next, converterInt8.Next, Except.map]⟩
    · exact ⟨.Int8 ⟨p + 1, v⟩, h, by
        simp [leafConverter.remaining, leafConverter.Next, converterInt8.Next, Except.map]⟩
  | UInt16 c =>
    obtain ⟨p, v⟩ := c
    obtain ⟨hT, hv⟩ := h
    simp only at hv
    rcases cursor_cases v p with ⟨hle, hd⟩ | ⟨x, hlt, hx, hd⟩
    · have hp : p > 1 := by omega
      exact ⟨.UInt16 ⟨p, v⟩, ⟨hT, hv⟩, by
        simp [leafConverter.remaining, leafConverter.Next, converterUInt16.Next, Except.map, hd, hp]⟩
    · have hp : ¬ p > 1 := by omega
      have hm : p + 1 < 256 := by omega
      exact ⟨.UInt16 ⟨p + 1, v⟩, ⟨hT, hv⟩, by
        simp [leafConverter.remaining, leafConverter.Next, converterUInt16.Next, Except.map, index,
          bind, Except.bind, hd, hp, hx, hm]⟩
  | Int16 c =>
    obtain ⟨p, v⟩ := c
    obtain ⟨hT, hv⟩ := h
    simp only at hv
    rcases cursor_cases v p with ⟨hle, hd⟩ | ⟨x, hlt, hx, hd⟩
    · have hp : p > 1 := by omega
      exact ⟨.Int16 ⟨p, v⟩, ⟨hT, hv⟩, by
        simp [leafConverter.remaining, leafConverter.Next, converterInt16.Next, Except.map, hd, hp]⟩
    · have hp : ¬ p > 1 := by omega
      have hm : p + 1 < 256 := by omega
      exact ⟨.Int16 ⟨p + 1, v⟩, ⟨hT, hv⟩, by
        simp [leafConverter.remaining, leafConverter.Next, converterInt16.Next, Except.map, index,
          bind, Except.bind, hd, hp, hx, hm]⟩
  | UInt32 c =>
    obtain ⟨p, v⟩ := c
    obtain ⟨hT, hv⟩ := h
    simp only at hv
    rcases cursor_cases v p with ⟨hle, hd⟩ | ⟨x, hlt, hx, hd⟩
    · have hp : p > 3 := by omega
      exact ⟨.UInt32 ⟨p, v⟩, ⟨hT, hv⟩, by
        simp [leafConverter.remaining, leafConverter.Next, converterUInt32.Next, Except.map, hd, hp]⟩
    · have hp : ¬ p > 3 := by omega
      have hm : p + 1 < 256 := by omega
      exact ⟨.UInt32 ⟨p + 1, v⟩, ⟨hT, hv⟩, by
        simp [leafConverter.remaining, leafConverter.Next, converterUInt32.Next, Except.map, index,
          bind, Except.bind, hd, hp, hx, hm]⟩
  | Int32 c =>
    obtain ⟨p, v⟩ := c
    obtain ⟨hT, hv⟩ := h
    simp only at hv
    rcases cursor_cases v p with ⟨hle, hd⟩ | ⟨x, hlt, hx, hd⟩
    · have hp : p > 3 := by omega
      exact ⟨.Int32 ⟨p, v⟩, ⟨hT, hv⟩, by
        simp [leafConverter.remaining, leafConverter.Next, converterInt32.Next, Except.map, hd, hp]⟩
    · have hp : ¬ p > 3 := by omega
      have hm : p + 1 < 256 := by omega
      exact ⟨.Int32 ⟨p + 1, v⟩, ⟨hT, hv⟩, by
        simp [leafConverter.remaining, leafConverter.Next, converterInt32.Next, Except.map, index,
          bind, Except.bind, hd, hp, hx, hm]⟩
  | UInt64 c =>
    obtain ⟨p, v⟩ := c
    obtain ⟨hT, hv⟩ := h
    simp only at hv
    rcases cursor_cases v p with ⟨hle, hd⟩ | ⟨x, hlt, hx, hd⟩
    · have hp : p > 7 := by omega
      exact ⟨.UInt64 ⟨p, v⟩, ⟨hT, hv⟩, by
        simp [leafConverter.remaining, leafConverter.Next, converterUInt64.Next, Except.map, hd, hp]⟩
    · have hp : ¬ p > 7 := by omega
      have hm : p + 1 < 256 := by omega
      exact ⟨.UInt64 ⟨p + 1, v⟩, ⟨hT, hv⟩, by
        simp [leafConverter.remaining, leafConverter.Next, converterUInt64.Next, Except.map, index,
          bind, Except.bind, hd, hp, hx, hm]⟩
  | Int64 c =>
    obtain ⟨p, v⟩ := c
    obtain ⟨hT, hv⟩ := h
    simp only at hv
    rcases cursor_cases v p with ⟨hle, hd⟩ | ⟨x, hlt, hx, hd⟩
    · have hp : p > 7 := by omega
      exact ⟨.Int64 ⟨p, v⟩, ⟨hT, hv⟩, by
        simp [leafConverter.remaining, leafConverter.Next, converterInt64.Next, Except.map, hd, hp]⟩
    · have hp : ¬ p > 7 := by omega
      have hm : p + 1 < 256 := by omega
      exact ⟨.Int64 ⟨p + 1, v⟩, ⟨hT, hv⟩, by
        simp [leafConverter.remaining, leafConverter.Next, converterInt64.Next, Except.map, index,
          bind, Except.bind, hd, hp, hx, hm]⟩
  | String c =>
    obtain ⟨p, v⟩ := c
    rcases cursor_cases v p with ⟨hle, hd⟩ | ⟨x, hlt, hx, hd⟩
    · exact ⟨.String ⟨p, v⟩, h, by
        simp [leafConverter.remaining, leafConverter.Next, converterString.Next, Except.map, hd, hle]⟩
    · have hp : ¬ p ≥ v.length := by omega
      exact ⟨.String ⟨p + 1, v⟩, h, by
        simp [leafConverter.remaining, leafConverter.Next, converterString.Next, Except.map, index,
          bind, Except.bind, hd, hp, hx]⟩
  | Int8Slice c =>
    obtain ⟨t, p, v⟩ := c
    rcases cursor_cases v p with ⟨hle, hd⟩ | ⟨x, hlt, hx, hd⟩
    · exact ⟨.Int8Slice ⟨t, p, v⟩, h, by
        simp [leafConverter.remaining, leafConverter.Next, converterInt8Slice.Next, Except.map, hd, hle]⟩
    · have hp : ¬ p ≥ v.length := by omega
      exact ⟨.Int8Slice ⟨t, p + 1, v⟩, h, by
        simp [leafConverter.remaining, leafConverter.Next, converterInt8Slice.Next, Except.map, index,
          bind, Except.bind, hd, hp, hx]⟩

theorem PutUint16_eq (v : Nat) : PutUint16 v = bigEndian 2 v := by
  simp [PutUint16, bigEndian]

theorem PutUint32_eq (v : Nat) : PutUint32 v = bigEndian 4 v := by
  simp [PutUint32, bigEndian, Nat.div_div_eq_div_mul]

theorem PutUint64_eq (v : Nat) : PutUint64 v = bigEndian 8 v := by
  simp [PutUint64, bigEndian, Nat.div_div_eq_div_mul]

theorem bigEndian_length (n v : Nat) : (bigEndian n v).length = n := by
  induction n generalizing v with
  | zero => rfl
  | succ n ih => simp [bigEndian, ih]

theorem encodeInt_length (t : GoType) (v : Int) : (encodeInt t v).length = t.bits / 8 := by
  simp [encodeInt, bigEndian_length]

theorem flatMap_encodeInt8 (e : GoType) (he : e = .uint8 ∨ e = .int8) (xs : List Int) :
    xs.flatMap (encodeInt e) = xs.map fun x => byte (toUint 8 x) := by
  induction xs with
  | nil => rfl
  | cons x xs ih =>
    rcases he with rfl | rfl <;>
      simp_all [List.flatMap_cons, encodeInt, GoType.bits, bigEndian]

theorem leafConverter.leaf_load_spec (c : leafConverter) (T : GoType) (k : Key)
    (h : c.Serves T) (hk : k.HasType T = true) :
    ∃ c1, c.Load k = .ok (c1, none) ∧ c1.Serves T ∧ c1.remaining = encode k := by
  cases c with
  | UInt8 c =>
    obtain rfl := h
    cases k <;> simp [Key.HasType, Key.type, GoType.holds, GoType.underlying, GoType.range] at hk
    obtain ⟨rfl, _⟩ := hk
    exact ⟨_, rfl, rfl, by simp [leafConverter.remaining, encode, encodeInt, GoType.bits, bigEndian]⟩
  | Int8 c =>
    obtain rfl := h
    cases k <;> simp [Key.HasType, Key.type, GoType.holds, GoType.underlying, GoType.range] at hk
    obtain ⟨rfl, _⟩ := hk
    exact ⟨_, rfl, rfl, by simp [leafConverter.remaining, encode, encodeInt, GoType.bits, bigEndian]⟩
  | UInt16 c =>
    obtain ⟨rfl, hv⟩ := h
    cases k <;> simp [Key.HasType, Key.type, GoType.holds, GoType.underlying, GoType.range] at hk
    obtain ⟨rfl, _⟩ := hk
    exact ⟨_, rfl, ⟨rfl, rfl⟩, by
      simp [leafConverter.remaining, encode, encodeInt, GoType.bits, PutUint16_eq]⟩
  | Int16 c =>
    obtain ⟨rfl, hv⟩ := h
    cases k <;> simp [Key.HasType, Key.type, GoType.holds, GoType.underlying, GoType.range] at hk
    obtain ⟨rfl, _⟩ := hk
    exact ⟨_, rfl, ⟨rfl, rfl⟩, by
      simp [leafConverter.remaining, encode, encodeInt, GoType.bits, PutUint16_eq]⟩
  | UInt32 c =>
    obtain ⟨rfl, hv⟩ := h
    cases k <;> simp [Key.HasType, Key.type, GoType.holds, GoType.underlying, GoType.range] at hk
    obtain ⟨rfl, _⟩ := hk
    exact ⟨_, rfl, ⟨rfl, rfl⟩, by
      simp [leafConverter.remaining, encode, encodeInt, GoType.bits, PutUint32_eq]⟩
  | Int32 c =>
    obtain ⟨rfl, hv⟩ := h
    cases k <;> simp [Key.HasType, Key.type, GoType.holds, GoType.underlying, GoType.range] at hk
    obtain ⟨rfl, _⟩ := hk
    exact ⟨_, rfl, ⟨rfl, rfl⟩, by
      simp [leafConverter.remaining, encode, encodeInt, GoType.bits, PutUint32_eq]⟩
  | UInt64 c =>
    obtain ⟨rfl, hv⟩ := h
    cases k <;> simp [Key.HasType, Key.type, GoType.holds, GoType.underlying, GoType.range] at hk
    obtain ⟨rfl, _⟩ := hk
    exact ⟨_, rfl, ⟨rfl, rfl⟩, by
      simp [leafConverter.remaining, encode, encodeInt, GoType.bits, PutUint64_eq]⟩
  | Int64 c =>
    obtain ⟨rfl, hv⟩ := h
    cases k <;> simp [Key.HasType, Key.type, GoType.holds, GoType.underlying, GoType.range] at hk
    obtain ⟨rfl, _⟩ := hk
    exact ⟨_, rfl, ⟨rfl, rfl⟩, by
      simp [leafConverter.remaining, encode, encodeInt, GoType.bits, PutUint64_eq]⟩
  | String c =>
    obtain rfl := h
    cases k <;> simp [Key.HasType, Key.type, GoType.holds, GoType.underlying, GoType.range] at hk
    obtain rfl := hk
    exact ⟨_, rfl, rfl, by simp [leafConverter.remaining, encode]⟩
  | Int8Slice c =>
    obtain ⟨t, p, v⟩ := c
    obtain ⟨rfl, ht⟩ := h
    simp only at ht
    cases k with
    | int t1 x =>
      simp [Key.HasType, Key.type, GoType.holds, GoType.underlying, GoType.range] at hk
    | str t1 x =>
      simp [Key.HasType, Key.type, GoType.holds, GoType.underlying, GoType.range] at hk
    | slice t1 xs =>
      simp [Key.HasType, Key.type, GoType.holds, GoType.underlying, GoType.range] at hk
      obtain ⟨rfl, _⟩ := hk
      refine ⟨.Int8Slice ⟨t, 0, xs⟩, ?_, ⟨rfl, ht⟩, ?_⟩
      · simp [leafConverter.Load, converterInt8Slice.Load, Except.map]
      · simp [leafConverter.remaining, encode, flatMap_encodeInt8 t ht]

theorem leafConverter.leaf_remaining_le_bound (c : leafConverter) (T : GoType) (h : c.Serves T) :
    c.remaining.length ≤ c.bound := by
  cases c <;> simp [leafConverter.Serves] at h <;>
    simp [leafConverter.remaining, leafConverter.bound] <;> first | omega | (split <;> simp)

theorem leafConverter.load_int (c : leafConverter) (t : GoType) (v : Int)
    (h : c.Serves t) (ht : t.wide) :
    ∃ c1, c.Load (.int t v) = .ok (c1, none) ∧ c1.Serves t ∧ c1.remaining = encodeInt t v := by
  cases c with
  | UInt8 c => obtain rfl := h; simp [GoType.wide] at ht
  | Int8 c => obtain rfl := h; simp [GoType.wide] at ht
  | UInt16 c =>
    obtain ⟨rfl, hv⟩ := h
    exact ⟨_, rfl, ⟨rfl, rfl⟩, by simp [leafConverter.remaining, encodeInt, GoType.bits, PutUint16_eq]⟩
  | Int16 c =>
    obtain ⟨rfl, hv⟩ := h
    exact ⟨_, rfl, ⟨rfl, rfl⟩, by simp [leafConverter.remaining, encodeInt, GoType.bits, PutUint16_eq]⟩
  | UInt32 c =>
    obtain ⟨rfl, hv⟩ := h
    exact ⟨_, rfl, ⟨rfl, rfl⟩, by simp [leafConverter.remaining, encodeInt, GoType.bits, PutUint32_eq]⟩
  | Int32 c =>
    obtain ⟨rfl, hv⟩ := h
    exact ⟨_, rfl, ⟨rfl, rfl⟩, by simp [leafConverter.remaining, encodeInt, GoType.bits, PutUint32_eq]⟩
  | UInt64 c =>
    obtain ⟨rfl, hv⟩ := h
    exact ⟨_, rfl, ⟨rfl, rfl⟩, by simp [leafConverter.remaining, encodeInt, GoType.bits, PutUint64_eq]⟩
  | Int64 c =>
    obtain ⟨rfl, hv⟩ := h
    exact ⟨_, rfl, ⟨rfl, rfl⟩, by simp [leafConverter.remaining, encodeInt, GoType.bits, PutUint64_eq]⟩
  | String c => obtain rfl := h; simp [GoType.wide] at ht
  | Int8Slice c => obtain ⟨rfl, _⟩ := h; simp [GoType.wide] at ht

theorem encodeInt_wide_ne_nil (t : GoType) (v : Int) (ht : t.wide) :
    ∃ b bs, encodeInt t v = b :: bs := by
  have h : 0 < (encodeInt t v).length := by
    rw [encodeInt_length]
    rcases ht with rfl | rfl | rfl | rfl | rfl | rfl <;> decide
  match hx : encodeInt t v, h with
  | b :: bs, _ => exact ⟨b, bs, rfl⟩

theorem bits_div_le (t : GoType) : t.bits / 8 ≤ 8 := by
  cases t <;> simp [GoType.bits]

theorem flatMap_encodeInt_length (t : GoType) (xs : List Int) :
    (xs.flatMap (encodeInt t)).length = xs.length * (t.bits / 8) := by
  induction xs with
  | nil => simp
  | cons x xs ih => simp [List.flatMap_cons, ih, encodeInt_length, Nat.succ_mul, Nat.add_comm]

theorem plainConverter.plain_next_spec (c : plainConverter) (T : GoType) (h : c.Serves T) :
    NextSpec plainConverter.Next plainConverter.remaining (fun c1 => c1.Serves T) c := by
  cases c with
  | leaf c =>
    obtain ⟨c1, h1, h2⟩ := leafConverter.leaf_next_spec c T h
    refine ⟨.leaf c1, h1, ?_⟩
    simp only [plainConverter.remaining, plainConverter.Next]
    split at h2 <;> rename_i heq <;> simp [heq, h2, Except.map]
  | IntSlice c =>
    obtain ⟨item, pos, sub, value⟩ := c
    obtain ⟨hT, hw, hs⟩ := h
    simp only at hT hw hs
    by_cases hpos : pos ≥ value.length
    · exact ⟨.IntSlice ⟨item, pos, sub, value⟩, ⟨hT, hw, hs⟩, by
        simp [plainConverter.remaining, plainConverter.Next, converterIntSlice.Next, hpos, Except.map]⟩
    · obtain ⟨sub1, hs1, h2⟩ := leafConverter.leaf_next_spec sub item hs
      split at h2
      · rename_i heq
        obtain ⟨hn, hr⟩ := h2
        by_cases hpos1 : pos + 1 ≥ value.length
        · refine ⟨.IntSlice ⟨item, pos + 1, sub1, value⟩, ⟨hT, hw, hs1⟩, ?_⟩
          have hd : List.drop (pos + 1) value = [] := List.drop_eq_nil_of_le hpos1
          simp [plainConverter.remaining, plainConverter.Next, converterIntSlice.Next, hpos, hpos1,
            Except.map, heq, hn, bind, Except.bind, hd]
        · have hlt : pos + 1 < value.length := by omega
          obtain ⟨sub2, hl2, hs2, hr2⟩ := leafConverter.load_int sub1 item value[pos + 1] hs1 hw
          obtain ⟨sub3, hs3, h3⟩ := leafConverter.leaf_next_spec sub2 item hs2
          obtain ⟨b, bs, hbs⟩ := encodeInt_wide_ne_nil item value[pos + 1] hw
          rw [hr2, hbs] at h3
          simp only at h3
          obtain ⟨hn3, hr3⟩ := h3
          refine ⟨.IntSlice ⟨item, pos + 1, sub3, value⟩, ⟨hT, hw, hs3⟩, ?_⟩
          have hd : (List.drop (pos + 1) value).flatMap (encodeInt item) =
              b :: (bs ++ (List.drop (pos + 2) value).flatMap (encodeInt item)) := by
            rw [List.drop_eq_getElem_cons hlt, List.flatMap_cons, hbs]; rfl
          have hpos2 : ¬ value.length ≤ pos + 1 := by omega
          have hpos0 : ¬ value.length ≤ pos := by omega
          simp [plainConverter.remaining, plainConverter.Next, converterIntSlice.Next, hpos0, hpos2,
            Except.map, heq, hn, bind, Except.bind, hd, index, List.getElem?_eq_getElem hlt, hl2,
            hn3, hr3]
      · rename_i b bs heq
        obtain ⟨hn, hr⟩ := h2
        refine ⟨.IntSlice ⟨item, pos, sub1, value⟩, ⟨hT, hw, hs1⟩, ?_⟩
        have hpos0 : ¬ value.length ≤ pos := by omega
        simp [plainConverter.remaining, plainConverter.Next, converterIntSlice.Next, hpos0,
            Except.map, heq, hn, bind, Except.bind, hr]

theorem plainConverter.plain_load_spec (c : plainConverter) (T : GoType) (k : Key)
    (h : c.Serves T) (hk : k.HasType T = true) :
    ∃ c1, c.Load k = .ok (c1, none) ∧ c1.Serves T ∧ c1.remaining = encode k := by
  cases c with
  | leaf c =>
    obtain ⟨c1, h1, h2, h3⟩ := leafConverter.leaf_load_spec c T k h hk
    exact ⟨.leaf c1, by simp [plainConverter.Load, h1, Except.map], h2, h3⟩
  | IntSlice c =>
    obtain ⟨item, pos, sub, value⟩ := c
    obtain ⟨hT, hw, hs⟩ := h
    simp only at hT hw hs
    subst hT
    cases k with
    | int t1 x =>
      simp [Key.HasType, Key.type, GoType.holds, GoType.underlying, GoType.range] at hk
    | str t1 x =>
      simp [Key.HasType, Key.type, GoType.holds, GoType.underlying, GoType.range] at hk
    | slice t1 xs =>
      simp [Key.HasType, Key.type, GoType.holds, GoType.underlying, GoType.range] at hk
      obtain ⟨rfl, _⟩ := hk
      cases xs with
      | nil =>
        exact ⟨.IntSlice ⟨item, 0, sub, []⟩, by
          simp [plainConverter.Load, converterIntSlice.Load, Except.map], ⟨rfl, hw, hs⟩, by
          simp [plainConverter.remaining, encode]⟩
      | cons x xs =>
        obtain ⟨sub1, hl1, hs1, hr1⟩ := leafConverter.load_int sub item x hs hw
        exact ⟨.IntSlice ⟨item, 0, sub1, x :: xs⟩, by
          simp [plainConverter.Load, converterIntSlice.Load, Except.map, index, bind, Except.bind,
            hl1], ⟨rfl, hw, hs1⟩, by
          simp [plainConverter.remaining, encode, hr1, List.flatMap_cons]⟩

theorem plainConverter.plain_remaining_le_bound (c : plainConverter) (T : GoType) (h : c.Serves T) :
    c.remaining.length ≤ c.bound := by
  cases c with
  | leaf c => exact leafConverter.leaf_remaining_le_bound c T h
  | IntSlice c =>
    obtain ⟨item, pos, sub, value⟩ := c
    obtain ⟨hT, hw, hs⟩ := h
    simp only at hT hw hs
    simp only [plainConverter.remaining, plainConverter.bound]
    split
    · simp
    · rename_i hpos
      have h1 := leafConverter.leaf_remaining_le_bound sub item hs
      have h2 : sub.bound ≤ 8 := by
        cases sub <;> simp [leafConverter.Serves] at hs <;> simp [leafConverter.bound] <;>
          (rcases hw with rfl | rfl | rfl | rfl | rfl | rfl <;> simp_all)
      have h3 := bits_div_le item
      have h4 : (value.length - (pos + 1)) * (item.bits / 8) ≤ (value.length - (pos + 1)) * 8 :=
        Nat.mul_le_mul_left _ h3
      simp only [List.length_append, flatMap_encodeInt_length, List.length_drop]
      omega

theorem range_spec (fs : List TransformFunc) (b : Byte) :
    match transformByte fs b with
    | some out => converterTransforms.Next.range fs b = (out, true)
    | none => (converterTransforms.Next.range fs b).2 = false := by
  induction fs generalizing b with
  | nil => simp [transformByte, converterTransforms.Next.range]
  | cons f fs ih =>
    simp only [transformByte, converterTransforms.Next.range]
    cases hf : (f b).2
    · simp [hf]
    · simpa [hf] using ih (f b).1

theorem transformStream_nil (raw : List Byte) : transformStream [] raw = raw := by
  induction raw with
  | nil => rfl
  | cons b bs ih => simp [transformStream, transformByte]

theorem transformStream_length_le (fs : List TransformFunc) (raw : List Byte) :
    (transformStream fs raw).length ≤ raw.length :=
  List.length_filterMap_le _ _

theorem converterTransforms.transform_loop_spec (fs : List TransformFunc) (T : GoType) (fuel : Nat) :
    ∀ sub : plainConverter, sub.Serves T → sub.remaining.length < fuel →
    NextSpec (converterTransforms.Next.loop fs fuel)
      (fun s => transformStream fs s.remaining) (fun s => s.Serves T) sub := by
  induction fuel with
  | zero => intro sub _ h; omega
  | succ fuel ih =>
    intro sub hs hlen
    obtain ⟨sub1, hs1, h1⟩ := plainConverter.plain_next_spec sub T hs
    split at h1
    · rename_i heq
      obtain ⟨hn, hr⟩ := h1
      refine ⟨sub1, hs1, ?_⟩
      simp [heq, hr, transformStream, converterTransforms.Next.loop, hn, bind, Except.bind]
    · rename_i r rs heq
      obtain ⟨hn, hr⟩ := h1
      have hrange := range_spec fs r
      cases ht : transformByte fs r with
      | some out =>
        rw [ht] at hrange
        refine ⟨sub1, hs1, ?_⟩
        simp [heq, hr, transformStream, converterTransforms.Next.loop, hn, bind, Except.bind, ht,
          hrange]
      | none =>
        rw [ht] at hrange
        have hlen1 : sub1.remaining.length < fuel := by
          rw [hr]; rw [heq] at hlen; simp at hlen; omega
        obtain ⟨sub2, hs2, h2⟩ := ih sub1 hs1 hlen1
        refine ⟨sub2, hs2, ?_⟩
        have hstream : transformStream fs sub.remaining = transformStream fs sub1.remaining := by
          simp [heq, hr, transformStream, ht]
        simp only [hstream]
        have hloop : converterTransforms.Next.loop fs (fuel + 1) sub =
            converterTransforms.Next.loop fs fuel sub1 := by
          simp only [converterTransforms.Next.loop, hn, bind, Except.bind]
          cases hx : converterTransforms.Next.range fs r with
          | mk v p =>
            rw [hx] at hrange
            simp only at hrange
            subst hrange
            simp
        rw [hloop]
        exact h2

theorem converter.next_spec (c : converter) (T : GoType) (fs : List TransformFunc)
    (h : c.Serves T fs) :
    NextSpec converter.Next converter.remaining (fun c1 => c1.Serves T fs) c := by
  cases c with
  | plain c =>
    obtain ⟨hfs, hs⟩ := h
    obtain ⟨c1, h1, h2⟩ := plainConverter.plain_next_spec c T hs
    refine ⟨.plain c1, ⟨hfs, h1⟩, ?_⟩
    simp only [converter.remaining, converter.Next]
    split at h2 <;> rename_i heq <;> simp [heq, h2, Except.map]
  | Transforms c =>
    obtain ⟨sub, ts⟩ := c
    obtain ⟨hfs, hs⟩ := h
    simp only at hfs hs
    subst hfs
    have hb := plainConverter.plain_remaining_le_bound sub T hs
    obtain ⟨sub1, hs1, h2⟩ := converterTransforms.transform_loop_spec ts T (sub.bound + 1) sub hs (by omega)
    refine ⟨.Transforms ⟨sub1, ts⟩, ⟨rfl, hs1⟩, ?_⟩
    simp only [converter.remaining, converter.Next, converterTransforms.Next]
    split at h2 <;> rename_i heq <;> simp [heq, h2, Except.map]

theorem converter.load_spec (c : converter) (T : GoType) (fs : List TransformFunc) (k : Key)
    (h : c.Serves T fs) (hk : k.HasType T = true) :
    ∃ c1, c.Load k = .ok (c1, none) ∧ c1.Serves T fs ∧ c1.remaining = effective fs k := by
  cases c with
  | plain c =>
    obtain ⟨hfs, hs⟩ := h
    obtain ⟨c1, h1, h2, h3⟩ := plainConverter.plain_load_spec c T k hs hk
    exact ⟨.plain c1, by simp [converter.Load, h1, Except.map], ⟨hfs, h2⟩, by
      simp [converter.remaining, h3, effective, hfs, transformStream_nil]⟩
  | Transforms c =>
    obtain ⟨sub, ts⟩ := c
    obtain ⟨hfs, hs⟩ := h
    simp only at hfs hs
    subst hfs
    obtain ⟨c1, h1, h2, h3⟩ := plainConverter.plain_load_spec sub T k hs hk
    exact ⟨.Transforms ⟨c1, ts⟩, by
      simp [converter.Load, converterTransforms.Load, h1, Except.map], ⟨rfl, h2⟩, by
      simp [converter.remaining, h3, effective]⟩

theorem converter.remaining_le_bound (c : converter) (T : GoType) (fs : List TransformFunc)
    (h : c.Serves T fs) : c.remaining.length ≤ c.bound := by
  cases c with
  | plain c => exact plainConverter.plain_remaining_le_bound c T h.2
  | Transforms c =>
    exact le_trans (transformStream_length_le _ _)
      (plainConverter.plain_remaining_le_bound c.subConverter T h.2)

theorem converter.drain_spec (T : GoType) (fs : List TransformFunc) (fuel : Nat) :
    ∀ c : converter, c.Serves T fs → c.remaining.length < fuel →
    ∃ c1, c.drain fuel = .ok (c.remaining, c1) ∧ c1.Serves T fs := by
  induction fuel with
  | zero => intro c _ h; omega
  | succ fuel ih =>
    intro c hs hlen
    obtain ⟨c1, hs1, h1⟩ := converter.next_spec c T fs hs
    split at h1
    · rename_i heq
      exact ⟨c1, by simp [converter.drain, h1.1, heq, bind, Except.bind], hs1⟩
    · rename_i b bs heq
      obtain ⟨hn, hr⟩ := h1
      obtain ⟨c2, hd2, hs2⟩ := ih c1 hs1 (by rw [hr]; rw [heq] at hlen; simp at hlen; omega)
      exact ⟨c2, by simp [converter.drain, hn, heq, bind, Except.bind, hd2, hr], hs2⟩

theorem converter.stream_spec (c : converter) (T : GoType) (fs : List TransformFunc) (k : Key)
    (h : c.Serves T fs) (hk : k.HasType T = true) :
    c.stream k = .ok (effective fs k) := by
  obtain ⟨c1, h1, h2, h3⟩ := converter.load_spec c T fs k h hk
  obtain ⟨c2, hd, _⟩ := converter.drain_spec T fs (c1.bound + 1) c1 h2
    (by have := converter.remaining_le_bound c1 T fs h2; omega)
  simp [converter.stream, h1, bind, Except.bind, hd, h3]

namespace simpleNode
variable {V : Type}

theorem Sorted.pairwise {n : simpleNode V} (h : Sorted n) :
    n.next.Pairwise (fun a b => a.key < b.key) := by
  cases h with
  | mk _ _ _ _ hp _ => exact hp

theorem Sorted.child {n : simpleNode V} (h : Sorted n) : ∀ c ∈ n.next, Sorted c := by
  cases h with
  | mk _ _ _ _ _ hc => exact hc

theorem binarySearchNext.search_loop_spec (next : List (simpleNode V)) (key : Byte)
    (hp : next.Pairwise (fun a b => a.key < b.key)) (fuel : Nat) :
    ∀ (bottom top : Int) (nn : Option Nat), 0 ≤ bottom → top < next.length →
    top - bottom + 1 ≤ fuel →
    (∀ i (h : i < next.length), (i : Int) < bottom → next[i].key < key) →
    (∀ i (h : i < next.length), top < (i : Int) → key < next[i].key) →
    (∃ i, ∃ h : i < next.length, next[i].key = key ∧
        binarySearchNext.loop next key fuel bottom top nn = .ok (some i, true)) ∨
    ((∀ c ∈ next, c.key ≠ key) ∧
        ∃ nn1, binarySearchNext.loop next key fuel bottom top nn = .ok (nn1, false)) := by
  have notfound : ∀ (bottom top : Int), top < bottom →
      (∀ i (h : i < next.length), (i : Int) < bottom → next[i].key < key) →
      (∀ i (h : i < next.length), top < (i : Int) → key < next[i].key) →
      ∀ c ∈ next, c.key ≠ key := by
    intro bottom top hlt hlo hhi c hc
    obtain ⟨i, hi, rfl⟩ := List.getElem_of_mem hc
    by_cases hb : (i : Int) < bottom
    · exact ne_of_lt (hlo i hi hb)
    · exact ne_of_gt (hhi i hi (by omega))
  induction fuel with
  | zero =>
    intro bottom top nn hb ht hf hlo hhi
    have hlt : top < bottom := by omega
    refine Or.inr ⟨notfound bottom top hlt hlo hhi, nn, ?_⟩
    simp [binarySearchNext.loop, hlt]
  | succ fuel ih =>
    intro bottom top nn hb ht hf hlo hhi
    by_cases hge : top ≥ bottom
    · have hdiv : Int.tdiv (top - bottom) 2 = (top - bottom) / 2 :=
        Int.tdiv_eq_ediv (by omega) (by omega)
      obtain ⟨idx, hidx⟩ : ∃ idx : Nat, (idx : Int) = (top - bottom) / 2 + bottom :=
        ⟨((top - bottom) / 2 + bottom).toNat, by omega⟩
      have hlen : idx < next.length := by omega
      have hnot : ¬ ((top - bottom) / 2 + bottom < 0) := by omega
      have htoNat : ((top - bottom) / 2 + bottom).toNat = idx := by omega
      rcases lt_trichotomy next[idx].key key with hlt | heq | hgt
      · have hne : ¬ next[idx].key = key := ne_of_lt hlt
        have hngt : ¬ next[idx].key > key := not_lt_of_gt hlt
        have hrec := ih ((top - bottom) / 2 + bottom + 1) top (some idx) (by omega) ht (by omega)
          (by
            intro i hi hib
            by_cases hii : i = idx
            · subst hii; exact hlt
            · have : i < idx := by omega
              exact lt_trans (List.pairwise_iff_getElem.mp hp i idx hi hlen this) hlt)
          hhi
        simpa [binarySearchNext.loop, hge, hdiv, hnot, htoNat, index,
          List.getElem?_eq_getElem hlen, bind, Except.bind, hne, hngt] using hrec
      · refine Or.inl ⟨idx, hlen, heq, ?_⟩
        simp [binarySearchNext.loop, hge, hdiv, hnot, htoNat, index,
          List.getElem?_eq_getElem hlen, bind, Except.bind, heq]
      · have hne : ¬ next[idx].key = key := ne_of_gt hgt
        have hrec := ih bottom ((top - bottom) / 2 + bottom - 1) (some idx) hb (by omega) (by omega)
          hlo
          (by
            intro i hi hib
            by_cases hii : i = idx
            · subst hii; exact hgt
            · have : idx < i := by omega
              exact lt_trans hgt (List.pairwise_iff_getElem.mp hp idx i hlen hi this))
        simpa [binarySearchNext.loop, hge, hdiv, hnot, htoNat, index,
          List.getElem?_eq_getElem hlen, bind, Except.bind, hne, hgt] using hrec
    · have hlt : top < bottom := by omega
      refine Or.inr ⟨notfound bottom top hlt hlo hhi, nn, ?_⟩
      simp [binarySearchNext.loop, hge]

theorem binarySearchNext_spec (n : simpleNode V) (key : Byte) (hs : Sorted n) :
    (∃ i, ∃ h : i < n.next.length, n.next[i].key = key ∧
        n.binarySearchNext key = .ok (some i, true)) ∨
    ((∀ c ∈ n.next, c.key ≠ key) ∧ ∃ nn1, n.binarySearchNext key = .ok (nn1, false)) := by
  have := binarySearchNext.search_loop_spec n.next key hs.pairwise n.next.length 0
    ((n.next.length : Int) - 1) none (by omega) (by omega) (by omega)
    (by intro i _ hi; omega) (by intro i hi hlt; omega)
  simpa [binarySearchNext] using this

end simpleNode
namespace simpleNode
variable {V : Type}

theorem insertNewNode.insert_loop_spec (key : Byte) (n : Nat) :
    ∀ (orig : List (simpleNode V)) (hole : simpleNode V), n ≤ orig.length →
    ∃ m hole1, m ≤ n ∧
      insertNewNode.loop key n (orig.take n ++ hole :: orig.drop n) =
        .ok (orig.take m ++ hole1 :: orig.drop m, (m : Int) - 1) ∧
      (∀ x ∈ (orig.take n).drop m, x.key > key) ∧
      (∀ h : m - 1 < orig.length, 0 < m → ¬ orig[m - 1].key > key) := by
  induction n with
  | zero =>
    intro orig hole _
    exact ⟨0, hole, le_refl _, by simp [insertNewNode.loop], by simp, by simp⟩
  | succ n ih =>
    intro orig hole hn
    have hlt : n < orig.length := by omega
    have hidx : (List.take (n + 1) orig ++ hole :: List.drop (n + 1) orig)[n]? = some orig[n] := by
      rw [List.getElem?_append_left (by simp; omega)]
      rw [List.getElem?_take, if_pos (by omega)]
      exact List.getElem?_eq_getElem hlt
    by_cases hgt : orig[n].key > key
    · obtain ⟨m, hole1, hm, hloop, hall, hstop⟩ := ih orig orig[n] (by omega)
      refine ⟨m, hole1, by omega, ?_, ?_, hstop⟩
      · have hset : (List.take (n + 1) orig ++ hole :: List.drop (n + 1) orig).set (n + 1) orig[n]
            = List.take n orig ++ orig[n] :: List.drop n orig := by
          have hl : (List.take (n + 1) orig).length = n + 1 := by simp; omega
          rw [List.set_append_right _ _ (by omega), hl]
          simp only [Nat.sub_self, List.set_cons_zero]
          rw [List.take_succ, List.getElem?_eq_getElem hlt, List.drop_eq_getElem_cons hlt]
          simp only [Option.toList_some, List.append_assoc, List.singleton_append]
        have hlen : n + 1 < (List.take (n + 1) orig ++ hole :: List.drop (n + 1) orig).length := by
          simp; omega
        simp only [insertNewNode.loop, index, hidx, bind, Except.bind, hgt, if_true, assign, hlen,
          hset]
        exact hloop
      · intro x hx
        rw [List.take_succ, List.getElem?_eq_getElem hlt] at hx
        simp only [Option.toList_some] at hx
        rw [List.drop_append_of_le_length (by simp; omega)] at hx
        rcases List.mem_append.mp hx with h1 | h1
        · exact hall x h1
        · simp at h1; subst h1; exact hgt
    · refine ⟨n + 1, hole, le_refl _, ?_, ?_, ?_⟩
      · simp [insertNewNode.loop, index, hidx, bind, Except.bind, hgt]
      · intro x hx
        rw [List.drop_eq_nil_of_le (by simp)] at hx
        simp at hx
      · intro _ _
        simpa using hgt

theorem insertNewNode_spec [Inhabited V] (hasValue : Bool) (value : V) (k : Byte)
    (next : List (simpleNode V)) (key : Byte) :
    ∃ m, m ≤ next.length ∧
      (mk hasValue value k next).insertNewNode key =
        .ok (mk hasValue value k (next.take m ++ literal key :: next.drop m), m) ∧
      (∀ x ∈ next.drop m, x.key > key) ∧
      (∀ h : m - 1 < next.length, 0 < m → ¬ next[m - 1].key > key) := by
  by_cases hnil : next = []
  · subst hnil
    exact ⟨0, le_refl _, by simp [insertNewNode], by simp, by simp⟩
  · have hlen : next.length ≠ 0 := by simpa using hnil
    obtain ⟨m, hole1, hm, hloop, hall, hstop⟩ :=
      insertNewNode.insert_loop_spec key next.length next (literal 0) (le_refl _)
    simp only [List.take_length, List.drop_length] at hloop hall
    refine ⟨m, hm, ?_, hall, hstop⟩
    have h1 : ((((next ++ [literal (0 : Byte)]).length : Int) - 2 + 1).toNat) = next.length := by
      simp; omega
    have h2 : ¬ ((m : Int) - 1 + 1 < 0) := by omega
    have h3 : ((m : Int) - 1 + 1).toNat = m := by omega
    have h4 : m < (List.take m next ++ hole1 :: List.drop m next).length := by simp; omega
    have h5 : (List.take m next ++ hole1 :: List.drop m next).set m (literal key) =
        List.take m next ++ literal key :: List.drop m next := by
      have hl : (List.take m next).length = m := by simp; omega
      rw [List.set_append_right _ _ (by omega), hl]
      simp
    simp only [insertNewNode, hlen, if_false, h1, hloop, bind, Except.bind, h2, h3, assign, h4,
      if_true, h5]

end simpleNode
namespace simpleNode
variable {V : Type}

@[simp] theorem hasValue_mk (h : Bool) (v : V) (k : Byte) (n : List (simpleNode V)) :
    (mk h v k n).hasValue = h := rfl

@[simp] theorem value_mk (h : Bool) (v : V) (k : Byte) (n : List (simpleNode V)) :
    (mk h v k n).value = v := rfl

@[simp] theorem key_mk (h : Bool) (v : V) (k : Byte) (n : List (simpleNode V)) :
    (mk h v k n).key = k := rfl

@[simp] theorem next_mk (h : Bool) (v : V) (k : Byte) (n : List (simpleNode V)) :
    (mk h v k n).next = n := rfl

theorem eta (n : simpleNode V) : mk n.hasValue n.value n.key n.next = n := by
  cases n; rfl

theorem put_nil [Inhabited V] (n : simpleNode V) (v : V) :
    put n [] v = mk true v n.key n.next := by
  simp [put]

theorem put_cons_found [Inhabited V] (n : simpleNode V) (b : Byte) (bs : List Byte) (v : V)
    (h : ∃ c ∈ n.next, c.key = b) :
    put n (b :: bs) v = mk n.hasValue n.value n.key
      (n.next.map fun c => if c.key = b then put c bs v else c) := by
  have : n.next.any (fun c => c.key = b) = true := by simpa using h
  simp [put, this]

theorem put_cons_new [Inhabited V] (n : simpleNode V) (b : Byte) (bs : List Byte) (v : V)
    (h : ∀ c ∈ n.next, c.key ≠ b) :
    put n (b :: bs) v = mk n.hasValue n.value n.key
      (n.next.takeWhile (fun c => c.key < b) ++
        put (literal b) bs v :: n.next.dropWhile (fun c => c.key < b)) := by
  have : ¬ n.next.any (fun c => c.key = b) = true := by simpa using h
  simp [put, this]

theorem get_nil (n : simpleNode V) :
    get n [] = if n.hasValue then some n.value else none := by
  simp [get]

theorem get_cons (n : simpleNode V) (b : Byte) (bs : List Byte) :
    get n (b :: bs) = (n.next.find? (fun c => c.key = b)).bind fun c => get c bs := by
  simp only [get]
  cases n.next.find? (fun c => c.key = b) <;> rfl

theorem put_key [Inhabited V] (n : simpleNode V) (bs : List Byte) (v : V) :
    (put n bs v).key = n.key := by
  cases bs with
  | nil => simp [put]
  | cons b bs => simp only [put]; split <;> simp

theorem put_hasValue_cons [Inhabited V] (n : simpleNode V) (b : Byte) (bs : List Byte) (v : V) :
    (put n (b :: bs) v).hasValue = n.hasValue ∧ (put n (b :: bs) v).value = n.value := by
  simp only [put]; split <;> simp

theorem get_literal [Inhabited V] (b : Byte) (bs : List Byte) :
    get (literal b : simpleNode V) bs = none := by
  cases bs <;> simp [get, literal]

theorem find_map_key (l : List (simpleNode V)) (g : simpleNode V → simpleNode V)
    (hg : ∀ c, (g c).key = c.key) (b : Byte) :
    (l.map g).find? (fun c => c.key = b) = (l.find? (fun c => c.key = b)).map g := by
  induction l with
  | nil => rfl
  | cons c l ih =>
    simp only [List.map_cons, List.find?_cons, hg]
    split <;> simp [ih]

theorem find_none_of_forall (l : List (simpleNode V)) (b : Byte) (h : ∀ c ∈ l, c.key ≠ b) :
    l.find? (fun c => c.key = b) = none := by
  simpa using h

theorem get_put [Inhabited V] (bs : List Byte) (v : V) :
    ∀ (n : simpleNode V) (bs1 : List Byte),
      get (put n bs v) bs1 = if bs1 = bs then some v else get n bs1 := by
  induction bs with
  | nil =>
    intro n bs1
    cases bs1 with
    | nil => simp [put_nil, get_nil]
    | cons b1 r1 => simp [put_nil, get_cons]
  | cons b r ih =>
    intro n bs1
    cases bs1 with
    | nil => simp [get_nil, put_hasValue_cons]
    | cons b1 r1 =>
      by_cases hex : ∃ c ∈ n.next, c.key = b
      · rw [put_cons_found n b r v hex, get_cons, get_cons, next_mk]
        rw [find_map_key _ _ (by intro c; split <;> simp [put_key])]
        cases hf : n.next.find? (fun c => c.key = b1) with
        | none =>
          have hne : ¬ (b1 = b ∧ r1 = r) := by
            rintro ⟨rfl, _⟩
            obtain ⟨c, hc, hk⟩ := hex
            have := List.find?_eq_none.mp hf c hc
            simp [hk] at this
          simp [hne]
        | some c =>
          have hck : c.key = b1 := by simpa using List.find?_some hf
          by_cases hb : b1 = b
          · subst hb
            simp [hck, ih]
          · have : ¬ c.key = b := by rw [hck]; exact hb
            simp [this, hb]
      · have hno : ∀ c ∈ n.next, c.key ≠ b := by
          intro c hc hk; exact hex ⟨c, hc, hk⟩
        rw [put_cons_new n b r v hno, get_cons, get_cons, next_mk]
        have hsplit : n.next.find? (fun c => c.key = b1) =
            ((n.next.takeWhile (fun c => c.key < b)).find? (fun c => c.key = b1)).or
              ((n.next.dropWhile (fun c => c.key < b)).find? (fun c => c.key = b1)) := by
          rw [← List.find?_append, List.takeWhile_append_dropWhile]
        by_cases hb : b1 = b
        · subst hb
          have h1 : (n.next.takeWhile (fun c => c.key < b1)).find? (fun c => c.key = b1) = none :=
            find_none_of_forall _ _ (fun c hc => hno c (List.takeWhile_subset _ hc))
          have h2 : n.next.find? (fun c => c.key = b1) = none := find_none_of_forall _ _ hno
          rw [List.find?_append, h1, h2]
          have hl : (mk false default b1 [] : simpleNode V).get r1 = none := get_literal b1 r1
          simp [put_key, literal, ih, hl]
        · have hk : ¬ (put (literal b : simpleNode V) r v).key = b1 := by
            rw [put_key]; simpa [literal] using fun h => hb h.symm
          rw [List.find?_append, List.find?_cons, hsplit]
          simp [hk, hb]

end simpleNode

namespace simpleNode
variable {V : Type}

theorem takeWhile_dropWhile_of_none {α : Type} (p : α → Bool) (l : List α)
    (h : ∀ x ∈ l, p x = false) : l.takeWhile p = [] ∧ l.dropWhile p = l := by
  cases l with
  | nil => simp
  | cons a l =>
    have := h a (by simp)
    simp [List.takeWhile_cons, List.dropWhile_cons, this]

theorem split_eq_while (l : List (simpleNode V)) (b : Byte) (m : Nat)
    (hp : l.Pairwise (fun a c => a.key < c.key)) (hno : ∀ c ∈ l, c.key ≠ b)
    (hm : m ≤ l.length) (hhi : ∀ x ∈ l.drop m, x.key > b)
    (hlo : ∀ h : m - 1 < l.length, 0 < m → ¬ l[m - 1].key > b) :
    l.take m = l.takeWhile (fun c => c.key < b) ∧ l.drop m = l.dropWhile (fun c => c.key < b) := by
  have hlow : ∀ x ∈ l.take m, x.key < b := by
    intro x hx
    obtain ⟨i, hi, rfl⟩ := List.getElem_of_mem hx
    have him : i < m := by simpa using (List.length_take_le m l |> lt_of_lt_of_le hi)
    have hil : i < l.length := by omega
    rw [List.getElem_take]
    have hlast := hlo (by omega) (by omega)
    have hle : l[i].key ≤ l[m - 1].key := by
      by_cases hEq : i = m - 1
      · subst hEq; exact le_refl _
      · exact le_of_lt (List.pairwise_iff_getElem.mp hp i (m - 1) hil (by omega) (by omega))
    have hne := hno l[i] (List.getElem_mem hil)
    exact lt_of_le_of_ne (le_trans hle (not_lt.mp hlast)) hne
  have hnone := takeWhile_dropWhile_of_none (fun c : simpleNode V => decide (c.key < b)) (l.drop m)
    (by intro x hx; simpa using le_of_lt (hhi x hx))
  have hl : l = l.take m ++ l.drop m := (List.take_append_drop m l).symm
  constructor
  · conv_rhs => rw [hl]
    rw [List.takeWhile_append_of_pos (by intro a ha; simpa using hlow a ha), hnone.1]
    simp
  · conv_rhs => rw [hl]
    rw [List.dropWhile_append_of_pos (by intro a ha; simpa using hlow a ha), hnone.2]

theorem map_eq_set (l : List (simpleNode V)) (b : Byte) (i : Nat) (hi : i < l.length)
    (hp : l.Pairwise (fun a c => a.key < c.key)) (hk : l[i].key = b)
    (f : simpleNode V → simpleNode V) :
    l.map (fun c => if c.key = b then f c else c) = l.set i (f l[i]) := by
  apply List.ext_getElem (by simp)
  intro j h1 h2
  have hj : j < l.length := by simpa using h1
  simp only [List.getElem_map, List.getElem_set]
  by_cases hij : i = j
  · subst hij; simp [hk]
  · have hne : l[j].key ≠ b := by
      rw [← hk]
      rcases Nat.lt_or_gt_of_ne hij with h | h
      · exact ne_of_gt (List.pairwise_iff_getElem.mp hp i j hi hj h)
      · exact ne_of_lt (List.pairwise_iff_getElem.mp hp j i hj hi h)
    simp [hij, hne]

theorem find_eq_getElem (l : List (simpleNode V)) (b : Byte) (i : Nat) (hi : i < l.length)
    (hp : l.Pairwise (fun a c => a.key < c.key)) (hk : l[i].key = b) :
    l.find? (fun c => c.key = b) = some l[i] := by
  induction l generalizing i with
  | nil => simp at hi
  | cons a l ih =>
    cases i with
    | zero => simp at hk; simp [hk]
    | succ i =>
      have hi1 : i < l.length := by simpa using hi
      have hk1 : l[i].key = b := by simpa using hk
      have hlt : a.key < l[i].key := (List.pairwise_cons.mp hp).1 _ (List.getElem_mem hi1)
      have hne : ¬ a.key = b := by rw [← hk1]; exact ne_of_lt hlt
      simp [List.find?_cons, hne, ih i hi1 (List.pairwise_cons.mp hp).2 hk1]

theorem sorted_literal [Inhabited V] (b : Byte) : Sorted (literal b : simpleNode V) :=
  Sorted.mk _ _ _ _ List.Pairwise.nil (by simp)

theorem sorted_iff (n : simpleNode V) :
    Sorted n ↔ n.next.Pairwise (fun a b => a.key < b.key) ∧ ∀ c ∈ n.next, Sorted c := by
  constructor
  · intro h; exact ⟨h.pairwise, h.child⟩
  · intro h
    cases n with
    | mk hv v k nx => exact Sorted.mk _ _ _ _ h.1 h.2

theorem sorted_put [Inhabited V] (bs : List Byte) (v : V) :
    ∀ n : simpleNode V, Sorted n → Sorted (put n bs v) := by
  induction bs with
  | nil =>
    intro n hs
    rw [put_nil, sorted_iff]
    exact ⟨hs.pairwise, hs.child⟩
  | cons b r ih =>
    intro n hs
    by_cases hex : ∃ c ∈ n.next, c.key = b
    · rw [put_cons_found n b r v hex, sorted_iff, next_mk]
      constructor
      · rw [List.pairwise_map]
        refine hs.pairwise.imp ?_
        intro a c hac
        have ha : (if a.key = b then put a r v else a).key = a.key := by split <;> simp [put_key]
        have hc : (if c.key = b then put c r v else c).key = c.key := by split <;> simp [put_key]
        rw [ha, hc]; exact hac
      · intro c hc
        obtain ⟨a, ha, rfl⟩ := List.mem_map.mp hc
        split
        · exact ih a (hs.child a ha)
        · exact hs.child a ha
    · have hno : ∀ c ∈ n.next, c.key ≠ b := by
        intro c hc hk; exact hex ⟨c, hc, hk⟩
      rw [put_cons_new n b r v hno, sorted_iff, next_mk]
      have htw : ∀ x ∈ n.next.takeWhile (fun c => decide (c.key < b)), x.key < b := by
        intro x hx; simpa using List.mem_takeWhile_imp hx
      have hsub : (n.next.takeWhile (fun c => decide (c.key < b)) ++
          n.next.dropWhile (fun c => decide (c.key < b))) = n.next :=
        List.takeWhile_append_dropWhile _ _
      have hpw := hs.pairwise
      rw [← hsub, List.pairwise_append] at hpw
      obtain ⟨hp1, hp2, hp12⟩ := hpw
      have hdw : ∀ x ∈ n.next.dropWhile (fun c => decide (c.key < b)), b < x.key := by
        intro x hx
        cases hd : n.next.dropWhile (fun c => decide (c.key < b)) with
        | nil => rw [hd] at hx; simp at hx
        | cons a l =>
          have hhead : ¬ decide (a.key < b) = true := by
            have := List.head?_dropWhile_not (fun c : simpleNode V => decide (c.key < b)) n.next
            rw [hd] at this
            simpa using this
          have ha : b < a.key := by
            have hmem : a ∈ n.next := List.dropWhile_subset _ (by rw [hd]; simp)
            have := hno a hmem
            simp at hhead
            exact lt_of_le_of_ne hhead (Ne.symm this)
          rw [hd] at hx hp2
          rcases List.mem_cons.mp hx with rfl | hx1
          · exact ha
          · exact lt_trans ha ((List.pairwise_cons.mp hp2).1 x hx1)
      constructor
      · rw [List.pairwise_append]
        refine ⟨hp1, ?_, ?_⟩
        · rw [List.pairwise_cons]
          refine ⟨?_, hp2⟩
          intro x hx
          rw [put_key]; simpa [literal] using hdw x hx
        · intro x hx y hy
          rcases List.mem_cons.mp hy with rfl | hy1
          · rw [put_key]; simpa [literal] using htw x hx
          · exact hp12 x hx y hy1
      · intro c hc
        rcases List.mem_append.mp hc with h1 | h1
        · exact hs.child c (List.takeWhile_subset _ h1)
        · rcases List.mem_cons.mp h1 with rfl | h2
          · exact ih _ (sorted_literal b)
          · exact hs.child c (List.dropWhile_subset _ h2)

end simpleNode
namespace simpleNode
variable {V : Type}

theorem store_eq (n : simpleNode V) (i : Nat) (x : simpleNode V) (hi : i < n.next.length) :
    n.store i x = .ok (mk n.hasValue n.value n.key (n.next.set i x)) := by
  cases n with
  | mk hv v k nx =>
    have : i < nx.length := hi
    simp [store, assign, this, Except.map]

theorem index_eq {α : Type} (xs : List α) (i : Nat) (hi : i < xs.length) :
    index xs i = .ok xs[i] := by
  simp [index, List.getElem?_eq_getElem hi]

theorem node_add_spec [Inhabited V] (T : GoType) (fs : List TransformFunc) (v : V) (fuel : Nat) :
    ∀ (n : simpleNode V) (c : converter), Sorted n → c.Serves T fs →
      c.remaining.length < fuel →
      ∃ c1, c1.Serves T fs ∧
        add fuel n c v = .ok ((!(get n c.remaining).isSome, put n c.remaining v), c1) := by
  induction fuel with
  | zero => intro n c _ _ h; omega
  | succ fuel ih =>
    intro n c hsorted hs hlen
    obtain ⟨c1, hs1, h1⟩ := converter.next_spec c T fs hs
    split at h1
    · rename_i heq
      refine ⟨c1, hs1, ?_⟩
      rw [heq, put_nil, get_nil]
      simp only [add, h1.1, bind, Except.bind]
      cases n.hasValue <;> simp
    · rename_i b bs heq
      obtain ⟨hn, hr⟩ := h1
      have hlen1 : c1.remaining.length < fuel := by
        rw [hr]; rw [heq] at hlen; simp at hlen; omega
      rw [heq]
      rcases binarySearchNext_spec n b hsorted with ⟨i, hi, hk, hb⟩ | ⟨hno, nn1, hb⟩
      · obtain ⟨c2, hs2, hadd⟩ := ih n.next[i] c1 (hsorted.child _ (List.getElem_mem hi)) hs1 hlen1
        rw [hr] at hadd
        refine ⟨c2, hs2, ?_⟩
        have hput : put n (b :: bs) v =
            mk n.hasValue n.value n.key (n.next.set i (put n.next[i] bs v)) := by
          rw [put_cons_found n b bs v ⟨n.next[i], List.getElem_mem hi, hk⟩,
            map_eq_set n.next b i hi hsorted.pairwise hk]
        have hget : get n (b :: bs) = get n.next[i] bs := by
          rw [get_cons, find_eq_getElem n.next b i hi hsorted.pairwise hk]; rfl
        rw [hput, hget]
        simp only [add, hn, bind, Except.bind, hb, index_eq _ _ hi, hadd, store_eq _ _ _ hi]
        simp
      · obtain ⟨m, hm, hins, hhi, hlo⟩ := insertNewNode_spec n.hasValue n.value n.key n.next b
        rw [eta] at hins
        obtain ⟨c2, hs2, hadd⟩ := ih (literal b) c1 (sorted_literal b) hs1 hlen1
        rw [hr, get_literal] at hadd
        refine ⟨c2, hs2, ?_⟩
        obtain ⟨htake, hdrop⟩ := split_eq_while n.next b m hsorted.pairwise hno hm hhi hlo
        have hput : put n (b :: bs) v = mk n.hasValue n.value n.key
            (n.next.take m ++ put (literal b) bs v :: n.next.drop m) := by
          rw [put_cons_new n b bs v hno, htake, hdrop]
        have hget : get n (b :: bs) = none := by
          rw [get_cons, find_none_of_forall n.next b hno]; rfl
        have hlt : m < (n.next.take m ++ (literal b : simpleNode V) :: n.next.drop m).length := by
          simp; omega
        have hidx : (n.next.take m ++ (literal b : simpleNode V) :: n.next.drop m)[m] = literal b := by
          rw [List.getElem_append_right (by simp)]
          simp [Nat.min_eq_left hm]
        have hset : (n.next.take m ++ (literal b : simpleNode V) :: n.next.drop m).set m
            (put (literal b) bs v) = n.next.take m ++ put (literal b) bs v :: n.next.drop m := by
          have hl : (List.take m n.next).length = m := by simp; omega
          rw [List.set_append_right _ _ (by omega), hl]
          simp
        rw [hput, hget]
        simp only [add, hn, bind, Except.bind, hb, hins]
        have hnot : (false = true) = False := by simp
        simp only [hnot, if_false, next_mk, index_eq _ _ hlt, hidx, hadd,
          store_eq _ _ _ (show m < (mk n.hasValue n.value n.key _).next.length from hlt),
          hasValue_mk, value_mk, key_mk, hset]
        simp

theorem node_Find_spec [Inhabited V] (T : GoType) (fs : List TransformFunc) (fuel : Nat) :
    ∀ (n : simpleNode V) (c : converter), Sorted n → c.Serves T fs →
      c.remaining.length < fuel →
      ∃ c1, c1.Serves T fs ∧
        Find fuel n c = .ok (findResult (get n c.remaining), c1) := by
  induction fuel with
  | zero => intro n c _ _ h; omega
  | succ fuel ih =>
    intro n c hsorted hs hlen
    obtain ⟨c1, hs1, h1⟩ := converter.next_spec c T fs hs
    split at h1
    · rename_i heq
      refine ⟨c1, hs1, ?_⟩
      rw [heq, get_nil]
      simp only [Find, h1.1, bind, Except.bind]
      cases n.hasValue <;> simp [findResult]
    · rename_i b bs heq
      obtain ⟨hn, hr⟩ := h1
      have hlen1 : c1.remaining.length < fuel := by
        rw [hr]; rw [heq] at hlen; simp at hlen; omega
      rw [heq]
      rcases binarySearchNext_spec n b hsorted with ⟨i, hi, hk, hb⟩ | ⟨hno, nn1, hb⟩
      · obtain ⟨c2, hs2, hfind⟩ := ih n.next[i] c1 (hsorted.child _ (List.getElem_mem hi)) hs1 hlen1
        rw [hr] at hfind
        refine ⟨c2, hs2, ?_⟩
        have hget : get n (b :: bs) = get n.next[i] bs := by
          rw [get_cons, find_eq_getElem n.next b i hi hsorted.pairwise hk]; rfl
        rw [hget]
        simp only [Find, hn, bind, Except.bind, hb, deref, index_eq _ _ hi, hfind]
        simp
      · refine ⟨c1, hs1, ?_⟩
        have hget : get n (b :: bs) = none := by
          rw [get_cons, find_none_of_forall n.next b hno]; rfl
        rw [hget]
        simp only [Find, hn, bind, Except.bind, hb]
        simp [findResult]

end simpleNode

/-! ## Lemmas: the trie -/

theorem selectConverter_serves (T : GoType) (s : plainConverter)
    (h : selectConverter T = .ok s) : s.Serves T := by
  cases T with
  | slice e =>
    cases e <;> simp [selectConverter] at h <;> subst h <;>
      simp [plainConverter.Serves, leafConverter.Serves, GoType.wide]
  | _ =>
    simp [selectConverter] at h <;> subst h <;>
      simp [plainConverter.Serves, leafConverter.Serves]

theorem NewTrie_spec {V : Type} [Inhabited V] (T : GoType) (fs : List TransformFunc)
    (t : SimpleTrie V) (h : NewTrie V T fs = .ok t) :
    t.Inv T fs ∧ t.head = simpleNode.literal 0 ∧ t.length = 0 := by
  unfold NewTrie at h
  cases hs : selectConverter T with
  | error e => simp [hs] at h
  | ok s =>
    have hserves := selectConverter_serves T s hs
    simp only [hs] at h
    injection h with h
    subst h
    refine ⟨⟨?_, simpleNode.sorted_literal 0⟩, rfl, rfl⟩
    cases fs with
    | nil => simpa [converter.Serves] using hserves
    | cons f fs => simpa [converter.Serves, wrapConverter] using hserves

theorem SimpleTrie.Add_spec {V : Type} [Inhabited V] (T : GoType) (fs : List TransformFunc)
    (t : SimpleTrie V) (k : Key) (v : V) (hinv : t.Inv T fs) (hk : k.HasType T = true) :
    ∃ c1, c1.Serves T fs ∧
      t.Add k v = .ok (!(t.head.get (effective fs k)).isSome,
        { converter := c1, head := t.head.put (effective fs k) v,
          length := if (t.head.get (effective fs k)).isSome then t.length else t.length + 1 }) := by
  obtain ⟨c0, hl, hs0, hr0⟩ := converter.load_spec t.converter T fs k hinv.1 hk
  obtain ⟨c1, hs1, hadd⟩ := simpleNode.node_add_spec T fs v (c0.bound + 1) t.head c0 hinv.2 hs0
    (by have := converter.remaining_le_bound c0 T fs hs0; omega)
  rw [hr0] at hadd
  refine ⟨c1, hs1, ?_⟩
  simp only [SimpleTrie.Add, hl, bind, Except.bind, hadd]
  cases (t.head.get (effective fs k)).isSome <;> simp

theorem SimpleTrie.Find_spec {V : Type} [Inhabited V] (T : GoType) (fs : List TransformFunc)
    (t : SimpleTrie V) (k : Key) (hinv : t.Inv T fs) (hk : k.HasType T = true) :
    ∃ c1, c1.Serves T fs ∧
      t.Find k = .ok (findResult (t.head.get (effective fs k)),
        { converter := c1, head := t.head, length := t.length }) := by
  obtain ⟨c0, hl, hs0, hr0⟩ := converter.load_spec t.converter T fs k hinv.1 hk
  obtain ⟨c1, hs1, hfind⟩ := simpleNode.node_Find_spec T fs (c0.bound + 1) t.head c0 hinv.2 hs0
    (by have := converter.remaining_le_bound c0 T fs hs0; omega)
  rw [hr0] at hfind
  refine ⟨c1, hs1, ?_⟩
  simp only [SimpleTrie.Find, hl, bind, Except.bind, hfind]

theorem Reachable.inv {V : Type} [Inhabited V] {T : GoType} {fs : List TransformFunc}
    {t : SimpleTrie V} (h : Reachable T fs t) : t.Inv T fs := by
  induction h with
  | new h => exact (NewTrie_spec T fs _ h).1
  | add _ hk hadd ih =>
    obtain ⟨c1, hs1, h1⟩ := SimpleTrie.Add_spec T fs _ _ _ ih hk
    rw [h1] at hadd
    injection hadd with hadd
    injection hadd with _ hadd
    subst hadd
    exact ⟨hs1, simpleNode.sorted_put _ _ _ ih.2⟩
  | find _ hk hfind ih =>
    obtain ⟨c1, hs1, h1⟩ := SimpleTrie.Find_spec T fs _ _ ih hk
    rw [h1] at hfind
    injection hfind with hfind
    injection hfind with _ hfind
    subst hfind
    exact ⟨hs1, ih.2⟩

theorem simpleNode.get_putAll_of_not_mem {V : Type} [Inhabited V] (bs : List Byte)
    (l : List (List Byte × V)) :
    ∀ n : simpleNode V, (∀ p ∈ l, p.1 ≠ bs) → (n.putAll l).get bs = n.get bs := by
  induction l with
  | nil => intro n _; rfl
  | cons p l ih =>
    intro n h
    obtain ⟨bs1, v⟩ := p
    have h1 : bs1 ≠ bs := h (bs1, v) (by simp)
    rw [simpleNode.putAll, ih _ (fun q hq => h q (List.mem_cons_of_mem _ hq)),
      simpleNode.get_put]
    simp [Ne.symm h1]

theorem SimpleTrie.AddAll_spec {V : Type} [Inhabited V] (T : GoType) (fs : List TransformFunc)
    (adds : List (Key × V)) :
    ∀ (t : SimpleTrie V) (S : Finset (List Byte)), t.Inv T fs → t.Stores S →
      (∀ p ∈ adds, p.1.HasType T = true) →
      ∃ es t1, t.AddAll adds = .ok (es, t1) ∧ t1.Inv T fs ∧
        t1.head = t.head.putAll (adds.map fun p => (effective fs p.1, p.2)) ∧
        t1.Stores (S ∪ (adds.map fun p => effective fs p.1).toFinset) := by
  induction adds with
  | nil =>
    intro t S hinv hst _
    exact ⟨[], t, rfl, hinv, rfl, by simpa using hst⟩
  | cons p adds ih =>
    intro t S hinv hst hty
    obtain ⟨k, v⟩ := p
    have hk : k.HasType T = true := hty (k, v) (by simp)
    obtain ⟨c1, hs1, hadd⟩ := SimpleTrie.Add_spec T fs t k v hinv hk
    have hinv1 : SimpleTrie.Inv T fs
        ({ converter := c1, head := t.head.put (effective fs k) v,
           length := if (t.head.get (effective fs k)).isSome then t.length else t.length + 1 } :
          SimpleTrie V) :=
      ⟨hs1, simpleNode.sorted_put _ _ _ hinv.2⟩
    have hst1 : SimpleTrie.Stores
        ({ converter := c1, head := t.head.put (effective fs k) v,
           length := if (t.head.get (effective fs k)).isSome then t.length else t.length + 1 } :
          SimpleTrie V) (insert (effective fs k) S) := by
      constructor
      · intro bs
        simp only [simpleNode.get_put, Finset.mem_insert]
        by_cases hbs : bs = effective fs k
        · simp [hbs]
        · simp [hbs, hst.1 bs]
      · simp only
        by_cases hmem : effective fs k ∈ S
        · have : (t.head.get (effective fs k)).isSome = true := (hst.1 _).mpr hmem
          simp [this, hmem, hst.2]
        · have : ¬ (t.head.get (effective fs k)).isSome = true := fun h => hmem ((hst.1 _).mp h)
          simp [this, Finset.card_insert_of_not_mem hmem, hst.2]
    obtain ⟨es, t1, hall, hinv2, hhead, hst2⟩ :=
      ih _ (insert (effective fs k) S) hinv1 hst1 (fun q hq => hty q (List.mem_cons_of_mem _ hq))
    refine ⟨(!(t.head.get (effective fs k)).isSome) :: es, t1, ?_, hinv2, ?_, ?_⟩
    · simp only [SimpleTrie.AddAll, hadd, bind, Except.bind, hall]
    · simpa [simpleNode.putAll] using hhead
    · have : insert (effective fs k) S ∪ (adds.map fun p => effective fs p.1).toFinset =
          S ∪ (((k, v) :: adds).map fun p => effective fs p.1).toFinset := by
        ext x; simp
      rw [← this]; exact hst2

theorem SimpleTrie.AddAll_append {V : Type} [Inhabited V] (l1 l2 : List (Key × V)) :
    ∀ (t : SimpleTrie V) (es1 : List Bool) (t1 : SimpleTrie V) (es2 : List Bool)
      (t2 : SimpleTrie V), t.AddAll l1 = .ok (es1, t1) → t1.AddAll l2 = .ok (es2, t2) →
      t.AddAll (l1 ++ l2) = .ok (es1 ++ es2, t2) := by
  induction l1 with
  | nil =>
    intro t es1 t1 es2 t2 h1 h2
    simp only [SimpleTrie.AddAll] at h1
    injection h1 with h1
    injection h1 with h1a h1b
    subst h1a; subst h1b
    simpa using h2
  | cons p l1 ih =>
    intro t es1 t1 es2 t2 h1 h2
    obtain ⟨k, v⟩ := p
    simp only [SimpleTrie.AddAll, bind, Except.bind] at h1
    cases ha : t.Add k v with
    | error e => simp [ha] at h1
    | ok r =>
      obtain ⟨e, ta⟩ := r
      simp only [ha] at h1
      cases hb : ta.AddAll l1 with
      | error e => simp [hb] at h1
      | ok r1 =>
        obtain ⟨es, tb⟩ := r1
        simp only [hb] at h1
        injection h1 with h1
        injection h1 with h1a h1b
        subst h1a; subst h1b
        have := ih ta es tb es2 t2 hb h2
        show SimpleTrie.AddAll t ((k, v) :: (l1 ++ l2)) = _
        simp only [SimpleTrie.AddAll, bind, Except.bind, ha, this]
        rfl

theorem Reachable.stores {V : Type} [Inhabited V] {T : GoType} {fs : List TransformFunc}
    {t : SimpleTrie V} (h : Reachable T fs t) : ∃ S, t.Stores S := by
  induction h with
  | new h =>
    obtain ⟨_, hh, hl⟩ := NewTrie_spec T fs _ h
    refine ⟨∅, ?_, by simp [hl]⟩
    intro bs
    rw [hh, simpleNode.get_literal]
    simp
  | @add t t1 k v e hr hk hadd ih =>
    obtain ⟨S, hS⟩ := ih
    obtain ⟨es, t2, hall, _, _, hst⟩ :=
      SimpleTrie.AddAll_spec T fs [(k, v)] t S hr.inv hS (by simpa using hk)
    simp only [SimpleTrie.AddAll, bind, Except.bind, hadd] at hall
    injection hall with hall
    injection hall with _ hall
    subst hall
    exact ⟨_, hst⟩
  | find hr hk hfind ih =>
    obtain ⟨S, hS⟩ := ih
    obtain ⟨c1, hs1, h1⟩ := SimpleTrie.Find_spec T fs _ _ hr.inv hk
    rw [h1] at hfind
    injection hfind with hfind
    injection hfind with _ hfind
    subst hfind
    exact ⟨S, hS⟩

theorem SimpleTrie.Add_obs {V : Type} [Inhabited V] (T : GoType) (fs : List TransformFunc)
    (t : SimpleTrie V) (k : Key) (v : V) (hinv : t.Inv T fs) (hk : k.HasType T = true) :
    ∃ t1, t.Add k v = .ok (!(t.head.get (effective fs k)).isSome, t1) ∧ t1.Inv T fs ∧
      t1.head = t.head.put (effective fs k) v ∧
      t1.length = if (t.head.get (effective fs k)).isSome then t.length else t.length + 1 := by
  obtain ⟨c1, hs1, hadd⟩ := SimpleTrie.Add_spec T fs t k v hinv hk
  exact ⟨_, hadd, ⟨hs1, simpleNode.sorted_put _ _ _ hinv.2⟩, rfl, rfl⟩

theorem SimpleTrie.Find_obs {V : Type} [Inhabited V] (T : GoType) (fs : List TransformFunc)
    (t : SimpleTrie V) (k : Key) (hinv : t.Inv T fs) (hk : k.HasType T = true) :
    ∃ t1, t.Find k = .ok (findResult (t.head.get (effective fs k)), t1) ∧ t1.Inv T fs ∧
      t1.head = t.head ∧ t1.length = t.length := by
  obtain ⟨c1, hs1, hfind⟩ := SimpleTrie.Find_spec T fs t k hinv hk
  exact ⟨_, hfind, ⟨hs1, hinv.2⟩, rfl, rfl⟩

theorem findResult_some {V : Type} [Inhabited V] (v : V) : findResult (some v) = (v, true) := rfl

theorem findResult_none {V : Type} [Inhabited V] :
    findResult (none : Option V) = (default, false) := rfl

theorem findResult_snd {V : Type} [Inhabited V] (o : Option V) : (findResult o).2 = o.isSome := by
  cases o <;> rfl

theorem simpleNode.putAll_append {V : Type} [Inhabited V] (l1 l2 : List (List Byte × V)) :
    ∀ n : simpleNode V, n.putAll (l1 ++ l2) = (n.putAll l1).putAll l2 := by
  induction l1 with
  | nil => intro n; rfl
  | cons p l1 ih =>
    intro n
    obtain ⟨bs, v⟩ := p
    show simpleNode.putAll n ((bs, v) :: (l1 ++ l2)) = _
    simp only [simpleNode.putAll]
    exact ih _

theorem SimpleTrie.run_congr {V : Type} [Inhabited V] (T : GoType) (fs : List TransformFunc)
    (calls : List (Call V)) :
    ∀ a b : SimpleTrie V, a.Inv T fs → b.Inv T fs → b.head = a.head → b.length = a.length →
      (∀ c ∈ calls, c.key.HasType T = true) →
      ∃ outs u u1, a.run calls = .ok (outs, u) ∧ b.run calls = .ok (outs, u1) ∧
        u1.head = u.head ∧ u1.length = u.length := by
  induction calls with
  | nil =>
    intro a b _ _ hh hl _
    exact ⟨[], a, b, rfl, rfl, hh, hl⟩
  | cons c calls ih =>
    intro a b ha hb hh hl hty
    have hrest : ∀ c1 ∈ calls, c1.key.HasType T = true :=
      fun c1 h1 => hty c1 (List.mem_cons_of_mem _ h1)
    cases c with
    | Add k v =>
      have hk : k.HasType T = true := hty (.Add k v) (by simp)
      obtain ⟨a1, haa, hia, hha, hla⟩ := SimpleTrie.Add_obs T fs a k v ha hk
      obtain ⟨b1, hba, hib, hhb, hlb⟩ := SimpleTrie.Add_obs T fs b k v hb hk
      rw [hh] at hba hhb hlb
      rw [hl] at hlb
      obtain ⟨outs, u, u1, h1, h2, h3, h4⟩ :=
        ih a1 b1 hia hib (by rw [hhb, hha]) (by rw [hlb, hla]) hrest
      exact ⟨Outcome.expanded (!(a.head.get (effective fs k)).isSome) :: outs, u, u1, by simp only [SimpleTrie.run, haa, bind, Except.bind, h1],
        by simp only [SimpleTrie.run, hba, bind, Except.bind, h2], h3, h4⟩
    | Find k =>
      have hk : k.HasType T = true := hty (.Find k) (by simp)
      obtain ⟨a1, haa, hia, hha, hla⟩ := SimpleTrie.Find_obs T fs a k ha hk
      obtain ⟨b1, hba, hib, hhb, hlb⟩ := SimpleTrie.Find_obs T fs b k hb hk
      rw [hh] at hba
      obtain ⟨outs, u, u1, h1, h2, h3, h4⟩ :=
        ih a1 b1 hia hib (by rw [hhb, hha, hh]) (by rw [hlb, hla, hl]) hrest
      exact ⟨Outcome.found (findResult (a.head.get (effective fs k))) :: outs, u, u1, by simp only [SimpleTrie.run, haa, bind, Except.bind, h1],
        by simp only [SimpleTrie.run, hba, bind, Except.bind, h2], h3, h4⟩

theorem stream_ne_iff (c : converter) (T : GoType) (fs : List TransformFunc) (k k1 : Key)
    (h : c.Serves T fs) (hk : k.HasType T = true) (hk1 : k1.HasType T = true) :
    c.stream k = c.stream k1 ↔ effective fs k = effective fs k1 := by
  rw [converter.stream_spec c T fs k h hk, converter.stream_spec c T fs k1 h hk1]
  constructor
  · intro h; injection h
  · intro h; rw [h]

theorem byte_eq_iff (a b : Nat) : byte a = byte b ↔ a % 256 = b % 256 := by
  simp [byte, Fin.ext_iff]

theorem bigEndian_inj (n : Nat) :
    ∀ a b : Nat, a < 256 ^ n → b < 256 ^ n → bigEndian n a = bigEndian n b → a = b := by
  induction n with
  | zero => intro a b ha hb _; simp at ha hb; omega
  | succ n ih =>
    intro a b ha hb h
    simp only [bigEndian] at h
    have hlen : (bigEndian n (a / 256)).length = (bigEndian n (b / 256)).length := by
      simp [bigEndian_length]
    obtain ⟨h1, h2⟩ := List.append_inj h hlen
    have h3 : a % 256 = b % 256 := by
      have : byte a = byte b := by simpa using h2
      exact (byte_eq_iff a b).mp this
    have h4 : a / 256 = b / 256 := by
      apply ih _ _ _ _ h1
      · rw [Nat.div_lt_iff_lt_mul (by decide)]; rw [pow_succ] at ha; exact ha
      · rw [Nat.div_lt_iff_lt_mul (by decide)]; rw [pow_succ] at hb; exact hb
    omega

theorem toUint_lt (w : Nat) (v : Int) : toUint w v < 2 ^ w := by
  unfold toUint
  have hpos : (0 : Int) < 2 ^ w := by positivity
  have h1 := Int.emod_lt_of_pos v hpos
  have h2 := Int.emod_nonneg v (ne_of_gt hpos)
  have h3 : ((v % 2 ^ w).toNat : Int) = v % 2 ^ w := Int.toNat_of_nonneg h2
  have h4 : (((v % 2 ^ w).toNat : Nat) : Int) < ((2 ^ w : Nat) : Int) := by
    rw [h3]; push_cast; exact h1
  exact_mod_cast h4

/-- The fixed-width integer types, the types with a scalar converter. -/
theorem bits_ne_zero_iff (t : GoType) :
    t.bits ≠ 0 ↔ t = .uint8 ∨ t = .int8 ∨ t = .uint16 ∨ t = .int16 ∨ t = .uint32 ∨
      t = .int32 ∨ t = .uint64 ∨ t = .int64 := by
  cases t <;> simp [GoType.bits]

theorem encodeInt_inj (t : GoType) (v1 v2 : Int) (ht : t.bits ≠ 0)
    (h1 : t.holds v1 = true) (h2 : t.holds v2 = true)
    (h : encodeInt t v1 = encodeInt t v2) : v1 = v2 := by
  have hpow : 2 ^ t.bits = 256 ^ (t.bits / 8) := by
    rcases (bits_ne_zero_iff t).mp ht with rfl | rfl | rfl | rfl | rfl | rfl | rfl | rfl <;>
      simp [GoType.bits]
  have hu : toUint t.bits v1 = toUint t.bits v2 :=
    bigEndian_inj (t.bits / 8) _ _ (by rw [← hpow]; exact toUint_lt _ _)
      (by rw [← hpow]; exact toUint_lt _ _) h
  rcases (bits_ne_zero_iff t).mp ht with rfl | rfl | rfl | rfl | rfl | rfl | rfl | rfl <;>
    simp [GoType.holds, GoType.underlying, GoType.range] at h1 h2 <;>
    simp only [GoType.bits, toUint] at hu <;> omega

theorem flatMap_encodeInt_inj (t : GoType) (ht : t.bits ≠ 0) :
    ∀ xs ys : List Int, (∀ x ∈ xs, t.holds x = true) → (∀ y ∈ ys, t.holds y = true) →
      xs.flatMap (encodeInt t) = ys.flatMap (encodeInt t) → xs = ys := by
  have hpos : 0 < t.bits / 8 := by
    rcases (bits_ne_zero_iff t).mp ht with rfl | rfl | rfl | rfl | rfl | rfl | rfl | rfl <;>
      simp [GoType.bits]
  intro xs
  induction xs with
  | nil =>
    intro ys _ _ h
    cases ys with
    | nil => rfl
    | cons y ys =>
      have := congrArg List.length h
      simp [List.flatMap_cons, encodeInt_length] at this
      omega
  | cons x xs ih =>
    intro ys hx hy h
    cases ys with
    | nil =>
      have := congrArg List.length h
      simp [List.flatMap_cons, encodeInt_length] at this
      omega
    | cons y ys =>
      simp only [List.flatMap_cons] at h
      obtain ⟨h1, h2⟩ := List.append_inj h (by simp [encodeInt_length])
      have hxy : x = y := encodeInt_inj t x y ht (hx x (by simp)) (hy y (by simp)) h1
      have := ih ys (fun a ha => hx a (List.mem_cons_of_mem _ ha))
        (fun a ha => hy a (List.mem_cons_of_mem _ ha)) h2
      rw [hxy, this]

theorem selectConverter_ok_iff (T : GoType) :
    (∃ s, selectConverter T = .ok s) ↔
      T.bits ≠ 0 ∨ T = .string ∨ ∃ e, T = .slice e ∧ e.bits ≠ 0 := by
  cases T with
  | slice e => cases e <;> simp [selectConverter, GoType.bits]
  | _ => simp [selectConverter, GoType.bits]

theorem encode_inj (T : GoType) (k1 k2 : Key) (hT : ∃ s, selectConverter T = .ok s)
    (h1 : k1.HasType T = true) (h2 : k2.HasType T = true) (h : encode k1 = encode k2) :
    k1 = k2 := by
  rcases (selectConverter_ok_iff T).mp hT with hb | rfl | ⟨e, rfl, he⟩
  · have hu : T.underlying = T := by
      rcases (bits_ne_zero_iff T).mp hb with rfl | rfl | rfl | rfl | rfl | rfl | rfl | rfl <;> rfl
    have hns : T.underlying ≠ .string := by
      rcases (bits_ne_zero_iff T).mp hb with rfl | rfl | rfl | rfl | rfl | rfl | rfl | rfl <;>
        simp [GoType.underlying]
    have hnl : ∀ e, T.underlying ≠ .slice e := by
      intro e
      rcases (bits_ne_zero_iff T).mp hb with rfl | rfl | rfl | rfl | rfl | rfl | rfl | rfl <;>
        simp [GoType.underlying]
    cases k1 with
    | int t1 v1 =>
      cases k2 with
      | int t2 v2 =>
        simp only [Key.HasType, Key.type, Bool.and_eq_true, decide_eq_true_eq] at h1 h2
        obtain ⟨rfl, h1⟩ := h1
        obtain ⟨rfl, h2⟩ := h2
        simp only [encode] at h
        rw [encodeInt_inj _ v1 v2 hb h1 h2 h]
      | str t2 s2 =>
        simp only [Key.HasType, Key.type, Bool.and_eq_true, decide_eq_true_eq] at h2
        exact absurd h2.2 hns
      | slice t2 xs2 =>
        simp only [Key.HasType, Key.type, Bool.and_eq_true, decide_eq_true_eq] at h2
        obtain ⟨_, h2⟩ := h2
        cases h2
    | str t1 s1 =>
      simp only [Key.HasType, Key.type, Bool.and_eq_true, decide_eq_true_eq] at h1
      exact absurd h1.2 hns
    | slice t1 xs1 =>
      simp only [Key.HasType, Key.type, Bool.and_eq_true, decide_eq_true_eq] at h1
      obtain ⟨_, h1⟩ := h1
      cases h1
  · cases k1 <;> cases k2 <;>
      simp [Key.HasType, Key.type, GoType.holds, GoType.underlying, GoType.range] at h1 h2
    obtain rfl := h1
    obtain rfl := h2
    simp only [encode] at h
    rw [h]
  · have hu : (GoType.slice e).underlying = .slice e := rfl
    cases k1 <;> cases k2 <;>
      simp [Key.HasType, Key.type, GoType.holds, GoType.underlying, GoType.range] at h1 h2
    obtain ⟨rfl, h1⟩ := h1
    obtain ⟨rfl, h2⟩ := h2
    simp only [encode] at h
    rw [flatMap_encodeInt_inj e he _ _ h1 h2 h]

theorem scalar_stream (T : GoType) (v : Int) (s : plainConverter)
    (hv : T.holds v = true) (hsel : selectConverter T = .ok s) :
    (converter.plain s).stream (.int T v) = .ok (encodeInt T v) := by
  have hk : (Key.int T v).HasType T = true := by simp [Key.HasType, Key.type, hv]
  rw [converter.stream_spec (.plain s) T [] _ ⟨rfl, selectConverter_serves T s hsel⟩ hk,
    effective, transformStream_nil]
  rfl

theorem converterString.string_Next_value (c c1 : converterString) (r : Byte × Bool)
    (h : c.Next = .ok (r, c1)) : c1.value = c.value := by
  unfold converterString.Next at h
  split at h
  · injection h with h; injection h with _ h; rw [← h]
  · cases hx : index c.value c.position with
    | error e => simp [hx, bind, Except.bind] at h
    | ok x =>
      simp only [hx, bind, Except.bind] at h
      injection h with h; injection h with _ h; rw [← h]

theorem converterInt8Slice.int8Slice_Next_value (c c1 : converterInt8Slice) (r : Byte × Bool)
    (h : c.Next = .ok (r, c1)) : c1.value = c.value := by
  unfold converterInt8Slice.Next at h
  split at h
  · injection h with h; injection h with _ h; rw [← h]
  · cases hx : index c.value c.position with
    | error e => simp [hx, bind, Except.bind] at h
    | ok x =>
      simp only [hx, bind, Except.bind] at h
      injection h with h; injection h with _ h; rw [← h]

theorem leafConverter.leaf_Next_bound (c c1 : leafConverter) (r : Byte × Bool)
    (h : c.Next = .ok (r, c1)) : c1.bound = c.bound := by
  cases c with
  | UInt8 x =>
    simp only [leafConverter.Next] at h
    cases hx : x.Next with
    | error e => simp [hx, Except.map] at h
    | ok p => simp only [hx, Except.map] at h; injection h with h; injection h with _ h; rw [← h]; rfl
  | Int8 x =>
    simp only [leafConverter.Next] at h
    cases hx : x.Next with
    | error e => simp [hx, Except.map] at h
    | ok p => simp only [hx, Except.map] at h; injection h with h; injection h with _ h; rw [← h]; rfl
  | UInt16 x =>
    simp only [leafConverter.Next] at h
    cases hx : x.Next with
    | error e => simp [hx, Except.map] at h
    | ok p => simp only [hx, Except.map] at h; injection h with h; injection h with _ h; rw [← h]; rfl
  | Int16 x =>
    simp only [leafConverter.Next] at h
    cases hx : x.Next with
    | error e => simp [hx, Except.map] at h
    | ok p => simp only [hx, Except.map] at h; injection h with h; injection h with _ h; rw [← h]; rfl
  | UInt32 x =>
    simp only [leafConverter.Next] at h
    cases hx : x.Next with
    | error e => simp [hx, Except.map] at h
    | ok p => simp only [hx, Except.map] at h; injection h with h; injection h with _ h; rw [← h]; rfl
  | Int32 x =>
    simp only [leafConverter.Next] at h
    cases hx : x.Next with
    | error e => simp [hx, Except.map] at h
    | ok p => simp only [hx, Except.map] at h; injection h with h; injection h with _ h; rw [← h]; rfl
  | UInt64 x =>
    simp only [leafConverter.Next] at h
    cases hx : x.Next with
    | error e => simp [hx, Except.map] at h
    | ok p => simp only [hx, Except.map] at h; injection h with h; injection h with _ h; rw [← h]; rfl
  | Int64 x =>
    simp only [leafConverter.Next] at h
    cases hx : x.Next with
    | error e => simp [hx, Except.map] at h
    | ok p => simp only [hx, Except.map] at h; injection h with h; injection h with _ h; rw [← h]; rfl
  | String x =>
    simp only [leafConverter.Next] at h
    cases hx : x.Next with
    | error e => simp [hx, Except.map] at h
    | ok p =>
      simp only [hx, Except.map] at h; injection h with h; injection h with _ h; rw [← h]
      simp only [leafConverter.bound]
      rw [converterString.string_Next_value x p.2 p.1 (by rw [hx])]
  | Int8Slice x =>
    simp only [leafConverter.Next] at h
    cases hx : x.Next with
    | error e => simp [hx, Except.map] at h
    | ok p =>
      simp only [hx, Except.map] at h; injection h with h; injection h with _ h; rw [← h]
      simp only [leafConverter.bound]
      rw [converterInt8Slice.int8Slice_Next_value x p.2 p.1 (by rw [hx])]

theorem converterIntSlice.intSlice_Next_value (c c1 : converterIntSlice) (r : Byte × Bool)
    (h : c.Next = .ok (r, c1)) : c1.value = c.value := by
  unfold converterIntSlice.Next at h
  split at h
  · injection h with h; injection h with _ h; rw [← h]
  · cases hx : c.subConverter.Next with
    | error e => simp [hx, bind, Except.bind] at h
    | ok p =>
      obtain ⟨⟨value, ok⟩, sub⟩ := p
      simp only [hx, bind, Except.bind] at h
      cases ok with
      | true =>
        simp only [Bool.not_true] at h
        injection h with h; injection h with _ h; rw [← h]
      | false =>
        simp only [Bool.not_false, if_true] at h
        split at h
        · injection h with h; injection h with _ h; rw [← h]
        · cases hi : index c.value (c.position + 1) with
          | error e => simp [hi] at h
          | ok item =>
            simp only [hi] at h
            cases hl : sub.Load (.int c.item item) with
            | error e => simp [hl] at h
            | ok q =>
              simp only [hl] at h
              cases hn : q.1.Next with
              | error e => simp [hn] at h
              | ok q1 =>
                simp only [hn] at h
                injection h with h; injection h with _ h; rw [← h]

theorem plainConverter.plain_Next_bound (c c1 : plainConverter) (r : Byte × Bool)
    (h : c.Next = .ok (r, c1)) : c1.bound = c.bound := by
  cases c with
  | leaf x =>
    simp only [plainConverter.Next] at h
    cases hx : x.Next with
    | error e => simp [hx, Except.map] at h
    | ok p =>
      simp only [hx, Except.map] at h; injection h with h; injection h with _ h; rw [← h]
      exact leafConverter.leaf_Next_bound x p.2 p.1 (by rw [hx])
  | IntSlice x =>
    simp only [plainConverter.Next] at h
    cases hx : x.Next with
    | error e => simp [hx, Except.map] at h
    | ok p =>
      simp only [hx, Except.map] at h; injection h with h; injection h with _ h; rw [← h]
      simp only [plainConverter.bound]
      rw [converterIntSlice.intSlice_Next_value x p.2 p.1 (by rw [hx])]

theorem plainConverter.emits_of_drain (fuel : Nat) :
    ∀ (s : plainConverter) (raw : List Byte) (c : converter),
      converter.drain fuel (.plain s) = .ok (raw, c) → s.Emits raw ∧ raw.length < fuel := by
  induction fuel with
  | zero => intro s raw c h; simp [converter.drain] at h
  | succ fuel ih =>
    intro s raw c h
    simp only [converter.drain, converter.Next, bind, Except.bind] at h
    cases hn : s.Next with
    | error e => simp [hn, Except.map] at h
    | ok p =>
      obtain ⟨⟨b, ok⟩, s1⟩ := p
      simp only [hn, Except.map] at h
      cases ok with
      | false =>
        simp only [Bool.not_false, if_true] at h
        injection h with h; injection h with h _
        subst h
        exact ⟨plainConverter.Emits.done hn, by simp⟩
      | true =>
        simp only [Bool.not_true] at h
        cases hd : converter.drain fuel (.plain s1) with
        | error e => simp [hd] at h
        | ok q =>
          obtain ⟨rest, c2⟩ := q
          simp only [hd] at h
          injection h with h; injection h with h _
          subst h
          obtain ⟨he, hl⟩ := ih s1 rest c2 hd
          exact ⟨plainConverter.Emits.step hn he, by simp; omega⟩

theorem converterTransforms.loop_emits (fs : List TransformFunc) (s : plainConverter)
    (raw : List Byte) (he : s.Emits raw) :
    ∀ fuel, raw.length < fuel →
      (transformStream fs raw = [] ∧
        ∃ v s1, converterTransforms.Next.loop fs fuel s = .ok ((v, false), s1)) ∨
      (∃ b s1 raw1, converterTransforms.Next.loop fs fuel s = .ok ((b, true), s1) ∧
          s1.bound = s.bound ∧ s1.Emits raw1 ∧ raw1.length < raw.length ∧
          transformStream fs raw = b :: transformStream fs raw1) := by
  induction he with
  | @done s s1 v hn =>
    intro fuel hf
    cases fuel with
    | zero => omega
    | succ fuel =>
      refine Or.inl ⟨rfl, v, s1, ?_⟩
      simp [converterTransforms.Next.loop, hn, bind, Except.bind]
  | @step s s1 b raw hn he ih =>
    intro fuel hf
    cases fuel with
    | zero => omega
    | succ fuel =>
      have hb := plainConverter.plain_Next_bound _ _ _ hn
      have hrange := range_spec fs b
      cases ht : transformByte fs b with
      | some out =>
        rw [ht] at hrange
        refine Or.inr ⟨out, s1, raw, ?_, hb, he, by simp, ?_⟩
        · simp [converterTransforms.Next.loop, hn, bind, Except.bind, hrange]
        · simp [transformStream, ht]
      | none =>
        rw [ht] at hrange
        have hloop : converterTransforms.Next.loop fs (fuel + 1) s =
            converterTransforms.Next.loop fs fuel s1 := by
          simp only [converterTransforms.Next.loop, hn, bind, Except.bind]
          cases hx : converterTransforms.Next.range fs b with
          | mk v p =>
            rw [hx] at hrange
            simp only at hrange
            subst hrange
            simp
        have hts : transformStream fs (b :: raw) = transformStream fs raw := by
          simp [transformStream, ht]
        rw [hloop, hts]
        rcases ih fuel (by simp at hf; omega) with ⟨h1, h2⟩ | ⟨b1, s2, raw1, h1, h2, h3, h4, h5⟩
        · exact Or.inl ⟨h1, h2⟩
        · exact Or.inr ⟨b1, s2, raw1, h1, by rw [h2, hb], h3, by simp; omega, h5⟩

theorem converterTransforms.drain_emits (fs : List TransformFunc) (n : Nat) :
    ∀ (raw : List Byte) (s : plainConverter), raw.length ≤ n → s.Emits raw →
      raw.length ≤ s.bound → ∀ fuel, (transformStream fs raw).length < fuel →
      ∃ c, converter.drain fuel (.Transforms ⟨s, fs⟩) = .ok (transformStream fs raw, c) := by
  induction n with
  | zero =>
    intro raw s hn he hb fuel hf
    cases fuel with
    | zero => omega
    | succ fuel =>
      rcases converterTransforms.loop_emits fs s raw he (s.bound + 1) (by omega) with
        ⟨h1, v, s1, h2⟩ | ⟨b, s1, raw1, _, _, _, h4, _⟩
      · refine ⟨.Transforms ⟨s1, fs⟩, ?_⟩
        simp [converter.drain, converter.Next, converterTransforms.Next, h2, h1, Except.map, bind,
          Except.bind]
      · omega
  | succ n ih =>
    intro raw s hn he hb fuel hf
    cases fuel with
    | zero => omega
    | succ fuel =>
      rcases converterTransforms.loop_emits fs s raw he (s.bound + 1) (by omega) with
        ⟨h1, v, s1, h2⟩ | ⟨b, s1, raw1, h2, h3, h4, h5, h6⟩
      · refine ⟨.Transforms ⟨s1, fs⟩, ?_⟩
        simp [converter.drain, converter.Next, converterTransforms.Next, h2, h1, Except.map, bind,
          Except.bind]
      · rw [h6] at hf
        obtain ⟨c, hc⟩ := ih raw1 s1 (by omega) h4 (by rw [h3]; omega) fuel
          (by simp at hf; omega)
        refine ⟨c, ?_⟩
        simp [converter.drain, converter.Next, converterTransforms.Next, h2, h6, Except.map, bind,
          Except.bind, hc]

theorem wrapConverter_stream (sub : plainConverter) (fs : List TransformFunc) (k : Key)
    (raw : List Byte) (h : (converter.plain sub).stream k = .ok raw) :
    (wrapConverter sub fs).stream k = .ok (transformStream fs raw) := by
  simp only [converter.stream, converter.Load, bind, Except.bind] at h
  cases hl : sub.Load k with
  | error e => simp [hl, Except.map] at h
  | ok p =>
    obtain ⟨s1, err⟩ := p
    simp only [hl, Except.map, converter.bound] at h
    cases hd : converter.drain (s1.bound + 1) (.plain s1) with
    | error e => simp [hd] at h
    | ok q =>
      obtain ⟨bytes, c⟩ := q
      simp only [hd] at h
      injection h with h
      subst h
      obtain ⟨he, hlen⟩ := plainConverter.emits_of_drain _ s1 bytes c hd
      obtain ⟨c1, hc1⟩ := converterTransforms.drain_emits fs bytes.length bytes s1 (le_refl _) he
        (by omega) (s1.bound + 1)
        (by have := transformStream_length_le fs bytes; omega)
      simp [converter.stream, converter.Load, wrapConverter, converterTransforms.Load, hl,
        Except.map, bind, Except.bind, converter.bound, hc1]

namespace simpleNode
variable {V : Type}

theorem nodesOf_eq (l : List (simpleNode V)) : nodesOf l = l.flatMap nodes := by
  induction l with
  | nil => simp [nodesOf]
  | cons c l ih => simp [nodesOf, ih]

theorem nodes_eq (n : simpleNode V) : n.nodes = n :: n.next.flatMap nodes := by
  cases n with
  | mk h v k nx => simp [nodes, nodesOf_eq]

theorem self_mem_nodes (n : simpleNode V) : n ∈ n.nodes := by
  rw [nodes_eq]; simp

theorem Sorted.nodes {n : simpleNode V} (h : Sorted n) : ∀ m ∈ n.nodes, Sorted m := by
  induction h with
  | mk hv v k nx hp hc ih =>
    intro m hm
    rw [nodes_eq] at hm
    simp only [List.mem_cons, List.mem_flatMap, next_mk] at hm
    rcases hm with rfl | ⟨c, hc1, hm⟩
    · exact Sorted.mk _ _ _ _ hp hc
    · exact ih c hc1 m hm

theorem valueCount_eq (n : simpleNode V) :
    n.valueCount = (if n.hasValue then 1 else 0) + (n.next.map valueCount).sum := by
  have hsum : ∀ l : List (simpleNode V),
      (l.flatMap nodes).countP (fun m => m.hasValue) = (l.map valueCount).sum := by
    intro l
    induction l with
    | nil => simp
    | cons c l ih => simp [List.flatMap_cons, List.countP_append, ih, valueCount]
  rw [valueCount, nodes_eq, List.countP_cons, hsum]
  split <;> simp_all [Nat.add_comm]

theorem sum_map_set {α : Type} (f : α → Nat) (l : List α) (i : Nat) (hi : i < l.length)
    (x : α) : ((l.set i x).map f).sum + f l[i] = (l.map f).sum + f x := by
  induction l generalizing i with
  | nil => simp at hi
  | cons a l ih =>
    cases i with
    | zero => simp; omega
    | succ i =>
      have hi1 : i < l.length := by simpa using hi
      have := ih i hi1
      simp only [List.set_cons_succ, List.map_cons, List.sum_cons, List.getElem_cons_succ]
      omega

theorem valueCount_literal [Inhabited V] (b : Byte) :
    (literal b : simpleNode V).valueCount = 0 := by
  rw [valueCount_eq]; simp [literal]

theorem valueCount_put [Inhabited V] (bs : List Byte) (v : V) :
    ∀ n : simpleNode V, Sorted n →
      (put n bs v).valueCount = n.valueCount + if (get n bs).isSome then 0 else 1 := by
  induction bs with
  | nil =>
    intro n _
    rw [put_nil, valueCount_eq, valueCount_eq n, get_nil]
    cases h : n.hasValue
    · simp [h]; omega
    · simp [h]
  | cons b bs ih =>
    intro n hs
    by_cases hex : ∃ c ∈ n.next, c.key = b
    · obtain ⟨c, hc, hk⟩ := hex
      obtain ⟨i, hi, rfl⟩ := List.getElem_of_mem hc
      rw [put_cons_found n b bs v ⟨_, hc, hk⟩, map_eq_set n.next b i hi hs.pairwise hk,
        get_cons, find_eq_getElem n.next b i hi hs.pairwise hk, valueCount_eq, valueCount_eq n]
      simp only [hasValue_mk, next_mk, Option.some_bind]
      have hset := sum_map_set valueCount n.next i hi (put n.next[i] bs v)
      rw [ih _ (hs.child _ (List.getElem_mem hi))] at hset
      omega
    · have hno : ∀ c ∈ n.next, c.key ≠ b := by
        intro c hc hk
        exact hex ⟨c, hc, hk⟩
      rw [put_cons_new n b bs v hno, get_cons, find_none_of_forall n.next b hno, valueCount_eq,
        valueCount_eq n]
      simp only [hasValue_mk, next_mk, Option.none_bind, List.map_append, List.map_cons,
        List.sum_append, List.sum_cons]
      rw [ih _ (sorted_literal b), valueCount_literal, get_literal]
      have hl : (n.next.map valueCount).sum =
          ((n.next.takeWhile fun c => c.key < b).map valueCount).sum +
            ((n.next.dropWhile fun c => c.key < b).map valueCount).sum := by
        rw [← List.sum_append, ← List.map_append, List.takeWhile_append_dropWhile]
      rw [hl]
      simp
      omega

end simpleNode

theorem Reachable.count {V : Type} [Inhabited V] {T : GoType} {fs : List TransformFunc}
    {t : SimpleTrie V} (h : Reachable T fs t) : t.length = t.head.valueCount := by
  induction h with
  | new h =>
    obtain ⟨_, hh, hl⟩ := NewTrie_spec T fs _ h
    rw [hh, hl, simpleNode.valueCount_literal]
  | @add t t1 k v e hr hk hadd ih =>
    obtain ⟨t2, h1, _, hhead, hlen⟩ := SimpleTrie.Add_obs T fs t k v hr.inv hk
    rw [h1] at hadd
    injection hadd with hadd
    injection hadd with _ hadd
    subst hadd
    rw [hhead, hlen, simpleNode.valueCount_put _ _ _ hr.inv.2, ih]
    split <;> simp_all
  | @find t t1 k r hr hk hfind ih =>
    obtain ⟨t2, h1, _, hhead, hlen⟩ := SimpleTrie.Find_obs T fs t k hr.inv hk
    rw [h1] at hfind
    injection hfind with hfind
    injection hfind with _ hfind
    subst hfind
    rw [hhead, hlen, ih]

theorem converter.Reached.serves {T : GoType} {fs : List TransformFunc} {c : converter}
    (h : converter.Reached T fs c) : c.Serves T fs := by
  induction h with
  | new h => exact (NewTrie_spec T fs _ h).1.1
  | load _ hk hl ih =>
    obtain ⟨c2, h1, h2, _⟩ := converter.load_spec _ T fs _ ih hk
    rw [h1] at hl
    injection hl with hl
    injection hl with hl _
    subst hl
    exact h2
  | next _ hn ih =>
    obtain ⟨c2, h2, h3⟩ := converter.next_spec _ T fs ih
    split at h3 <;>
      (rw [h3.1] at hn
       injection hn with hn
       injection hn with _ hn
       subst hn
       exact h2)

theorem converter.next_false (T : GoType) (fs : List TransformFunc) (c c1 : converter)
    (v : Byte) (h : c.Serves T fs) (hn : c.Next = .ok ((v, false), c1)) :
    v = 0 ∧ c1.Serves T fs ∧ c1.remaining = [] := by
  obtain ⟨c2, h2, h3⟩ := converter.next_spec c T fs h
  split at h3
  · rw [h3.1] at hn
    injection hn with hn
    injection hn with hv hc
    injection hv with hv _
    subst hc
    exact ⟨hv.symm, h2, h3.2⟩
  · rw [h3.1] at hn
    injection hn with hn
    injection hn with hv _
    injection hv with _ hb
    cases hb

theorem converter.NextTimes_exhausted (T : GoType) (fs : List TransformFunc) (n : Nat) :
    ∀ c : converter, c.Serves T fs → c.remaining = [] →
      ∃ c2, c.NextTimes n = .ok (List.replicate n (0, false), c2) ∧ c2.Serves T fs ∧
        c2.remaining = [] := by
  induction n with
  | zero =>
    intro c hs hr
    exact ⟨c, rfl, hs, hr⟩
  | succ n ih =>
    intro c hs hr
    obtain ⟨c1, h1, h2⟩ := converter.next_spec c T fs hs
    rw [hr] at h2
    obtain ⟨c2, h3, h4, h5⟩ := ih c1 h1 h2.2
    exact ⟨c2, by simp [converter.NextTimes, h2.1, h3, bind, Except.bind, List.replicate_succ],
      h4, h5⟩

theorem lookup_eq_some_iff {α β : Type} [BEq α] [LawfulBEq α] (l : List (α × β))
    (hnd : (l.map Prod.fst).Nodup) (a : α) (b : β) : l.lookup a = some b ↔ (a, b) ∈ l := by
  induction l with
  | nil => simp
  | cons p l ih =>
    obtain ⟨a1, b1⟩ := p
    simp only [List.map_cons, List.nodup_cons, List.mem_map, Prod.exists, exists_and_right,
      exists_eq_right, not_exists] at hnd
    by_cases h : a = a1
    · subst h
      have hno : (a, b) ∉ l := hnd.1 b
      simp [List.lookup_cons, hno]
      exact eq_comm
    · have hb : (a == a1) = false := by simpa using h
      simp [List.lookup_cons, hb, h, ih hnd.2]

theorem lookup_perm {α β : Type} [BEq α] [LawfulBEq α] (l1 l2 : List (α × β)) (hp : l1.Perm l2)
    (hnd : (l1.map Prod.fst).Nodup) (a : α) : l1.lookup a = l2.lookup a := by
  have hnd2 : (l2.map Prod.fst).Nodup := (hp.map Prod.fst).nodup_iff.mp hnd
  apply Option.ext
  intro b
  simp only [Option.mem_def]
  rw [lookup_eq_some_iff l1 hnd, lookup_eq_some_iff l2 hnd2]
  exact hp.mem_iff

theorem lookup_map_inj {α γ β : Type} [BEq α] [LawfulBEq α] [BEq γ] [LawfulBEq γ] (g : α → γ)
    (l : List (α × β)) (a : α) (hinj : ∀ p ∈ l, g p.1 = g a → p.1 = a) :
    (l.map fun p => (g p.1, p.2)).lookup (g a) = l.lookup a := by
  induction l with
  | nil => rfl
  | cons p l ih =>
    obtain ⟨a1, b1⟩ := p
    have ih1 := ih (fun q hq => hinj q (List.mem_cons_of_mem _ hq))
    by_cases h : a = a1
    · subst h
      simp [List.lookup_cons]
    · have hg : ¬ g a = g a1 := fun hga => h (hinj (a1, b1) (by simp) hga.symm).symm
      have hb : (a == a1) = false := by simpa using h
      have hgb : (g a == g a1) = false := by simpa using hg
      simp only [List.map_cons, List.lookup_cons, hb, hgb]
      exact ih1

theorem simpleNode.get_putAll_nodup {V : Type} [Inhabited V] (bs : List Byte)
    (l : List (List Byte × V)) :
    ∀ n : simpleNode V, (l.map Prod.fst).Nodup →
      (n.putAll l).get bs = match l.lookup bs with
        | some v => some v
        | none => n.get bs := by
  induction l with
  | nil => intro n _; rfl
  | cons p l ih =>
    intro n hnd
    obtain ⟨bs1, v⟩ := p
    simp only [List.map_cons, List.nodup_cons] at hnd
    rw [simpleNode.putAll, ih _ hnd.2, simpleNode.get_put]
    by_cases h : bs = bs1
    · subst h
      have hnone : l.lookup bs = none := by
        cases hl : l.lookup bs with
        | none => rfl
        | some w =>
          have := (lookup_eq_some_iff l hnd.2 bs w).mp hl
          exact absurd (List.mem_map_of_mem Prod.fst this) hnd.1
      simp [List.lookup_cons, hnone]
    · have hb : (bs == bs1) = false := by simpa using h
      simp [List.lookup_cons, hb, h]

theorem NewTrie_stores {V : Type} [Inhabited V] (T : GoType) (fs : List TransformFunc)
    (t : SimpleTrie V) (h : NewTrie V T fs = .ok t) : t.Stores ∅ := by
  obtain ⟨_, hh, hl⟩ := NewTrie_spec T fs t h
  refine ⟨?_, by simp [hl]⟩
  intro bs
  rw [hh, simpleNode.get_literal]
  simp

theorem NewTrie_ok_iff (V : Type) [Inhabited V] (T : GoType) (fs : List TransformFunc) :
    (∃ t, NewTrie V T fs = .ok t) ↔ ∃ s, selectConverter T = .ok s := by
  unfold NewTrie
  cases hs : selectConverter T with
  | error e => simp
  | ok s => simp

theorem NewTrie_error (V : Type) [Inhabited V] (T : GoType) (fs : List TransformFunc)
    (h : ¬ ∃ s, selectConverter T = .ok s) : NewTrie V T fs = .error .ErrorBadTrieKey := by
  unfold NewTrie
  cases hs : selectConverter T with
  | error e => cases e; rfl
  | ok s => exact absurd ⟨s, hs⟩ h

theorem NewTrieFromMap_spec {V : Type} [Inhabited V] (T : GoType) (fs : List TransformFunc)
    (m : List (Key × V)) (hsel : ∃ s, selectConverter T = .ok s)
    (hty : ∀ p ∈ m, p.1.HasType T = true) :
    ∃ t, NewTrieFromMap V T m fs = .ok (.ok t) ∧ t.Inv T fs ∧
      t.head = (simpleNode.literal 0).putAll (m.map fun p => (effective fs p.1, p.2)) ∧
      t.length = (m.map fun p => effective fs p.1).toFinset.card := by
  obtain ⟨t0, h0⟩ := (NewTrie_ok_iff V T fs).mpr hsel
  obtain ⟨hinv, hh, _⟩ := NewTrie_spec T fs t0 h0
  obtain ⟨es, t1, hall, hinv1, hhead, hst⟩ :=
    SimpleTrie.AddAll_spec T fs m t0 ∅ hinv (NewTrie_stores T fs t0 h0) hty
  refine ⟨t1, ?_, hinv1, by rw [hhead, hh], by simpa using hst.2⟩
  simp [NewTrieFromMap, h0, hall, bind, Except.bind]

theorem effective_nil_inj (T : GoType) (k1 k2 : Key) (hT : ∃ s, selectConverter T = .ok s)
    (h1 : k1.HasType T = true) (h2 : k2.HasType T = true)
    (h : effective [] k1 = effective [] k2) : k1 = k2 := by
  simp only [effective, transformStream_nil] at h
  exact encode_inj T k1 k2 hT h1 h2 h

theorem NewTrieFromMap_get {V : Type} [Inhabited V] (T : GoType) (fs : List TransformFunc)
    (m : List (Key × V)) (hsel : ∃ s, selectConverter T = .ok s)
    (hty : ∀ p ∈ m, p.1.HasType T = true)
    (hnd : (m.map fun p => effective fs p.1).Nodup) :
    ∃ t, NewTrieFromMap V T m fs = .ok (.ok t) ∧ t.Inv T fs ∧ t.length = m.length ∧
      ∀ bs, t.head.get bs = (m.map fun p => (effective fs p.1, p.2)).lookup bs := by
  obtain ⟨t, h1, h2, h3, h4⟩ := NewTrieFromMap_spec T fs m hsel hty
  refine ⟨t, h1, h2, ?_, ?_⟩
  · rw [h4, List.toFinset_card_of_nodup hnd, List.length_map]
  · intro bs
    have hnd1 : ((m.map fun p => (effective fs p.1, p.2)).map Prod.fst).Nodup := by
      simpa [Function.comp_def] using hnd
    rw [h3, simpleNode.get_putAll_nodup bs _ _ hnd1, simpleNode.get_literal]
    cases (m.map fun p => (effective fs p.1, p.2)).lookup bs <;> rfl

theorem nodup_map_effective {V : Type} (fs : List TransformFunc) (m : List (Key × V))
    (hnd : (m.map Prod.fst).Nodup)
    (hinj : ∀ p ∈ m, ∀ q ∈ m, effective fs p.1 = effective fs q.1 → p.1 = q.1) :
    (m.map fun p => effective fs p.1).Nodup := by
  have : (m.map fun p => effective fs p.1) = (m.map Prod.fst).map (effective fs) := by
    simp [Function.comp_def]
  rw [this]
  apply List.Nodup.map_on _ hnd
  intro a ha b hb hab
  simp only [List.mem_map] at ha hb
  obtain ⟨p, hp, rfl⟩ := ha
  obtain ⟨q, hq, rfl⟩ := hb
  exact hinj p hp q hq hab

theorem pairTrie_reachable : Reachable .string [] pairTrie := by
  have h1 : Reachable .string []
      ({ converter := .plain (.leaf (.String ⟨1, [98]⟩)),
         head := .mk false 0 0 [.mk true 1 98 []], length := 1 } : SimpleTrie Int) :=
    @Reachable.add Int _ .string [] stringTrie _ (stringKey "b") 1 true (Reachable.new rfl)
      rfl rfl
  exact @Reachable.add Int _ .string [] _ pairTrie (stringKey "a") 2 true h1 rfl rfl

namespace simpleNode
variable {V : Type}

theorem binarySearchNext.search_loop_total (next : List (simpleNode V)) (key : Byte)
    (fuel : Nat) :
    ∀ (bottom top : Int) (nn : Option Nat), 0 ≤ bottom → top < next.length →
    top - bottom + 1 ≤ fuel →
    ∃ r, binarySearchNext.loop next key fuel bottom top nn = .ok r := by
  induction fuel with
  | zero =>
    intro bottom top nn hb ht hf
    have hlt : top < bottom := by omega
    exact ⟨(nn, false), by simp [binarySearchNext.loop, hlt]⟩
  | succ fuel ih =>
    intro bottom top nn hb ht hf
    by_cases hge : top ≥ bottom
    · have hdiv : Int.tdiv (top - bottom) 2 = (top - bottom) / 2 :=
        Int.tdiv_eq_ediv (by omega) (by omega)
      obtain ⟨idx, hidx⟩ : ∃ idx : Nat, (idx : Int) = (top - bottom) / 2 + bottom :=
        ⟨((top - bottom) / 2 + bottom).toNat, by omega⟩
      have hlen : idx < next.length := by omega
      have hnot : ¬ ((top - bottom) / 2 + bottom < 0) := by omega
      have htoNat : ((top - bottom) / 2 + bottom).toNat = idx := by omega
      by_cases heq : next[idx].key = key
      · exact ⟨(some idx, true), by
          simp [binarySearchNext.loop, hge, hdiv, hnot, htoNat, index,
            List.getElem?_eq_getElem hlen, bind, Except.bind, heq]⟩
      · by_cases hgt : next[idx].key > key
        · obtain ⟨r, hr⟩ := ih bottom ((top - bottom) / 2 + bottom - 1) (some idx) hb
            (by omega) (by omega)
          exact ⟨r, by
            simpa [binarySearchNext.loop, hge, hdiv, hnot, htoNat, index,
              List.getElem?_eq_getElem hlen, bind, Except.bind, heq, hgt] using hr⟩
        · obtain ⟨r, hr⟩ := ih ((top - bottom) / 2 + bottom + 1) top (some idx) (by omega) ht
            (by omega)
          exact ⟨r, by
            simpa [binarySearchNext.loop, hge, hdiv, hnot, htoNat, index,
              List.getElem?_eq_getElem hlen, bind, Except.bind, heq, hgt] using hr⟩
    · exact ⟨(nn, false), by simp [binarySearchNext.loop, hge]⟩

theorem binarySearchNext_total (n : simpleNode V) (key : Byte) :
    ∃ r, n.binarySearchNext key = .ok r := by
  have := binarySearchNext.search_loop_total n.next key n.next.length 0
    ((n.next.length : Int) - 1) none (by omega) (by omega) (by omega)
  simpa [binarySearchNext] using this

theorem binarySearchNext_pairwise (n : simpleNode V) (key : Byte)
    (hp : n.next.Pairwise (fun a b => a.key < b.key)) :
    (∃ i, ∃ h : i < n.next.length, n.next[i].key = key ∧
        n.binarySearchNext key = .ok (some i, true)) ∨
    ((∀ c ∈ n.next, c.key ≠ key) ∧ ∃ nn1, n.binarySearchNext key = .ok (nn1, false)) := by
  have := binarySearchNext.search_loop_spec n.next key hp n.next.length 0
    ((n.next.length : Int) - 1) none (by omega) (by omega) (by omega)
    (by intro i _ hi; omega) (by intro i hi hlt; omega)
  simpa [binarySearchNext] using this

theorem insertNewNode_pairwise [Inhabited V] (hasValue : Bool) (value : V) (k : Byte)
    (next : List (simpleNode V)) (key : Byte)
    (hp : next.Pairwise (fun a b => a.key < b.key)) (hno : ∀ c ∈ next, c.key ≠ key) :
    ∃ m, m ≤ next.length ∧
      (mk hasValue value k next).insertNewNode key =
        .ok (mk hasValue value k (next.take m ++ literal key :: next.drop m), m) ∧
      (next.take m ++ literal key :: next.drop m).Pairwise (fun a b => a.key < b.key) := by
  obtain ⟨m, hm, hins, hhi, hlo⟩ := insertNewNode_spec hasValue value k next key
  refine ⟨m, hm, hins, ?_⟩
  obtain ⟨htake, _⟩ := split_eq_while next key m hp hno hm hhi hlo
  have hlow : ∀ x ∈ next.take m, x.key < key := by
    intro x hx
    rw [htake] at hx
    simpa using List.mem_takeWhile_imp hx
  have hsplit : next.take m ++ next.drop m = next := List.take_append_drop m next
  rw [← hsplit] at hp
  obtain ⟨hp1, hp2, _⟩ := List.pairwise_append.mp hp
  rw [List.pairwise_append]
  refine ⟨hp1, List.pairwise_cons.mpr ⟨fun x hx => hhi x hx, hp2⟩, ?_⟩
  intro a ha c hc
  rcases List.mem_cons.mp hc with rfl | hc
  · exact hlow a ha
  · exact lt_trans (hlow a ha) (hhi c hc)

end simpleNode

theorem Reachable.supported {V : Type} [Inhabited V] {T : GoType} {fs : List TransformFunc}
    {t : SimpleTrie V} (h : Reachable T fs t) : ∃ s, selectConverter T = .ok s := by
  induction h with
  | new h => exact (NewTrie_ok_iff V T fs).mp ⟨_, h⟩
  | add _ _ _ ih => exact ih
  | find _ _ _ ih => exact ih

theorem pairTrie_pairwise :
    pairTrie.head.next.Pairwise (fun a c => a.key < c.key) :=
  (Reachable.inv pairTrie_reachable).2.pairwise

theorem converter.load_raw (c : converter) (T : GoType) (fs : List TransformFunc) (k : Key)
    (h : c.Serves T fs) (hk : k.HasType T = true) :
    ∃ c1, c.Load k = .ok (c1, none) ∧ c1.Serves T fs ∧ c1.remaining = effective fs k ∧
      c1.rawRemaining = encode k := by
  cases c with
  | plain c =>
    obtain ⟨hfs, hs⟩ := h
    obtain ⟨c1, h1, h2, h3⟩ := plainConverter.plain_load_spec c T k hs hk
    exact ⟨.plain c1, by simp [converter.Load, h1, Except.map], ⟨hfs, h2⟩, by
      simp [converter.remaining, h3, effective, hfs, transformStream_nil], h3⟩
  | Transforms c =>
    obtain ⟨sub, ts⟩ := c
    obtain ⟨hfs, hs⟩ := h
    simp only at hfs hs
    subst hfs
    obtain ⟨c1, h1, h2, h3⟩ := plainConverter.plain_load_spec sub T k hs hk
    exact ⟨.Transforms ⟨c1, ts⟩, by
      simp [converter.Load, converterTransforms.Load, h1, Except.map], ⟨rfl, h2⟩, by
      simp [converter.remaining, h3, effective], h3⟩

theorem plainConverter.plain_next_raw (T : GoType) (sub sub1 : plainConverter)
    (r : Byte × Bool) (hs : sub.Serves T) (hn : sub.Next = .ok (r, sub1)) :
    sub1.Serves T ∧ sub1.remaining <:+ sub.remaining := by
  obtain ⟨s1, hs1, h1⟩ := plainConverter.plain_next_spec sub T hs
  split at h1
  · rw [h1.1] at hn
    injection hn with hn
    injection hn with _ hn
    subst hn
    exact ⟨hs1, by rw [h1.2]; exact List.nil_suffix⟩
  · rename_i b bs heq
    rw [h1.1] at hn
    injection hn with hn
    injection hn with _ hn
    subst hn
    exact ⟨hs1, by rw [h1.2, heq]; exact List.suffix_cons b bs⟩

theorem converterTransforms.loop_raw (fs : List TransformFunc) (T : GoType) (fuel : Nat) :
    ∀ (sub sub1 : plainConverter) (r : Byte × Bool), sub.Serves T →
      converterTransforms.Next.loop fs fuel sub = .ok (r, sub1) →
      sub1.Serves T ∧ sub1.remaining <:+ sub.remaining := by
  induction fuel with
  | zero =>
    intro sub sub1 r _ h
    simp [converterTransforms.Next.loop] at h
  | succ fuel ih =>
    intro sub sub1 r hs h
    cases hn : sub.Next with
    | error e => simp [converterTransforms.Next.loop, hn, bind, Except.bind] at h
    | ok x =>
      obtain ⟨⟨value, ok⟩, s1⟩ := x
      obtain ⟨hs1, hsuf⟩ := plainConverter.plain_next_raw T sub s1 (value, ok) hs hn
      simp only [converterTransforms.Next.loop, hn, bind, Except.bind] at h
      cases ok with
      | false =>
        simp at h
        obtain ⟨_, rfl⟩ := h
        exact ⟨hs1, hsuf⟩
      | true =>
        simp only [Bool.not_true] at h
        cases hx : converterTransforms.Next.range fs value with
        | mk v p =>
          rw [hx] at h
          cases p with
          | true =>
            simp at h
            obtain ⟨_, rfl⟩ := h
            exact ⟨hs1, hsuf⟩
          | false =>
            simp at h
            obtain ⟨hs2, hsuf2⟩ := ih s1 sub1 r hs1 h
            exact ⟨hs2, hsuf2.trans hsuf⟩

theorem converter.next_raw (T : GoType) (fs : List TransformFunc) (c c1 : converter)
    (r : Byte × Bool) (h : c.Serves T fs) (hn : c.Next = .ok (r, c1)) :
    c1.rawRemaining <:+ c.rawRemaining := by
  cases c with
  | plain c =>
    cases hx : c.Next with
    | error e => simp [converter.Next, hx, Except.map] at hn
    | ok x =>
      obtain ⟨r1, s1⟩ := x
      simp [converter.Next, hx, Except.map] at hn
      obtain ⟨_, rfl⟩ := hn
      exact (plainConverter.plain_next_raw T c s1 r1 h.2 hx).2
  | Transforms c =>
    obtain ⟨sub, ts⟩ := c
    cases hx : converterTransforms.Next.loop ts (sub.bound + 1) sub with
    | error e => simp [converter.Next, converterTransforms.Next, hx, Except.map] at hn
    | ok x =>
      obtain ⟨r1, s1⟩ := x
      simp [converter.Next, converterTransforms.Next, hx, Except.map] at hn
      obtain ⟨_, rfl⟩ := hn
      exact (converterTransforms.loop_raw ts T (sub.bound + 1) sub s1 r1 h.2 hx).2

namespace simpleNode
variable {V : Type}

theorem node_add_raw [Inhabited V] (T : GoType) (fs : List TransformFunc) (v : V) (fuel : Nat) :
    ∀ (n : simpleNode V) (c : converter), Sorted n → c.Serves T fs →
      c.remaining.length < fuel →
      ∃ c1, c1.Serves T fs ∧ c1.rawRemaining <:+ c.rawRemaining ∧
        add fuel n c v = .ok ((!(get n c.remaining).isSome, put n c.remaining v), c1) := by
  induction fuel with
  | zero => intro n c _ _ h; omega
  | succ fuel ih =>
    intro n c hsorted hs hlen
    obtain ⟨c1, hs1, h1⟩ := converter.next_spec c T fs hs
    split at h1
    · rename_i heq
      refine ⟨c1, hs1, converter.next_raw T fs c c1 _ hs h1.1, ?_⟩
      rw [heq, put_nil, get_nil]
      simp only [add, h1.1, bind, Except.bind]
      cases n.hasValue <;> simp
    · rename_i b bs heq
      obtain ⟨hn, hr⟩ := h1
      have hsuf := converter.next_raw T fs c c1 _ hs hn
      have hlen1 : c1.remaining.length < fuel := by
        rw [hr]; rw [heq] at hlen; simp at hlen; omega
      rw [heq]
      rcases binarySearchNext_spec n b hsorted with ⟨i, hi, hk, hb⟩ | ⟨hno, nn1, hb⟩
      · obtain ⟨c2, hs2, hsuf2, hadd⟩ :=
          ih n.next[i] c1 (hsorted.child _ (List.getElem_mem hi)) hs1 hlen1
        rw [hr] at hadd
        refine ⟨c2, hs2, hsuf2.trans hsuf, ?_⟩
        have hput : put n (b :: bs) v =
            mk n.hasValue n.value n.key (n.next.set i (put n.next[i] bs v)) := by
          rw [put_cons_found n b bs v ⟨n.next[i], List.getElem_mem hi, hk⟩,
            map_eq_set n.next b i hi hsorted.pairwise hk]
        have hget : get n (b :: bs) = get n.next[i] bs := by
          rw [get_cons, find_eq_getElem n.next b i hi hsorted.pairwise hk]; rfl
        rw [hput, hget]
        simp only [add, hn, bind, Except.bind, hb, index_eq _ _ hi, hadd, store_eq _ _ _ hi]
        simp
      · obtain ⟨m, hm, hins, hhi, hlo⟩ := insertNewNode_spec n.hasValue n.value n.key n.next b
        rw [eta] at hins
        obtain ⟨c2, hs2, hsuf2, hadd⟩ := ih (literal b) c1 (sorted_literal b) hs1 hlen1
        rw [hr, get_literal] at hadd
        refine ⟨c2, hs2, hsuf2.trans hsuf, ?_⟩
        obtain ⟨htake, hdrop⟩ := split_eq_while n.next b m hsorted.pairwise hno hm hhi hlo
        have hput : put n (b :: bs) v = mk n.hasValue n.value n.key
            (n.next.take m ++ put (literal b) bs v :: n.next.drop m) := by
          rw [put_cons_new n b bs v hno, htake, hdrop]
        have hget : get n (b :: bs) = none := by
          rw [get_cons, find_none_of_forall n.next b hno]; rfl
        have hlt : m < (n.next.take m ++ (literal b : simpleNode V) :: n.next.drop m).length := by
          simp; omega
        have hidx : (n.next.take m ++ (literal b : simpleNode V) :: n.next.drop m)[m] =
            literal b := by
          rw [List.getElem_append_right (by simp)]
          simp [Nat.min_eq_left hm]
        have hset : (n.next.take m ++ (literal b : simpleNode V) :: n.next.drop m).set m
            (put (literal b) bs v) = n.next.take m ++ put (literal b) bs v :: n.next.drop m := by
          have hl : (List.take m n.next).length = m := by simp; omega
          rw [List.set_append_right _ _ (by omega), hl]
          simp
        rw [hput, hget]
        simp only [add, hn, bind, Except.bind, hb, hins]
        have hnot : (false = true) = False := by simp
        simp only [hnot, if_false, next_mk, index_eq _ _ hlt, hidx, hadd,
          store_eq _ _ _ (show m < (mk n.hasValue n.value n.key _).next.length from hlt),
          hasValue_mk, value_mk, key_mk, hset]
        simp

theorem node_Find_raw [Inhabited V] (T : GoType) (fs : List TransformFunc) (fuel : Nat) :
    ∀ (n : simpleNode V) (c : converter), Sorted n → c.Serves T fs →
      c.remaining.length < fuel →
      ∃ c1, c1.Serves T fs ∧ c1.rawRemaining <:+ c.rawRemaining ∧
        Find fuel n c = .ok (findResult (get n c.remaining), c1) := by
  induction fuel with
  | zero => intro n c _ _ h; omega
  | succ fuel ih =>
    intro n c hsorted hs hlen
    obtain ⟨c1, hs1, h1⟩ := converter.next_spec c T fs hs
    split at h1
    · rename_i heq
      refine ⟨c1, hs1, converter.next_raw T fs c c1 _ hs h1.1, ?_⟩
      rw [heq, get_nil]
      simp only [Find, h1.1, bind, Except.bind]
      cases n.hasValue <;> simp [findResult]
    · rename_i b bs heq
      obtain ⟨hn, hr⟩ := h1
      have hsuf := converter.next_raw T fs c c1 _ hs hn
      have hlen1 : c1.remaining.length < fuel := by
        rw [hr]; rw [heq] at hlen; simp at hlen; omega
      rw [heq]
      rcases binarySearchNext_spec n b hsorted with ⟨i, hi, hk, hb⟩ | ⟨hno, nn1, hb⟩
      · obtain ⟨c2, hs2, hsuf2, hfind⟩ :=
          ih n.next[i] c1 (hsorted.child _ (List.getElem_mem hi)) hs1 hlen1
        rw [hr] at hfind
        refine ⟨c2, hs2, hsuf2.trans hsuf, ?_⟩
        have hget : get n (b :: bs) = get n.next[i] bs := by
          rw [get_cons, find_eq_getElem n.next b i hi hsorted.pairwise hk]; rfl
        rw [hget]
        simp only [Find, hn, bind, Except.bind, hb, deref, index_eq _ _ hi, hfind]
        simp
      · refine ⟨c1, hs1, hsuf, ?_⟩
        have hget : get n (b :: bs) = none := by
          rw [get_cons, find_none_of_forall n.next b hno]; rfl
        rw [hget]
        simp only [Find, hn, bind, Except.bind, hb]
        simp [findResult]

end simpleNode

namespace simpleNode
variable {V : Type}

theorem pathsOf_eq (l : List (simpleNode V)) :
    pathsOf l = l.flatMap fun c => c.paths.map fun p => (c.key :: p.1, p.2) := by
  induction l with
  | nil => simp [pathsOf]
  | cons c l ih => simp [pathsOf, ih]

theorem paths_eq (n : simpleNode V) :
    n.paths = ([], n) :: n.next.flatMap fun c => c.paths.map fun p => (c.key :: p.1, p.2) := by
  cases n with
  | mk h v k nx => simp [paths, pathsOf_eq]

theorem mem_paths_iff (n : simpleNode V) (p : List Byte) (m : simpleNode V) :
    (p, m) ∈ n.paths ↔
      (p = [] ∧ m = n) ∨ ∃ c ∈ n.next, ∃ q, p = c.key :: q ∧ (q, m) ∈ c.paths := by
  rw [paths_eq]
  simp only [List.mem_cons, Prod.mk.injEq, List.mem_flatMap, List.mem_map, Prod.exists]
  constructor
  · rintro (h | ⟨c, hc, q, m1, hq, h1, h2⟩)
    · exact Or.inl h
    · subst h2
      exact Or.inr ⟨c, hc, q, h1.symm, hq⟩
  · rintro (h | ⟨c, hc, q, h1, hq⟩)
    · exact Or.inl h
    · exact Or.inr ⟨c, hc, q, m, hq, h1.symm, rfl⟩

theorem root_mem_paths (n : simpleNode V) : ([], n) ∈ n.paths := by
  rw [paths_eq]; simp

theorem mem_paths_nil (n m : simpleNode V) (h : ([], m) ∈ n.paths) : m = n := by
  rcases (mem_paths_iff n [] m).mp h with ⟨_, h⟩ | ⟨c, _, q, h, _⟩
  · exact h
  · cases h

theorem mem_paths_cons (n m : simpleNode V) (b : Byte) (q : List Byte)
    (h : (b :: q, m) ∈ n.paths) : ∃ c ∈ n.next, c.key = b ∧ (q, m) ∈ c.paths := by
  rcases (mem_paths_iff n (b :: q) m).mp h with ⟨h, _⟩ | ⟨c, hc, q1, h, hq⟩
  · cases h
  · injection h with h1 h2
    subst h2
    exact ⟨c, hc, h1.symm, hq⟩

theorem mem_paths_child (n c m : simpleNode V) (q : List Byte) (hc : c ∈ n.next)
    (h : (q, m) ∈ c.paths) : (c.key :: q, m) ∈ n.paths :=
  (mem_paths_iff n _ m).mpr (Or.inr ⟨c, hc, q, rfl, h⟩)

theorem paths_map_snd {n : simpleNode V} (h : Sorted n) : n.paths.map Prod.snd = n.nodes := by
  induction h with
  | mk hv v k nx hp hc ih =>
    rw [paths_eq, nodes_eq]
    simp only [List.map_cons, next_mk, List.map_flatMap, List.map_map]
    congr 1
    clear hp hc
    induction nx with
    | nil => rfl
    | cons c cs ihc =>
      simp only [List.flatMap_cons]
      rw [ihc (fun c1 hc1 => ih c1 (List.mem_cons_of_mem _ hc1)), ← ih c (by simp)]
      simp [Function.comp_def]

theorem paths_length {n : simpleNode V} (h : Sorted n) : n.paths.length = n.nodes.length := by
  rw [← paths_map_snd h, List.length_map]

theorem find_of_mem (n c : simpleNode V) (hs : Sorted n) (hc : c ∈ n.next) :
    n.next.find? (fun x => x.key = c.key) = some c := by
  obtain ⟨i, hi, rfl⟩ := List.getElem_of_mem hc
  exact find_eq_getElem n.next _ i hi hs.pairwise rfl

theorem get_of_path (p : List Byte) :
    ∀ (n m : simpleNode V) (q : List Byte), Sorted n → (p, m) ∈ n.paths →
      get n (p ++ q) = get m q := by
  induction p with
  | nil =>
    intro n m q _ h
    rw [mem_paths_nil n m h]
    rfl
  | cons b p ih =>
    intro n m q hs h
    obtain ⟨c, hc, hk, hq⟩ := mem_paths_cons n m b p h
    subst hk
    rw [List.cons_append, get_cons, find_of_mem n c hs hc]
    exact ih c m q (hs.child c hc) hq

theorem hasValue_of_path (n m : simpleNode V) (p : List Byte) (hs : Sorted n)
    (h : (p, m) ∈ n.paths) : (get n p).isSome = m.hasValue := by
  have := get_of_path p n m [] hs h
  rw [List.append_nil] at this
  rw [this, get_nil]
  cases m.hasValue <;> rfl

theorem put_paths_old [Inhabited V] (bs : List Byte) (v : V) :
    ∀ (n m : simpleNode V) (p : List Byte), (p, m) ∈ n.paths →
      ∃ m1, (p, m1) ∈ (put n bs v).paths ∧ m1.key = m.key ∧
        (p ≠ bs → m1.hasValue = m.hasValue ∧ m1.value = m.value) ∧
        (p = bs → m1.hasValue = true ∧ m1.value = v) := by
  induction bs with
  | nil =>
    intro n m p h
    rw [put_nil]
    rcases (mem_paths_iff n p m).mp h with ⟨rfl, rfl⟩ | ⟨c, hc, q, rfl, hq⟩
    · exact ⟨_, root_mem_paths _, rfl, fun h => absurd rfl h, fun _ => ⟨rfl, rfl⟩⟩
    · exact ⟨m, mem_paths_child (mk true v n.key n.next) c m q hc hq, rfl,
        fun _ => ⟨rfl, rfl⟩, fun h => by cases h⟩
  | cons b bs ih =>
    intro n m p h
    rcases (mem_paths_iff n p m).mp h with ⟨rfl, rfl⟩ | ⟨c, hc, q, rfl, hq⟩
    · refine ⟨put m (b :: bs) v, root_mem_paths _, put_key _ _ _, ?_, fun h => by cases h⟩
      intro _
      exact put_hasValue_cons m b bs v
    · by_cases hex : ∃ x ∈ n.next, x.key = b
      · rw [put_cons_found n b bs v hex]
        by_cases hk : c.key = b
        · obtain ⟨m1, hm1, hkey, hne, heq⟩ := ih c m q hq
          have hmem : put c bs v ∈
              (mk n.hasValue n.value n.key
                (n.next.map fun x => if x.key = b then put x bs v else x)).next := by
            simp only [next_mk, List.mem_map]
            exact ⟨c, hc, by simp [hk]⟩
          have := mem_paths_child _ _ m1 q hmem hm1
          rw [put_key] at this
          refine ⟨m1, this, hkey, ?_, ?_⟩
          · intro hp
            exact hne (fun h => hp (by rw [hk, h]))
          · intro hp
            injection hp with _ hp
            exact heq hp
        · have hmem : c ∈
              (mk n.hasValue n.value n.key
                (n.next.map fun x => if x.key = b then put x bs v else x)).next := by
            simp only [next_mk, List.mem_map]
            exact ⟨c, hc, by simp [hk]⟩
          refine ⟨m, mem_paths_child _ _ m q hmem hq, rfl, fun _ => ⟨rfl, rfl⟩, ?_⟩
          intro hp
          injection hp with hp _
          exact absurd hp hk
      · have hno : ∀ x ∈ n.next, x.key ≠ b := fun x hx hk => hex ⟨x, hx, hk⟩
        rw [put_cons_new n b bs v hno]
        have hmem : c ∈
            (mk n.hasValue n.value n.key
              (n.next.takeWhile (fun x => x.key < b) ++
                put (literal b) bs v :: n.next.dropWhile (fun x => x.key < b))).next := by
          simp only [next_mk, List.mem_append, List.mem_cons]
          have : c ∈ n.next.takeWhile (fun x => x.key < b) ++
              n.next.dropWhile (fun x => x.key < b) := by
            rw [List.takeWhile_append_dropWhile]; exact hc
          rcases List.mem_append.mp this with h1 | h1
          · exact Or.inl h1
          · exact Or.inr (Or.inr h1)
        refine ⟨m, mem_paths_child _ _ m q hmem hq, rfl, fun _ => ⟨rfl, rfl⟩, ?_⟩
        intro hp
        injection hp with hp _
        exact absurd hp (hno c hc)

theorem put_paths_new [Inhabited V] (bs : List Byte) (v : V) :
    ∀ (n m1 : simpleNode V) (p : List Byte), (p, m1) ∈ (put n bs v).paths →
      (∃ m, (p, m) ∈ n.paths) ∨ p <+: bs := by
  induction bs with
  | nil =>
    intro n m1 p h
    rw [put_nil] at h
    rcases (mem_paths_iff _ p m1).mp h with ⟨rfl, _⟩ | ⟨c, hc, q, rfl, hq⟩
    · exact Or.inl ⟨n, root_mem_paths n⟩
    · exact Or.inl ⟨m1, mem_paths_child n c m1 q hc hq⟩
  | cons b bs ih =>
    intro n m1 p h
    rcases (mem_paths_iff _ p m1).mp h with ⟨rfl, _⟩ | ⟨c, hc, q, rfl, hq⟩
    · exact Or.inl ⟨n, root_mem_paths n⟩
    · by_cases hex : ∃ x ∈ n.next, x.key = b
      · rw [put_cons_found n b bs v hex] at hc
        simp only [next_mk, List.mem_map] at hc
        obtain ⟨c0, hc0, rfl⟩ := hc
        by_cases hk : c0.key = b
        · simp only [hk, if_true] at hq ⊢
          rw [put_key, hk]
          rcases ih c0 m1 q hq with ⟨m, hm⟩ | hpre
          · left
            have := mem_paths_child n c0 m q hc0 hm
            rw [hk] at this
            exact ⟨m, this⟩
          · right
            exact (List.prefix_cons_inj b).mpr hpre
        · simp only [hk, if_false] at hq ⊢
          exact Or.inl ⟨m1, mem_paths_child n c0 m1 q hc0 hq⟩
      · have hno : ∀ x ∈ n.next, x.key ≠ b := fun x hx hk => hex ⟨x, hx, hk⟩
        rw [put_cons_new n b bs v hno] at hc
        simp only [next_mk, List.mem_append, List.mem_cons] at hc
        rcases hc with h1 | rfl | h1
        · exact Or.inl ⟨m1, mem_paths_child n c m1 q (List.takeWhile_subset _ h1) hq⟩
        · rw [put_key]
          rcases ih (literal b) m1 q hq with ⟨m, hm⟩ | hpre
          · right
            have hq0 : q = [] := by
              rcases (mem_paths_iff _ q m).mp hm with ⟨h, _⟩ | ⟨c1, hc1, _⟩
              · exact h
              · simp [literal] at hc1
            subst hq0
            show [(literal b : simpleNode V).key] <+: b :: bs
            exact (List.prefix_cons_inj b).mpr List.nil_prefix
          · right
            exact (List.prefix_cons_inj b).mpr hpre
        · exact Or.inl ⟨m1, mem_paths_child n c m1 q (List.dropWhile_subset _ h1) hq⟩

end simpleNode

namespace simpleNode
variable {V : Type}

theorem nodes_length_eq (n : simpleNode V) :
    n.nodes.length = 1 + (n.next.map fun c => c.nodes.length).sum := by
  have hsum : ∀ l : List (simpleNode V),
      (l.flatMap nodes).length = (l.map fun c => c.nodes.length).sum := by
    intro l
    induction l with
    | nil => simp
    | cons c l ih => simp [List.flatMap_cons, ih]
  rw [nodes_eq, List.length_cons, hsum]
  omega

theorem matched_nil (n : simpleNode V) : matched n [] = 0 := by
  simp [matched]

theorem matched_cons_found (n c : simpleNode V) (b : Byte) (bs : List Byte)
    (h : n.next.find? (fun x => x.key = b) = some c) :
    matched n (b :: bs) = matched c bs + 1 := by
  simp [matched, h]

theorem matched_cons_none (n : simpleNode V) (b : Byte) (bs : List Byte)
    (h : n.next.find? (fun x => x.key = b) = none) : matched n (b :: bs) = 0 := by
  simp [matched, h]

theorem matched_le (bs : List Byte) : ∀ n : simpleNode V, matched n bs ≤ bs.length := by
  induction bs with
  | nil => intro n; simp [matched]
  | cons b bs ih =>
    intro n
    cases h : n.next.find? (fun x => x.key = b) with
    | none => rw [matched_cons_none n b bs h]; omega
    | some c =>
      rw [matched_cons_found n c b bs h]
      have := ih c
      simp only [List.length_cons]
      omega

theorem matched_path (bs : List Byte) :
    ∀ n : simpleNode V, ∃ m, (bs.take (matched n bs), m) ∈ n.paths := by
  induction bs with
  | nil => intro n; exact ⟨n, by simpa using root_mem_paths n⟩
  | cons b bs ih =>
    intro n
    cases h : n.next.find? (fun x => x.key = b) with
    | none =>
      rw [matched_cons_none n b bs h]
      exact ⟨n, by simpa using root_mem_paths n⟩
    | some c =>
      rw [matched_cons_found n c b bs h]
      obtain ⟨m, hm⟩ := ih c
      have hc : c ∈ n.next := List.mem_of_find?_eq_some h
      have hk : c.key = b := by simpa using List.find?_some h
      have := mem_paths_child n c m _ hc hm
      rw [hk] at this
      exact ⟨m, by simpa using this⟩

theorem matched_longest (bs : List Byte) :
    ∀ n : simpleNode V, Sorted n → matched n bs < bs.length →
      ∀ m, (bs.take (matched n bs + 1), m) ∉ n.paths := by
  induction bs with
  | nil => intro n _ h; simp at h
  | cons b bs ih =>
    intro n hs hlt m hm
    cases h : n.next.find? (fun x => x.key = b) with
    | none =>
      rw [matched_cons_none n b bs h] at hm
      simp only [Nat.zero_add, List.take_succ_cons, List.take_zero] at hm
      obtain ⟨c, hc, hk, _⟩ := mem_paths_cons n m b [] hm
      have := List.find?_eq_none.mp h c hc
      simp [hk] at this
    | some c =>
      rw [matched_cons_found n c b bs h] at hm hlt
      simp only [List.take_succ_cons] at hm
      obtain ⟨c1, hc1, hk1, hq⟩ := mem_paths_cons n m b _ hm
      have hfind := find_of_mem n c1 hs hc1
      rw [hk1, h] at hfind
      injection hfind with hfind
      subst hfind
      simp only [List.length_cons] at hlt
      exact ih c (hs.child c hc1) (by omega) m hq

theorem nodes_length_literal [Inhabited V] (b : Byte) :
    (literal b : simpleNode V).nodes.length = 1 := by
  rw [nodes_length_eq]; simp [literal]

theorem matched_literal [Inhabited V] (b : Byte) (bs : List Byte) :
    matched (literal b : simpleNode V) bs = 0 := by
  cases bs with
  | nil => rfl
  | cons x xs => simp [matched, literal]

theorem nodes_length_put [Inhabited V] (bs : List Byte) (v : V) :
    ∀ n : simpleNode V, Sorted n →
      (put n bs v).nodes.length = n.nodes.length + (bs.length - matched n bs) := by
  induction bs with
  | nil =>
    intro n _
    rw [put_nil, nodes_length_eq, nodes_length_eq n]
    simp
  | cons b bs ih =>
    intro n hs
    by_cases hex : ∃ c ∈ n.next, c.key = b
    · obtain ⟨c, hc, hk⟩ := hex
      obtain ⟨i, hi, rfl⟩ := List.getElem_of_mem hc
      have hfind := find_eq_getElem n.next b i hi hs.pairwise hk
      rw [put_cons_found n b bs v ⟨_, hc, hk⟩, map_eq_set n.next b i hi hs.pairwise hk,
        matched_cons_found n _ b bs hfind, nodes_length_eq, nodes_length_eq n]
      simp only [next_mk]
      have hset := sum_map_set (fun c : simpleNode V => c.nodes.length) n.next i hi
        (put n.next[i] bs v)
      simp only at hset
      rw [ih _ (hs.child _ (List.getElem_mem hi))] at hset
      have hle := matched_le bs n.next[i]
      simp only [List.length_cons]
      omega
    · have hno : ∀ c ∈ n.next, c.key ≠ b := by
        intro c hc hk
        exact hex ⟨c, hc, hk⟩
      rw [put_cons_new n b bs v hno, matched_cons_none n b bs (find_none_of_forall n.next b hno),
        nodes_length_eq, nodes_length_eq n]
      simp only [next_mk, List.map_append, List.map_cons, List.sum_append, List.sum_cons]
      rw [ih _ (sorted_literal b), nodes_length_literal, matched_literal]
      have hl : (n.next.map fun c => c.nodes.length).sum =
          ((n.next.takeWhile fun c => c.key < b).map fun c => c.nodes.length).sum +
            ((n.next.dropWhile fun c => c.key < b).map fun c => c.nodes.length).sum := by
        rw [← List.sum_append, ← List.map_append, List.takeWhile_append_dropWhile]
      rw [hl]
      simp only [List.length_cons]
      omega

theorem flatMap_set_eq {α β : Type} (g : α → List β) (l : List α) (i : Nat)
    (hi : i < l.length) (x : α) (hx : g x = g l[i]) :
    (l.set i x).flatMap g = l.flatMap g := by
  induction l generalizing i with
  | nil => simp at hi
  | cons a l ih =>
    cases i with
    | zero =>
      simp only [List.getElem_cons_zero] at hx
      simp [List.flatMap_cons, hx]
    | succ i =>
      have hi1 : i < l.length := by simpa using hi
      simp only [List.getElem_cons_succ] at hx
      simp only [List.set_cons_succ, List.flatMap_cons, ih i hi1 hx]

theorem shape_put_present [Inhabited V] (bs : List Byte) (v : V) :
    ∀ n : simpleNode V, Sorted n → (get n bs).isSome = true →
      (put n bs v).paths.map (fun q => (q.1, q.2.key, q.2.hasValue)) =
        n.paths.map (fun q => (q.1, q.2.key, q.2.hasValue)) := by
  induction bs with
  | nil =>
    intro n _ hget
    rw [get_nil] at hget
    have hv : n.hasValue = true := by
      cases h : n.hasValue
      · simp [h] at hget
      · rfl
    rw [put_nil, paths_eq, paths_eq n]
    simp [hv]
  | cons b bs ih =>
    intro n hs hget
    rw [get_cons] at hget
    cases hfind : n.next.find? (fun c => c.key = b) with
    | none => simp [hfind] at hget
    | some c =>
      rw [hfind] at hget
      simp only [Option.some_bind] at hget
      have hc : c ∈ n.next := List.mem_of_find?_eq_some hfind
      have hk : c.key = b := by simpa using List.find?_some hfind
      obtain ⟨i, hi, rfl⟩ := List.getElem_of_mem hc
      rw [put_cons_found n b bs v ⟨_, hc, hk⟩, map_eq_set n.next b i hi hs.pairwise hk,
        paths_eq, paths_eq n]
      simp only [List.map_cons, next_mk, key_mk, hasValue_mk, List.map_flatMap, List.map_map]
      congr 1
      apply flatMap_set_eq
      have hih := ih n.next[i] (hs.child _ hc) hget
      rw [put_key]
      have h1 : ∀ (x : simpleNode V) (k : Byte),
          List.map ((fun q : List Byte × simpleNode V => (q.1, q.2.key, q.2.hasValue)) ∘
            fun p : List Byte × simpleNode V => (k :: p.1, p.2)) x.paths =
          (x.paths.map fun q => (q.1, q.2.key, q.2.hasValue)).map
            fun r => (k :: r.1, r.2) := by
        intro x k
        simp [Function.comp_def]
      rw [h1, h1, hih]

theorem isSome_get_putAll [Inhabited V] (bs : List Byte) (l : List (List Byte × V)) :
    ∀ n : simpleNode V, ((n.putAll l).get bs).isSome = true ↔
      (n.get bs).isSome = true ∨ bs ∈ l.map Prod.fst := by
  induction l with
  | nil => intro n; simp [putAll]
  | cons p l ih =>
    intro n
    obtain ⟨bs1, v⟩ := p
    rw [putAll, ih, get_put]
    by_cases h : bs = bs1
    · simp [h]
    · simp [h]

theorem putAll_covered [Inhabited V] (l : List (List Byte × V)) :
    ∀ (n : simpleNode V) (P : List Byte → Prop),
      (∀ p m, (p, m) ∈ n.paths → p ≠ [] → ∃ s, P s ∧ p <+: s) →
      ∀ p m, (p, m) ∈ (n.putAll l).paths → p ≠ [] →
        ∃ s, (P s ∨ s ∈ l.map Prod.fst) ∧ p <+: s := by
  induction l with
  | nil =>
    intro n P h p m hm hp
    obtain ⟨s, hs, hpre⟩ := h p m hm hp
    exact ⟨s, Or.inl hs, hpre⟩
  | cons x l ih =>
    intro n P h p m hm hp
    obtain ⟨bs, v⟩ := x
    rw [putAll] at hm
    have hstep : ∀ p m, (p, m) ∈ (put n bs v).paths → p ≠ [] →
        ∃ s, (P s ∨ s = bs) ∧ p <+: s := by
      intro p m hm hp
      rcases put_paths_new bs v n m p hm with ⟨m0, hm0⟩ | hpre
      · obtain ⟨s, hs, hpre⟩ := h p m0 hm0 hp
        exact ⟨s, Or.inl hs, hpre⟩
      · exact ⟨bs, Or.inr rfl, hpre⟩
    obtain ⟨s, hs, hpre⟩ := ih (put n bs v) (fun s => P s ∨ s = bs) hstep p m hm hp
    refine ⟨s, ?_, hpre⟩
    rcases hs with (hs | hs) | hs
    · exact Or.inl hs
    · exact Or.inr (by simp [hs])
    · exact Or.inr (by simp only [List.map_cons, List.mem_cons]; exact Or.inr hs)

theorem sorted_putAll [Inhabited V] (l : List (List Byte × V)) :
    ∀ n : simpleNode V, Sorted n → Sorted (n.putAll l) := by
  induction l with
  | nil => intro n h; exact h
  | cons x l ih =>
    intro n h
    obtain ⟨bs, v⟩ := x
    rw [putAll]
    exact ih _ (sorted_put bs v n h)

end simpleNode

theorem SimpleTrie.run_spec {V : Type} [Inhabited V] (T : GoType) (fs : List TransformFunc)
    (calls : List (Call V)) :
    ∀ t : SimpleTrie V, t.Inv T fs → (∀ c ∈ calls, c.key.HasType T = true) →
      ∃ outs t1, t.run calls = .ok (outs, t1) ∧ t1.Inv T fs ∧
        t1.head = t.head.putAll
          ((calls.filterMap Call.added).map fun p => (effective fs p.1, p.2)) := by
  induction calls with
  | nil =>
    intro t hinv _
    exact ⟨[], t, rfl, hinv, rfl⟩
  | cons c calls ih =>
    intro t hinv hty
    have hrest : ∀ c1 ∈ calls, c1.key.HasType T = true :=
      fun c1 h1 => hty c1 (List.mem_cons_of_mem _ h1)
    cases c with
    | Add k v =>
      have hk : k.HasType T = true := hty (.Add k v) (by simp)
      obtain ⟨t1, hadd, hinv1, hhead1, _⟩ := SimpleTrie.Add_obs T fs t k v hinv hk
      obtain ⟨outs, t2, hrun, hinv2, hhead2⟩ := ih t1 hinv1 hrest
      refine ⟨Outcome.expanded (!(t.head.get (effective fs k)).isSome) :: outs, t2, ?_, hinv2, ?_⟩
      · simp only [SimpleTrie.run, hadd, bind, Except.bind, hrun]
      · rw [hhead2, hhead1]
        simp [Call.added, simpleNode.putAll]
    | Find k =>
      have hk : k.HasType T = true := hty (.Find k) (by simp)
      obtain ⟨t1, hfind, hinv1, hhead1, _⟩ := SimpleTrie.Find_obs T fs t k hinv hk
      obtain ⟨outs, t2, hrun, hinv2, hhead2⟩ := ih t1 hinv1 hrest
      refine ⟨Outcome.found (findResult (t.head.get (effective fs k))) :: outs, t2, ?_, hinv2, ?_⟩
      · simp only [SimpleTrie.run, hfind, bind, Except.bind, hrun]
      · rw [hhead2, hhead1]
        simp [Call.added]

theorem Call.mem_added {V : Type} (calls : List (Call V)) (k : Key) (v : V) :
    (k, v) ∈ calls.filterMap Call.added ↔ Call.Add k v ∈ calls := by
  simp only [List.mem_filterMap]
  constructor
  · rintro ⟨c, hc, h⟩
    cases c with
    | Add k1 v1 =>
      simp only [Call.added, Option.some.injEq, Prod.mk.injEq] at h
      obtain ⟨rfl, rfl⟩ := h
      exact hc
    | Find k1 => simp [Call.added] at h
  · intro h
    exact ⟨_, h, rfl⟩

theorem Reachable.of_run {V : Type} [Inhabited V] {T : GoType} {fs : List TransformFunc}
    (calls : List (Call V)) :
    ∀ t : SimpleTrie V, Reachable T fs t → (∀ c ∈ calls, c.key.HasType T = true) →
      ∃ outs t1, t.run calls = .ok (outs, t1) ∧ Reachable T fs t1 := by
  induction calls with
  | nil =>
    intro t hr _
    exact ⟨[], t, rfl, hr⟩
  | cons c calls ih =>
    intro t hr hty
    have hrest : ∀ c1 ∈ calls, c1.key.HasType T = true :=
      fun c1 h1 => hty c1 (List.mem_cons_of_mem _ h1)
    cases c with
    | Add k v =>
      have hk : k.HasType T = true := hty (.Add k v) (by simp)
      obtain ⟨t1, hadd, _⟩ := SimpleTrie.Add_obs T fs t k v hr.inv hk
      obtain ⟨outs, t2, hrun, hr2⟩ := ih t1 (Reachable.add hr hk hadd) hrest
      exact ⟨Outcome.expanded (!(t.head.get (effective fs k)).isSome) :: outs, t2,
        by simp only [SimpleTrie.run, hadd, bind, Except.bind, hrun], hr2⟩
    | Find k =>
      have hk : k.HasType T = true := hty (.Find k) (by simp)
      obtain ⟨t1, hfind, _⟩ := SimpleTrie.Find_obs T fs t k hr.inv hk
      obtain ⟨outs, t2, hrun, hr2⟩ := ih t1 (Reachable.find hr hk hfind) hrest
      exact ⟨Outcome.found (findResult (t.head.get (effective fs k))) :: outs, t2,
        by simp only [SimpleTrie.run, hfind, bind, Except.bind, hrun], hr2⟩

theorem SimpleTrie.run_present {V : Type} [Inhabited V] (T : GoType) (fs : List TransformFunc)
    (t0 : SimpleTrie V) (calls : List (Call V)) (h0 : NewTrie V T fs = .ok t0)
    (hty : ∀ c ∈ calls, c.key.HasType T = true) :
    ∃ outs t, t0.run calls = .ok (outs, t) ∧ Reachable T fs t ∧
      ∀ s : List Byte, (t.head.get s).isSome = true ↔
        ∃ k v, Call.Add k v ∈ calls ∧ effective fs k = s := by
  obtain ⟨hinv0, hh, _⟩ := NewTrie_spec T fs t0 h0
  obtain ⟨outs, t1, hrun, _, hhead⟩ := SimpleTrie.run_spec T fs calls t0 hinv0 hty
  obtain ⟨outs1, t2, hrun1, hr⟩ := Reachable.of_run calls t0 (Reachable.new h0) hty
  rw [hrun] at hrun1
  injection hrun1 with hrun1
  injection hrun1 with _ ht
  subst ht
  rw [hh] at hhead
  refine ⟨outs, t1, hrun, hr, ?_⟩
  intro s
  rw [hhead, simpleNode.isSome_get_putAll, simpleNode.get_literal]
  simp only [List.map_map, List.mem_map, Function.comp_def, Prod.exists]
  constructor
  · rintro (h | ⟨k, v, hkv, rfl⟩)
    · simp at h
    · exact ⟨k, v, (Call.mem_added calls k v).mp hkv, rfl⟩
  · rintro ⟨k, v, hc, rfl⟩
    exact Or.inr ⟨k, v, (Call.mem_added calls k v).mpr hc, rfl⟩

theorem transformByte_dropped (fs : List TransformFunc) (b : Byte)
    (h : (converterTransforms.Next.range fs b).2 = false) : transformByte fs b = none := by
  have := range_spec fs b
  cases hb : transformByte fs b with
  | none => rfl
  | some out =>
    rw [hb] at this
    simp only at this
    rw [this] at h
    cases h

theorem effective_dropped (fs : List TransformFunc) (k : Key)
    (h : ∀ b ∈ encode k, (converterTransforms.Next.range fs b).2 = false) :
    effective fs k = [] := by
  simp only [effective, transformStream, List.filterMap_eq_nil_iff]
  intro b hb
  exact transformByte_dropped fs b (h b hb)

theorem effective_empty (fs : List TransformFunc) (k : Key) (h : encode k = []) :
    effective fs k = [] := by
  simp [effective, transformStream, h]

theorem range_testTransform (b : Byte) (h : b = 45 ∨ b = 95) :
    (converterTransforms.Next.range [testTransform] b).2 = false := by
  rcases h with rfl | rfl <;> rfl

/-! ## The claims -/

/-- C1. In every trie reachable from `NewTrie` of any supported key type and
any transform list, for every key of the key type and every value, `Add(k, v)`
returns and the following `Find(k)` returns `(v, true)`; when the byte stream
of the key is empty the value is stored at the root. -/
theorem add_then_find {V : Type} [Inhabited V] (T : GoType) (fs : List TransformFunc)
    (t : SimpleTrie V) (k : Key) (v : V)
    (hr : Reachable T fs t) (hk : k.HasType T = true) :
    ∃ e t1 t2, t.Add k v = .ok (e, t1) ∧ t1.Find k = .ok ((v, true), t2) ∧
      (t.converter.stream k = .ok [] → t1.head.hasValue = true ∧ t1.head.value = v) := by
  obtain ⟨t1, hadd, hinv1, hhead1, _⟩ := SimpleTrie.Add_obs T fs t k v hr.inv hk
  obtain ⟨t2, hfind, _, _, _⟩ := SimpleTrie.Find_obs T fs t1 k hinv1 hk
  refine ⟨_, t1, t2, hadd, ?_, ?_⟩
  · rw [hfind, hhead1, simpleNode.get_put]
    simp [findResult_some]
  · intro hst
    rw [converter.stream_spec _ T fs k hr.inv.1 hk] at hst
    injection hst with hst
    rw [hhead1, hst, simpleNode.put_nil]
    simp

/-- Witness of C1: the empty string added to a fresh `string` trie. -/
theorem add_then_find_witness :
    Reachable .string [] stringTrie ∧ (stringKey "").HasType .string = true ∧
    ∃ e t1 t2, stringTrie.Add (stringKey "") 8 = .ok (e, t1) ∧
      t1.Find (stringKey "") = .ok ((8, true), t2) ∧
      (stringTrie.converter.stream (stringKey "") = .ok [] →
        t1.head.hasValue = true ∧ t1.head.value = 8) :=
  ⟨Reachable.new rfl, rfl,
    add_then_find .string [] stringTrie (stringKey "") 8 (Reachable.new rfl) rfl⟩

/-- C2. In every reachable trie, `Add(k, v)` leaves `Find(k1)` as it was for
every key `k1` whose effective byte stream differs from that of `k`; and after
any sequence of `Add` calls, a key is found with the value of the last `Add`
made under its byte stream (no later `Add` of the sequence has the same
stream). -/
theorem add_keeps_other_keys {V : Type} [Inhabited V] (T : GoType) (fs : List TransformFunc)
    (t : SimpleTrie V) (hr : Reachable T fs t) :
    (∀ (k k1 : Key) (v : V), k.HasType T = true → k1.HasType T = true →
        t.converter.stream k ≠ t.converter.stream k1 →
        ∃ e t1 r t2 t3, t.Add k v = .ok (e, t1) ∧ t.Find k1 = .ok (r, t2) ∧
          t1.Find k1 = .ok (r, t3)) ∧
    (∀ (pre post : List (Key × V)) (k : Key) (v : V),
        (∀ p ∈ pre ++ (k, v) :: post, p.1.HasType T = true) →
        (∀ p ∈ post, t.converter.stream p.1 ≠ t.converter.stream k) →
        ∃ es t1 t2, t.AddAll (pre ++ (k, v) :: post) = .ok (es, t1) ∧
          t1.Find k = .ok ((v, true), t2)) := by
  constructor
  · intro k k1 v hk hk1 hne
    have hne1 : effective fs k1 ≠ effective fs k := fun h =>
      hne ((stream_ne_iff _ T fs k k1 hr.inv.1 hk hk1).mpr h.symm)
    obtain ⟨t1, hadd, hinv1, hhead1, _⟩ := SimpleTrie.Add_obs T fs t k v hr.inv hk
    obtain ⟨t2, hfind, _, _, _⟩ := SimpleTrie.Find_obs T fs t k1 hr.inv hk1
    obtain ⟨t3, hfind1, _, _, _⟩ := SimpleTrie.Find_obs T fs t1 k1 hinv1 hk1
    refine ⟨_, t1, _, t2, t3, hadd, hfind, ?_⟩
    rw [hfind1, hhead1, simpleNode.get_put, if_neg hne1]
  · intro pre post k v hty hne
    obtain ⟨S, hS⟩ := hr.stores
    obtain ⟨es, t1, hall, hinv1, hhead1, _⟩ :=
      SimpleTrie.AddAll_spec T fs (pre ++ (k, v) :: post) t S hr.inv hS hty
    have hk : k.HasType T = true := hty (k, v) (by simp)
    obtain ⟨t2, hfind, _, _, _⟩ := SimpleTrie.Find_obs T fs t1 k hinv1 hk
    refine ⟨es, t1, t2, hall, ?_⟩
    rw [hfind, hhead1, List.map_append, List.map_cons, simpleNode.putAll_append,
      simpleNode.putAll, simpleNode.get_putAll_of_not_mem, simpleNode.get_put]
    · simp [findResult_some]
    · intro p hp
      obtain ⟨q, hq, rfl⟩ := List.mem_map.mp hp
      intro h
      have hqk : q.1.HasType T = true := hty q (by simp [hq])
      exact hne q hq ((stream_ne_iff _ T fs q.1 k hr.inv.1 hqk hk).mpr h)

/-- The streams of two keys of the `string` trie differ as soon as `effective`
tells them apart. -/
theorem stringTrie_stream_ne (a b : String)
    (h : effective [] (stringKey a) ≠ effective [] (stringKey b)) :
    stringTrie.converter.stream (stringKey a) ≠ stringTrie.converter.stream (stringKey b) :=
  fun hs => h ((stream_ne_iff stringTrie.converter .string [] (stringKey a) (stringKey b)
    ⟨rfl, rfl⟩ rfl rfl).mp hs)

/-- Witness of C2: keys that share the prefix `Hel`, as in the tests. -/
theorem add_keeps_other_keys_witness :
    Reachable .string [] stringTrie ∧
    (∃ e t1 r t2 t3, stringTrie.Add (stringKey "Hello") 1 = .ok (e, t1) ∧
      stringTrie.Find (stringKey "Help") = .ok (r, t2) ∧
      t1.Find (stringKey "Help") = .ok (r, t3)) ∧
    (∃ es t1 t2,
      stringTrie.AddAll ([(stringKey "Hello", 1)] ++
        (stringKey "Help", 7) :: [(stringKey "Helicopter", 3)]) = .ok (es, t1) ∧
      t1.Find (stringKey "Help") = .ok ((7, true), t2)) :=
  ⟨Reachable.new rfl,
    (add_keeps_other_keys .string [] stringTrie (Reachable.new rfl)).1
      (stringKey "Hello") (stringKey "Help") 1 rfl rfl
      (stringTrie_stream_ne "Hello" "Help" (by decide)),
    (add_keeps_other_keys .string [] stringTrie (Reachable.new rfl)).2
      [(stringKey "Hello", 1)] [(stringKey "Helicopter", 3)] (stringKey "Help") 7
      (by decide)
      (by
        intro p hp
        rw [List.mem_singleton] at hp
        subst hp
        exact stringTrie_stream_ne "Helicopter" "Help" (by decide))⟩

/-- C3. In a trie built from `NewTrie` by a sequence of `Add` calls, `Find`
of a key whose effective byte stream is the stream of no added key returns the
zero value and `false`; this covers a proper prefix and a proper extension of
an added stream. -/
theorem find_absent {V : Type} [Inhabited V] (T : GoType) (fs : List TransformFunc)
    (t0 : SimpleTrie V) (adds : List (Key × V)) (k : Key)
    (h0 : NewTrie V T fs = .ok t0)
    (hty : ∀ p ∈ adds, p.1.HasType T = true) (hk : k.HasType T = true)
    (hne : ∀ p ∈ adds, t0.converter.stream p.1 ≠ t0.converter.stream k) :
    ∃ es t1 t2, t0.AddAll adds = .ok (es, t1) ∧ t1.Find k = .ok ((default, false), t2) := by
  have hr : Reachable T fs t0 := Reachable.new h0
  obtain ⟨_, hh, _⟩ := NewTrie_spec T fs t0 h0
  obtain ⟨S, hS⟩ := hr.stores
  obtain ⟨es, t1, hall, hinv1, hhead1, _⟩ := SimpleTrie.AddAll_spec T fs adds t0 S hr.inv hS hty
  obtain ⟨t2, hfind, _, _, _⟩ := SimpleTrie.Find_obs T fs t1 k hinv1 hk
  refine ⟨es, t1, t2, hall, ?_⟩
  rw [hfind, hhead1, simpleNode.get_putAll_of_not_mem, hh, simpleNode.get_literal]
  · rfl
  · intro p hp
    obtain ⟨q, hq, rfl⟩ := List.mem_map.mp hp
    intro h
    exact hne q hq ((stream_ne_iff _ T fs q.1 k hr.inv.1 (hty q hq) hk).mpr h)

/-- Witness of C3: after `Add("Hello", 1)` the proper prefix `Hell` is not
found. -/
theorem find_absent_witness :
    NewTrie Int .string [] = .ok stringTrie ∧
    (∀ p ∈ [(stringKey "Hello", (1 : Int))], p.1.HasType .string = true) ∧
    (stringKey "Hell").HasType .string = true ∧
    (∀ p ∈ [(stringKey "Hello", (1 : Int))],
      stringTrie.converter.stream p.1 ≠ stringTrie.converter.stream (stringKey "Hell")) ∧
    ∃ es t1 t2, stringTrie.AddAll [(stringKey "Hello", 1)] = .ok (es, t1) ∧
      t1.Find (stringKey "Hell") = .ok ((default, false), t2) :=
  have hne : ∀ p ∈ [(stringKey "Hello", (1 : Int))],
      stringTrie.converter.stream p.1 ≠ stringTrie.converter.stream (stringKey "Hell") := by
    intro p hp
    rw [List.mem_singleton] at hp
    subst hp
    exact stringTrie_stream_ne "Hello" "Hell" (by decide)
  ⟨rfl, by decide, rfl, hne,
    find_absent .string [] stringTrie [(stringKey "Hello", 1)] (stringKey "Hell") rfl
      (by decide) rfl hne⟩

/-- C4. In every reachable trie, after `Add(k, v1)` the call `Add(k, v2)`
returns `expanded = false`, leaves `Length()` as it was after the first `Add`,
and `Find(k)` then returns `(v2, true)`. -/
theorem add_twice {V : Type} [Inhabited V] (T : GoType) (fs : List TransformFunc)
    (t : SimpleTrie V) (k : Key) (v1 v2 : V)
    (hr : Reachable T fs t) (hk : k.HasType T = true) :
    ∃ e1 t1 t2 t3, t.Add k v1 = .ok (e1, t1) ∧ t1.Add k v2 = .ok (false, t2) ∧
      t2.Length = t1.Length ∧ t2.Find k = .ok ((v2, true), t3) := by
  obtain ⟨t1, hadd1, hinv1, hhead1, _⟩ := SimpleTrie.Add_obs T fs t k v1 hr.inv hk
  obtain ⟨t2, hadd2, hinv2, hhead2, hlen2⟩ := SimpleTrie.Add_obs T fs t1 k v2 hinv1 hk
  obtain ⟨t3, hfind, _, _, _⟩ := SimpleTrie.Find_obs T fs t2 k hinv2 hk
  have hsome : (t1.head.get (effective fs k)).isSome = true := by
    rw [hhead1, simpleNode.get_put]; simp
  refine ⟨_, t1, t2, t3, hadd1, ?_, ?_, ?_⟩
  · rw [hadd2, hsome]; rfl
  · simp only [SimpleTrie.Length, hlen2, hsome, if_true]
  · rw [hfind, hhead2, simpleNode.get_put]
    simp [findResult_some]

/-- Witness of C4: `Add("Hello", 1)` then `Add("Hello", 2)`. -/
theorem add_twice_witness :
    Reachable .string [] stringTrie ∧ (stringKey "Hello").HasType .string = true ∧
    ∃ e1 t1 t2 t3, stringTrie.Add (stringKey "Hello") 1 = .ok (e1, t1) ∧
      t1.Add (stringKey "Hello") 2 = .ok (false, t2) ∧
      t2.Length = t1.Length ∧ t2.Find (stringKey "Hello") = .ok ((2, true), t3) :=
  ⟨Reachable.new rfl, rfl,
    add_twice .string [] stringTrie (stringKey "Hello") 1 2 (Reachable.new rfl) rfl⟩

/-- C5. In every reachable trie, `Add(k, v)` returns `expanded = true` exactly
when `Find(k)` just before reports `found = false`, and `Length()` grows by one
when `expanded` is `true` and is unchanged when it is `false`; after the `Add`
the key is present: `Find(k)` returns `(v, true)` and a further `Add(k, v1)`
returns `expanded = false` and leaves `Length()` as it is.  In the trie a
sequence of `Add` and `Find` calls makes of the trie `NewTrie` returns,
`Add(k, v)` returns `expanded = false`, and `Find(k)` reports `found = true`,
exactly when the sequence has an `Add` call with a key of the same effective
byte stream as `k`; without transforms, exactly when it has an `Add` call with
the key `k`. -/
theorem add_expanded_iff_absent :
    (∀ (V : Type) [Inhabited V] (T : GoType) (fs : List TransformFunc) (t : SimpleTrie V)
        (k : Key) (v v1 : V), Reachable T fs t → k.HasType T = true →
        ∃ e t1 r t2, t.Add k v = .ok (e, t1) ∧ t.Find k = .ok (r, t2) ∧
          (e = true ↔ r.2 = false) ∧
          (t1.Length = if e = true then t.Length + 1 else t.Length) ∧
          ∃ t3 t4, t1.Find k = .ok ((v, true), t3) ∧ t1.Add k v1 = .ok (false, t4) ∧
            t4.Length = t1.Length) ∧
    (∀ (V : Type) [Inhabited V] (T : GoType) (fs : List TransformFunc) (t0 : SimpleTrie V)
        (calls : List (Call V)) (k : Key) (v : V), NewTrie V T fs = .ok t0 →
        (∀ c ∈ calls, c.key.HasType T = true) → k.HasType T = true →
        ∃ outs t e t1 r t2, t0.run calls = .ok (outs, t) ∧ Reachable T fs t ∧
          t.Add k v = .ok (e, t1) ∧ t.Find k = .ok (r, t2) ∧
          (e = false ↔ ∃ k1 v1, Call.Add k1 v1 ∈ calls ∧
            t0.converter.stream k1 = t0.converter.stream k) ∧
          (r.2 = true ↔ ∃ k1 v1, Call.Add k1 v1 ∈ calls ∧
            t0.converter.stream k1 = t0.converter.stream k) ∧
          (fs = [] → (e = false ↔ ∃ v1, Call.Add k v1 ∈ calls)) ∧
          t1.Length = if e = true then t.Length + 1 else t.Length) := by
  constructor
  · intro V _ T fs t k v v1 hr hk
    obtain ⟨t1, hadd, hinv1, hhead1, hlen⟩ := SimpleTrie.Add_obs T fs t k v hr.inv hk
    obtain ⟨t2, hfind, _, _, _⟩ := SimpleTrie.Find_obs T fs t k hr.inv hk
    obtain ⟨t3, hfind1, _, _, _⟩ := SimpleTrie.Find_obs T fs t1 k hinv1 hk
    obtain ⟨t4, hadd1, _, _, hlen1⟩ := SimpleTrie.Add_obs T fs t1 k v1 hinv1 hk
    have hget : t1.head.get (effective fs k) = some v := by
      rw [hhead1, simpleNode.get_put]; simp
    refine ⟨_, t1, _, t2, hadd, hfind, ?_, ?_, t3, t4, ?_, ?_, ?_⟩
    · rw [findResult_snd]
      cases (t.head.get (effective fs k)).isSome <;> simp
    · simp only [SimpleTrie.Length, hlen]
      cases (t.head.get (effective fs k)).isSome <;> simp
    · rw [hfind1, hget]; rfl
    · rw [hadd1, hget]; rfl
    · simp only [SimpleTrie.Length, hlen1, hget, Option.isSome_some, if_true]
  · intro V _ T fs t0 calls k v h0 hty hk
    obtain ⟨hinv0, _, _⟩ := NewTrie_spec T fs t0 h0
    obtain ⟨outs, t, hrun, hr, hsome⟩ := SimpleTrie.run_present T fs t0 calls h0 hty
    obtain ⟨t1, hadd, _, _, hlen⟩ := SimpleTrie.Add_obs T fs t k v hr.inv hk
    obtain ⟨t2, hfind, _, _, _⟩ := SimpleTrie.Find_obs T fs t k hr.inv hk
    have hpres : (t.head.get (effective fs k)).isSome = true ↔
        ∃ k1 v1, Call.Add k1 v1 ∈ calls ∧
          t0.converter.stream k1 = t0.converter.stream k := by
      rw [hsome]
      constructor
      · rintro ⟨k1, v1, hc, he⟩
        exact ⟨k1, v1, hc, (stream_ne_iff _ T fs k1 k hinv0.1 (hty _ hc) hk).mpr he⟩
      · rintro ⟨k1, v1, hc, hs⟩
        exact ⟨k1, v1, hc, (stream_ne_iff _ T fs k1 k hinv0.1 (hty _ hc) hk).mp hs⟩
    refine ⟨outs, t, _, t1, _, t2, hrun, hr, hadd, hfind, ?_, ?_, ?_, ?_⟩
    · rw [← hpres]
      cases (t.head.get (effective fs k)).isSome <;> simp
    · rw [← hpres, findResult_snd]
    · intro hfs
      subst hfs
      have : (t.head.get (effective [] k)).isSome = true ↔ ∃ v1, Call.Add k v1 ∈ calls := by
        rw [hsome]
        constructor
        · rintro ⟨k1, v1, hc, he⟩
          have := effective_nil_inj T k1 k hr.supported (hty _ hc) hk he
          subst this
          exact ⟨v1, hc⟩
        · rintro ⟨v1, hc⟩
          exact ⟨k, v1, hc, rfl⟩
      rw [← this]
      cases (t.head.get (effective [] k)).isSome <;> simp
    · simp only [SimpleTrie.Length, hlen]
      cases (t.head.get (effective fs k)).isSome <;> simp

/-- Witness of C5: the `string` trie after `Add("b", 1)` and `Add("a", 2)`,
which holds the key `a`: `Add("a", 5)` returns `expanded = false` and
`Length()` stays 2, while `Add("c", 5)` returns `expanded = true` and
`Length()` becomes 3. -/
theorem add_expanded_iff_absent_witness :
    Reachable .string [] pairTrie ∧ (stringKey "a").HasType .string = true ∧
    NewTrie Int .string [] = .ok stringTrie ∧
    (∀ c ∈ [Call.Add (stringKey "b") (1 : Int), .Add (stringKey "a") 2],
      c.key.HasType .string = true) ∧
    (∃ outs, stringTrie.run [.Add (stringKey "b") 1, .Add (stringKey "a") 2] =
      .ok (outs, pairTrie)) ∧
    pairTrie.Length = 2 ∧
    (∃ t1 t2, pairTrie.Add (stringKey "a") 5 = .ok (false, t1) ∧
      pairTrie.Find (stringKey "a") = .ok ((2, true), t2) ∧ t1.Length = 2) ∧
    (∃ t1 t2, pairTrie.Add (stringKey "c") 5 = .ok (true, t1) ∧
      pairTrie.Find (stringKey "c") = .ok ((0, false), t2) ∧ t1.Length = 3) ∧
    (∃ e t1 r t2, pairTrie.Add (stringKey "a") 5 = .ok (e, t1) ∧
      pairTrie.Find (stringKey "a") = .ok (r, t2) ∧
      (e = true ↔ r.2 = false) ∧
      (t1.Length = if e = true then pairTrie.Length + 1 else pairTrie.Length) ∧
      ∃ t3 t4, t1.Find (stringKey "a") = .ok ((5, true), t3) ∧
        t1.Add (stringKey "a") 6 = .ok (false, t4) ∧ t4.Length = t1.Length) ∧
    (∃ outs t e t1 r t2,
      stringTrie.run [.Add (stringKey "b") 1, .Add (stringKey "a") 2] = .ok (outs, t) ∧
      Reachable .string [] t ∧
      t.Add (stringKey "a") 5 = .ok (e, t1) ∧ t.Find (stringKey "a") = .ok (r, t2) ∧
      (e = false ↔ ∃ k1 v1,
        Call.Add k1 v1 ∈ [Call.Add (stringKey "b") (1 : Int), .Add (stringKey "a") 2] ∧
        stringTrie.converter.stream k1 = stringTrie.converter.stream (stringKey "a")) ∧
      (r.2 = true ↔ ∃ k1 v1,
        Call.Add k1 v1 ∈ [Call.Add (stringKey "b") (1 : Int), .Add (stringKey "a") 2] ∧
        stringTrie.converter.stream k1 = stringTrie.converter.stream (stringKey "a")) ∧
      (([] : List TransformFunc) = [] → (e = false ↔ ∃ v1,
        Call.Add (stringKey "a") v1 ∈
          [Call.Add (stringKey "b") (1 : Int), .Add (stringKey "a") 2])) ∧
      t1.Length = if e = true then t.Length + 1 else t.Length) :=
  ⟨pairTrie_reachable, rfl, rfl, by decide, ⟨_, rfl⟩, rfl, ⟨_, _, rfl, rfl, rfl⟩,
    ⟨_, _, rfl, rfl, rfl⟩,
    add_expanded_iff_absent.1 Int .string [] pairTrie (stringKey "a") 5 6 pairTrie_reachable rfl,
    add_expanded_iff_absent.2 Int .string [] stringTrie
      [.Add (stringKey "b") 1, .Add (stringKey "a") 2] (stringKey "a") 5 rfl (by decide) rfl⟩

/-- C6, as stated, fails: with the transform of the tests, `Add("Hello", 1)`
and `Add("hellO", 2)` are two distinct keys and `Length()` is 1. -/
theorem length_counts_distinct_keys_counterexample :
    NewTrie Int .string [testTransform] = .ok foldTrie ∧
    ∃ es t1, foldTrie.AddAll [(stringKey "Hello", 1), (stringKey "hellO", 2)] = .ok (es, t1) ∧
      t1.Length = 1 ∧ ([stringKey "Hello", stringKey "hellO"].dedup).length = 2 ∧
      t1.Length ≠ ([stringKey "Hello", stringKey "hellO"].dedup).length :=
  ⟨rfl, _, _, rfl, rfl, by decide, by decide⟩

/-- C6, amended. For every supported key type, every transform list and every
sequence of `Add` calls on the trie `NewTrie` returns, `Length()` afterwards is
the number of distinct effective byte streams of the keys of the sequence; when
the transform list is empty this is the number of distinct keys. -/
theorem length_counts_distinct_streams {V : Type} [Inhabited V] (T : GoType)
    (fs : List TransformFunc) (t0 : SimpleTrie V) (adds : List (Key × V))
    (h0 : NewTrie V T fs = .ok t0) (hty : ∀ p ∈ adds, p.1.HasType T = true) :
    ∃ es t1 streams, t0.AddAll adds = .ok (es, t1) ∧
      List.Forall₂ (fun p s => t0.converter.stream p.1 = .ok s) adds streams ∧
      t1.Length = streams.dedup.length ∧
      (fs = [] → t1.Length = (adds.map Prod.fst).dedup.length) := by
  have hr : Reachable T fs t0 := Reachable.new h0
  obtain ⟨_, hh, hl⟩ := NewTrie_spec T fs t0 h0
  have hS : t0.Stores ∅ := by
    refine ⟨?_, by simp [hl]⟩
    intro bs
    rw [hh, simpleNode.get_literal]
    simp
  obtain ⟨es, t1, hall, _, _, hst⟩ := SimpleTrie.AddAll_spec T fs adds t0 ∅ hr.inv hS hty
  have hlen : t1.Length = (adds.map fun p => effective fs p.1).dedup.length := by
    simp only [SimpleTrie.Length, hst.2, Finset.empty_union, List.card_toFinset]
  refine ⟨es, t1, adds.map fun p => effective fs p.1, hall, ?_, hlen, ?_⟩
  · rw [List.forall₂_map_right_iff, List.forall₂_same]
    intro p hp
    exact converter.stream_spec _ T fs p.1 hr.inv.1 (hty p hp)
  · intro hfs
    subst hfs
    have hT : ∃ s, selectConverter T = .ok s := by
      unfold NewTrie at h0
      cases hs : selectConverter T with
      | error e => simp [hs] at h0
      | ok s => exact ⟨s, rfl⟩
    rw [hlen, ← List.card_toFinset, ← List.card_toFinset]
    have hmap : (adds.map fun p => effective [] p.1) = (adds.map Prod.fst).map encode := by
      simp [effective, transformStream_nil, Function.comp_def]
    rw [hmap]
    have himg : ((adds.map Prod.fst).map encode).toFinset =
        (adds.map Prod.fst).toFinset.image encode := by
      ext x; simp
    rw [himg]
    apply Finset.card_image_of_injOn
    intro a ha b hb hab
    simp only [Finset.mem_coe, List.mem_toFinset, List.mem_map] at ha hb
    obtain ⟨p, hp, rfl⟩ := ha
    obtain ⟨q, hq, rfl⟩ := hb
    exact encode_inj T p.1 q.1 hT (hty p hp) (hty q hq) hab

/-- Witness of amended C6: two keys with one effective stream. -/
theorem length_counts_distinct_streams_witness :
    NewTrie Int .string [testTransform] = .ok foldTrie ∧
    (∀ p ∈ [(stringKey "Hello", (1 : Int)), (stringKey "hellO", 2)],
      p.1.HasType .string = true) ∧
    ∃ es t1 streams,
      foldTrie.AddAll [(stringKey "Hello", 1), (stringKey "hellO", 2)] = .ok (es, t1) ∧
      List.Forall₂ (fun p s => foldTrie.converter.stream p.1 = .ok s)
        [(stringKey "Hello", (1 : Int)), (stringKey "hellO", 2)] streams ∧
      t1.Length = streams.dedup.length ∧
      ([testTransform] = [] → t1.Length =
        ([(stringKey "Hello", (1 : Int)), (stringKey "hellO", 2)].map Prod.fst).dedup.length) :=
  ⟨rfl, by decide,
    length_counts_distinct_streams .string [testTransform] foldTrie
      [(stringKey "Hello", 1), (stringKey "hellO", 2)] rfl (by decide)⟩

/-- C7. In every reachable trie `Find(k)` returns, and leaves the node tree
and the count as they were, so that `Length()` is unchanged and every later
sequence of `Add` and `Find` calls returns what it would have returned, and
leaves the tree and count it would have left, had the `Find` not been made. -/
theorem find_mutates_nothing {V : Type} [Inhabited V] (T : GoType) (fs : List TransformFunc)
    (t : SimpleTrie V) (k : Key) (hr : Reachable T fs t) (hk : k.HasType T = true) :
    ∃ r t1, t.Find k = .ok (r, t1) ∧ t1.head = t.head ∧ t1.length = t.length ∧
      t1.Length = t.Length ∧
      ∀ calls : List (Call V), (∀ c ∈ calls, c.key.HasType T = true) →
        ∃ outs u u1, t.run calls = .ok (outs, u) ∧ t1.run calls = .ok (outs, u1) ∧
          u1.head = u.head ∧ u1.Length = u.Length := by
  obtain ⟨t1, hfind, hinv1, hhead, hlen⟩ := SimpleTrie.Find_obs T fs t k hr.inv hk
  refine ⟨_, t1, hfind, hhead, hlen, hlen, ?_⟩
  intro calls hty
  exact SimpleTrie.run_congr T fs calls t t1 hr.inv hinv1 hhead hlen hty

/-- Witness of C7: a `Find` of an absent key on a fresh `string` trie, and
every sequence of calls after it. -/
theorem find_mutates_nothing_witness :
    Reachable .string [] stringTrie ∧ (stringKey "Hello").HasType .string = true ∧
    ∃ r t1, stringTrie.Find (stringKey "Hello") = .ok (r, t1) ∧
      t1.head = stringTrie.head ∧ t1.length = stringTrie.length ∧
      t1.Length = stringTrie.Length ∧
      ∀ calls : List (Call Int), (∀ c ∈ calls, c.key.HasType .string = true) →
        ∃ outs u u1, stringTrie.run calls = .ok (outs, u) ∧ t1.run calls = .ok (outs, u1) ∧
          u1.head = u.head ∧ u1.Length = u.Length :=
  ⟨Reachable.new rfl, rfl,
    find_mutates_nothing .string [] stringTrie (stringKey "Hello") (Reachable.new rfl) rfl⟩

/-- C8. In every reachable trie, with any transform list, two keys with the
same effective byte stream denote one entry: after `Add(k1, v)`, `Find(k2)`
returns `(v, true)` and `Add(k2, v1)` returns `expanded = false`.  With the
transform of the tests, `Add("Hello", 1)` makes `Find("-H-e-l-lo-")` and
`Find("hellO")` return `(1, true)`.  A key of dropped bytes only is the same
entry as the empty key: in every reachable trie, for every key `k` each of
whose raw bytes the transform loop of `Next` drops and every key `k0` with no
raw bytes, both have the empty stream, the entry is the root, after
`Add(k, v)` `Find(k0)` returns `(v, true)` and `Add(k0, v1)` returns
`expanded = false`, and after `Add(k0, v)` `Find(k)` returns `(v, true)`; with
the transform of the tests this holds for every `string` key made of `'-'` and
`'_'` only and the empty string, such as `_-_--_`. -/
theorem same_stream_same_entry :
    (∀ (V : Type) [Inhabited V] (T : GoType) (fs : List TransformFunc) (t : SimpleTrie V)
        (k1 k2 : Key) (v v1 : V), Reachable T fs t → k1.HasType T = true →
        k2.HasType T = true → t.converter.stream k1 = t.converter.stream k2 →
        ∃ e t1 t2 t3, t.Add k1 v = .ok (e, t1) ∧ t1.Find k2 = .ok ((v, true), t2) ∧
          t1.Add k2 v1 = .ok (false, t3)) ∧
    (NewTrie Int .string [testTransform] = .ok foldTrie ∧
      ∃ e t1 t2 t3, foldTrie.Add (stringKey "Hello") 1 = .ok (e, t1) ∧
        t1.Find (stringKey "-H-e-l-lo-") = .ok ((1, true), t2) ∧
        t1.Find (stringKey "hellO") = .ok ((1, true), t3)) ∧
    (foldTrie.converter.stream (stringKey "_-_--_") = .ok [] ∧
      foldTrie.converter.stream (stringKey "") = .ok []) ∧
    (∀ (V : Type) [Inhabited V] (T : GoType) (fs : List TransformFunc) (t : SimpleTrie V)
        (k k0 : Key) (v v1 : V), Reachable T fs t → k.HasType T = true →
        k0.HasType T = true →
        (∀ b ∈ encode k, (converterTransforms.Next.range fs b).2 = false) → encode k0 = [] →
        t.converter.stream k = .ok [] ∧ t.converter.stream k0 = .ok [] ∧
        (∃ e t1 t2 t3, t.Add k v = .ok (e, t1) ∧ t1.head.hasValue = true ∧
          t1.head.value = v ∧ t1.Find k0 = .ok ((v, true), t2) ∧
          t1.Add k0 v1 = .ok (false, t3)) ∧
        (∃ e t1 t2, t.Add k0 v = .ok (e, t1) ∧ t1.head.hasValue = true ∧
          t1.head.value = v ∧ t1.Find k = .ok ((v, true), t2))) ∧
    (∀ (V : Type) [Inhabited V] (t : SimpleTrie V) (s : List Byte) (v v1 : V),
        Reachable .string [testTransform] t → (∀ b ∈ s, b = 45 ∨ b = 95) →
        t.converter.stream (.str .string s) = .ok [] ∧
        t.converter.stream (.str .string []) = .ok [] ∧
        (∃ e t1 t2 t3, t.Add (.str .string s) v = .ok (e, t1) ∧
          t1.Find (.str .string []) = .ok ((v, true), t2) ∧
          t1.Add (.str .string []) v1 = .ok (false, t3)) ∧
        (∃ e t1 t2, t.Add (.str .string []) v = .ok (e, t1) ∧
          t1.Find (.str .string s) = .ok ((v, true), t2))) := by
  have hsame : ∀ (V : Type) [Inhabited V] (T : GoType) (fs : List TransformFunc)
      (t : SimpleTrie V) (k1 k2 : Key) (v v1 : V), Reachable T fs t → k1.HasType T = true →
      k2.HasType T = true → effective fs k1 = effective fs k2 →
      ∃ t1 t2 t3, t.Add k1 v = .ok (!(t.head.get (effective fs k1)).isSome, t1) ∧
        t1.head = t.head.put (effective fs k1) v ∧
        t1.Find k2 = .ok ((v, true), t2) ∧ t1.Add k2 v1 = .ok (false, t3) := by
    intro V _ T fs t k1 k2 v v1 hr hk1 hk2 heq
    obtain ⟨t1, hadd, hinv1, hhead1, _⟩ := SimpleTrie.Add_obs T fs t k1 v hr.inv hk1
    obtain ⟨t2, hfind, _, _, _⟩ := SimpleTrie.Find_obs T fs t1 k2 hinv1 hk2
    obtain ⟨t3, hadd2, _, _, _⟩ := SimpleTrie.Add_obs T fs t1 k2 v1 hinv1 hk2
    have hget : t1.head.get (effective fs k2) = some v := by
      rw [hhead1, ← heq, simpleNode.get_put]; simp
    refine ⟨t1, t2, t3, hadd, hhead1, ?_, ?_⟩
    · rw [hfind, hget]; rfl
    · rw [hadd2, hget]; rfl
  have hdrop : ∀ (V : Type) [Inhabited V] (T : GoType) (fs : List TransformFunc)
      (t : SimpleTrie V) (k k0 : Key) (v v1 : V), Reachable T fs t → k.HasType T = true →
      k0.HasType T = true →
      (∀ b ∈ encode k, (converterTransforms.Next.range fs b).2 = false) → encode k0 = [] →
      t.converter.stream k = .ok [] ∧ t.converter.stream k0 = .ok [] ∧
      (∃ e t1 t2 t3, t.Add k v = .ok (e, t1) ∧ t1.head.hasValue = true ∧
        t1.head.value = v ∧ t1.Find k0 = .ok ((v, true), t2) ∧
        t1.Add k0 v1 = .ok (false, t3)) ∧
      (∃ e t1 t2, t.Add k0 v = .ok (e, t1) ∧ t1.head.hasValue = true ∧
        t1.head.value = v ∧ t1.Find k = .ok ((v, true), t2)) := by
    intro V _ T fs t k k0 v v1 hr hk hk0 hd h0
    have he : effective fs k = [] := effective_dropped fs k hd
    have he0 : effective fs k0 = [] := effective_empty fs k0 h0
    refine ⟨?_, ?_, ?_, ?_⟩
    · rw [converter.stream_spec t.converter T fs k hr.inv.1 hk, he]
    · rw [converter.stream_spec t.converter T fs k0 hr.inv.1 hk0, he0]
    · obtain ⟨t1, t2, t3, hadd, hhead, hfind, hadd2⟩ :=
        hsame V T fs t k k0 v v1 hr hk hk0 (by rw [he, he0])
      rw [he, simpleNode.put_nil] at hhead
      exact ⟨_, t1, t2, t3, hadd, by rw [hhead]; rfl, by rw [hhead]; rfl, hfind, hadd2⟩
    · obtain ⟨t1, t2, _, hadd, hhead, hfind, _⟩ :=
        hsame V T fs t k0 k v v1 hr hk0 hk (by rw [he, he0])
      rw [he0, simpleNode.put_nil] at hhead
      exact ⟨_, t1, t2, hadd, by rw [hhead]; rfl, by rw [hhead]; rfl, hfind⟩
  refine ⟨?_, ⟨rfl, _, _, _, _, rfl, rfl, rfl⟩, ⟨rfl, rfl⟩, hdrop, ?_⟩
  · intro V _ T fs t k1 k2 v v1 hr hk1 hk2 hs
    have heq : effective fs k1 = effective fs k2 :=
      (stream_ne_iff _ T fs k1 k2 hr.inv.1 hk1 hk2).mp hs
    obtain ⟨t1, t2, t3, hadd, _, hfind, hadd2⟩ := hsame V T fs t k1 k2 v v1 hr hk1 hk2 heq
    exact ⟨_, t1, t2, t3, hadd, hfind, hadd2⟩
  · intro V _ t s v v1 hr hs
    obtain ⟨h1, h2, ⟨e, t1, t2, t3, hadd, _, _, hfind, hadd2⟩, ⟨e1, u1, u2, hadd1, _, _, hfind1⟩⟩ :=
      hdrop V .string [testTransform] t (.str .string s) (.str .string []) v v1 hr rfl rfl
        (fun b hb => range_testTransform b (hs b hb)) rfl
    exact ⟨h1, h2, ⟨e, t1, t2, t3, hadd, hfind, hadd2⟩, ⟨e1, u1, u2, hadd1, hfind1⟩⟩

/-- Witness of C8: `Hello` and `hellO` under the transform of the tests, and
the key `_-_--_` of dropped bytes only with the empty string. -/
theorem same_stream_same_entry_witness :
    Reachable .string [testTransform] foldTrie ∧
    (stringKey "Hello").HasType .string = true ∧ (stringKey "hellO").HasType .string = true ∧
    foldTrie.converter.stream (stringKey "Hello") =
      foldTrie.converter.stream (stringKey "hellO") ∧
    (∃ e t1 t2 t3, foldTrie.Add (stringKey "Hello") 1 = .ok (e, t1) ∧
      t1.Find (stringKey "hellO") = .ok ((1, true), t2) ∧
      t1.Add (stringKey "hellO") 2 = .ok (false, t3)) ∧
    stringKey "_-_--_" = .str .string [95, 45, 95, 45, 45, 95] ∧
    stringKey "" = .str .string [] ∧
    (∀ b ∈ ([95, 45, 95, 45, 45, 95] : List Byte), b = 45 ∨ b = 95) ∧
    (foldTrie.converter.stream (.str .string [95, 45, 95, 45, 45, 95]) = .ok [] ∧
      foldTrie.converter.stream (.str .string []) = .ok [] ∧
      (∃ e t1 t2 t3, foldTrie.Add (.str .string [95, 45, 95, 45, 45, 95]) 7 = .ok (e, t1) ∧
        t1.Find (.str .string []) = .ok ((7, true), t2) ∧
        t1.Add (.str .string []) 8 = .ok (false, t3)) ∧
      (∃ e t1 t2, foldTrie.Add (.str .string []) 7 = .ok (e, t1) ∧
        t1.Find (.str .string [95, 45, 95, 45, 45, 95]) = .ok ((7, true), t2))) :=
  ⟨Reachable.new rfl, rfl, rfl, rfl,
    same_stream_same_entry.1 Int .string [testTransform] foldTrie (stringKey "Hello")
      (stringKey "hellO") 1 2 (Reachable.new rfl) rfl rfl rfl,
    by decide, rfl, by simp,
    same_stream_same_entry.2.2.2.2 Int foldTrie [95, 45, 95, 45, 45, 95] 7 8
      (Reachable.new rfl) (by simp)⟩

/-- C9. For every inner converter, in any state, every key and every
transform list: when the run of the inner converter (`Load`, then `Next` until
it reports no more) delivers the raw sequence `raw`, the run of the
transform-wrapped converter delivers `raw` passed byte by byte through the
transforms in list order, a byte being dropped as soon as one transform returns
`use = false` and the emitted bytes keeping the raw order.  The run of the inner
converter completes for every converter `selectConverter` can build and every
key of its type. -/
theorem transforms_stream :
    (∀ (sub : plainConverter) (fs : List TransformFunc) (k : Key) (raw : List Byte),
        (converter.plain sub).stream k = .ok raw →
        (wrapConverter sub fs).stream k = .ok (transformStream fs raw)) ∧
    (∀ (T : GoType) (sub : plainConverter) (k : Key), sub.Serves T → k.HasType T = true →
        ∃ raw, (converter.plain sub).stream k = .ok raw) := by
  constructor
  · intro sub fs k raw h
    exact wrapConverter_stream sub fs k raw h
  · intro T sub k hs hk
    exact ⟨effective [] k, converter.stream_spec (.plain sub) T [] k ⟨rfl, hs⟩ hk⟩

/-- Witness of C9: the `string` converter under the transform of the tests;
the raw sequence of `-He` is `[45, 72, 101]`, the wrapped one is `[104, 101]`. -/
theorem transforms_stream_witness :
    (converter.plain (.leaf (.String ⟨0, []⟩))).stream (stringKey "-He") = .ok [45, 72, 101] ∧
    (wrapConverter (.leaf (.String ⟨0, []⟩)) [testTransform]).stream (stringKey "-He") =
      .ok (transformStream [testTransform] [45, 72, 101]) ∧
    transformStream [testTransform] [45, 72, 101] = [104, 101] ∧
    (plainConverter.leaf (.String ⟨0, []⟩)).Serves .string ∧
    (stringKey "-He").HasType .string = true ∧
    ∃ raw, (converter.plain (.leaf (.String ⟨0, []⟩))).stream (stringKey "-He") = .ok raw :=
  ⟨rfl,
    transforms_stream.1 (.leaf (.String ⟨0, []⟩)) [testTransform] (stringKey "-He")
      [45, 72, 101] rfl,
    by decide, rfl, rfl,
    transforms_stream.2 .string (.leaf (.String ⟨0, []⟩)) (stringKey "-He") rfl rfl⟩

/-- C10. For every scalar integer key type of width `w` in {8, 16, 32, 64},
signed or unsigned, the converter selected for the type delivers for a key `v`
exactly `w / 8` bytes and then reports no more, and the bytes are the big-endian
representation of `v` modulo `2^w`; the encoding of every negative signed key
is lexicographically greater than the encoding of every non-negative key of the
same type. -/
theorem scalar_big_endian :
    (∀ (T : GoType) (v : Int) (s : plainConverter), T.bits ≠ 0 → T.holds v = true →
        selectConverter T = .ok s →
        (converter.plain s).stream (.int T v) =
            .ok (bigEndian (T.bits / 8) ((v % 2 ^ T.bits).toNat)) ∧
          (bigEndian (T.bits / 8) ((v % 2 ^ T.bits).toNat)).length = T.bits / 8) ∧
    (∀ (T : GoType) (v1 v2 : Int) (s : plainConverter),
        T = .int8 ∨ T = .int16 ∨ T = .int32 ∨ T = .int64 →
        T.holds v1 = true → T.holds v2 = true → v1 < 0 → 0 ≤ v2 →
        selectConverter T = .ok s →
        ∃ b1 b2, (converter.plain s).stream (.int T v1) = .ok b1 ∧
          (converter.plain s).stream (.int T v2) = .ok b2 ∧ List.Lex (fun x y => x < y) b2 b1) := by
  constructor
  · intro T v s hT hv hsel
    exact ⟨scalar_stream T v s hv hsel, bigEndian_length _ _⟩
  · intro T v1 v2 s hT h1 h2 hneg hpos hsel
    refine ⟨_, _, scalar_stream T v1 s h1 hsel, scalar_stream T v2 s h2 hsel, ?_⟩
    rcases hT with rfl | rfl | rfl | rfl <;>
      simp [GoType.holds, GoType.underlying, GoType.range] at h1 h2
    · simp only [encodeInt, GoType.bits, bigEndian, List.nil_append]
      apply List.Lex.rel
      simp only [byte, toUint, Fin.lt_def]
      omega
    · simp only [encodeInt, GoType.bits, ← PutUint16_eq, PutUint16]
      apply List.Lex.rel
      simp only [byte, toUint, Fin.lt_def]
      omega
    · simp only [encodeInt, GoType.bits, ← PutUint32_eq, PutUint32]
      apply List.Lex.rel
      simp only [byte, toUint, Fin.lt_def]
      omega
    · simp only [encodeInt, GoType.bits, ← PutUint64_eq, PutUint64]
      apply List.Lex.rel
      simp only [byte, toUint, Fin.lt_def]
      omega

/-- Witness of C10: the `int16` keys `-2` and `258`. -/
theorem scalar_big_endian_witness :
    ((converter.plain (.leaf (.Int16 ⟨0, [0, 0]⟩))).stream (.int .int16 258) =
        .ok (bigEndian (GoType.int16.bits / 8) (((258 : Int) % 2 ^ GoType.int16.bits).toNat)) ∧
      (bigEndian (GoType.int16.bits / 8) (((258 : Int) % 2 ^ GoType.int16.bits).toNat)).length =
        GoType.int16.bits / 8) ∧
    ∃ b1 b2, (converter.plain (.leaf (.Int16 ⟨0, [0, 0]⟩))).stream (.int .int16 (-2)) = .ok b1 ∧
      (converter.plain (.leaf (.Int16 ⟨0, [0, 0]⟩))).stream (.int .int16 258) = .ok b2 ∧
      List.Lex (fun x y => x < y) b2 b1 :=
  ⟨scalar_big_endian.1 .int16 258 (.leaf (.Int16 ⟨0, [0, 0]⟩)) (by decide) (by decide) rfl,
    scalar_big_endian.2 .int16 (-2) 258 (.leaf (.Int16 ⟨0, [0, 0]⟩)) (by decide) (by decide)
      (by decide) (by decide) (by decide) rfl⟩

/-- C11. For a slice key whose elements are 16-, 32- or 64-bit integers, the
bytes the `converterIntSlice` of the element type delivers after `Load`,
whatever state it was in before, are the concatenation in element order of the
big-endian encodings of the elements modulo `2^w`, each of `w / 8` bytes, so
`len(slice) * (w / 8)` bytes in all, and no byte for the empty slice.  For a
slice of 8-bit elements the `converterInt8Slice` delivers one byte per element,
the element modulo `2^8`. -/
theorem slice_concatenates :
    (∀ (c : converterIntSlice) (xs : List Int), c.item.wide →
        c.subConverter.Serves c.item →
        (Key.slice (.slice c.item) xs).HasType (.slice c.item) = true →
        (converter.plain (.IntSlice c)).stream (.slice (.slice c.item) xs) =
            .ok (xs.flatMap fun x =>
              bigEndian (c.item.bits / 8) ((x % 2 ^ c.item.bits).toNat)) ∧
          (xs.flatMap fun x =>
              bigEndian (c.item.bits / 8) ((x % 2 ^ c.item.bits).toNat)).length =
            xs.length * (c.item.bits / 8) ∧
          (converter.plain (.IntSlice c)).stream (.slice (.slice c.item) []) = .ok []) ∧
    (∀ (c : converterInt8Slice) (xs : List Int), c.item = .uint8 ∨ c.item = .int8 →
        (Key.slice (.slice c.item) xs).HasType (.slice c.item) = true →
        (converter.plain (.leaf (.Int8Slice c))).stream (.slice (.slice c.item) xs) =
            .ok (xs.map fun x => byte ((x % 2 ^ 8).toNat)) ∧
          (xs.map fun x => byte ((x % 2 ^ 8).toNat)).length = xs.length) := by
  constructor
  · intro c xs hw hsub hk
    have hs : (plainConverter.IntSlice c).Serves (.slice c.item) := ⟨rfl, hw, hsub⟩
    have hnil : (Key.slice (.slice c.item) []).HasType (.slice c.item) = true := by
      simp [Key.HasType, Key.type, GoType.underlying]
    refine ⟨?_, ?_, ?_⟩
    · rw [converter.stream_spec (.plain (.IntSlice c)) (.slice c.item) [] _ ⟨rfl, hs⟩ hk,
        effective, transformStream_nil]
      rfl
    · exact flatMap_encodeInt_length c.item xs
    · rw [converter.stream_spec (.plain (.IntSlice c)) (.slice c.item) [] _ ⟨rfl, hs⟩ hnil,
        effective, transformStream_nil]
      rfl
  · intro c xs he hk
    have hs : (plainConverter.leaf (.Int8Slice c)).Serves (.slice c.item) := ⟨rfl, he⟩
    refine ⟨?_, by simp⟩
    rw [converter.stream_spec (.plain (.leaf (.Int8Slice c))) (.slice c.item) [] _ ⟨rfl, hs⟩ hk,
      effective, transformStream_nil]
    exact congrArg Except.ok (flatMap_encodeInt8 c.item he xs)

/-- Witness of C11: the converters `selectConverter` builds for `[]int32` and
`[]int8`, with the keys `[]int32{1, -2}` and `[]int8{1, -2}`. -/
theorem slice_concatenates_witness :
    selectConverter (.slice .int32) =
      .ok (.IntSlice ⟨.int32, 0, .Int32 ⟨0, [0, 0, 0, 0]⟩, []⟩) ∧
    selectConverter (.slice .int8) = .ok (.leaf (.Int8Slice ⟨.int8, 0, []⟩)) ∧
    ((converter.plain (.IntSlice ⟨.int32, 0, .Int32 ⟨0, [0, 0, 0, 0]⟩, []⟩)).stream
          (.slice (.slice .int32) [1, -2]) =
        .ok ([1, -2].flatMap fun x =>
          bigEndian (GoType.int32.bits / 8) ((x % 2 ^ GoType.int32.bits).toNat)) ∧
      ([1, -2].flatMap fun x =>
          bigEndian (GoType.int32.bits / 8) (((x : Int) % 2 ^ GoType.int32.bits).toNat)).length =
        [(1 : Int), -2].length * (GoType.int32.bits / 8) ∧
      (converter.plain (.IntSlice ⟨.int32, 0, .Int32 ⟨0, [0, 0, 0, 0]⟩, []⟩)).stream
          (.slice (.slice .int32) []) = .ok []) ∧
    ([(1 : Int), -2].flatMap fun x =>
        bigEndian (GoType.int32.bits / 8) ((x % 2 ^ GoType.int32.bits).toNat)) =
      [0, 0, 0, 1, 255, 255, 255, 254] ∧
    ((converter.plain (.leaf (.Int8Slice ⟨.int8, 0, []⟩))).stream
          (.slice (.slice .int8) [1, -2]) =
        .ok ([1, -2].map fun x => byte ((x % 2 ^ 8).toNat)) ∧
      ([(1 : Int), -2].map fun x => byte ((x % 2 ^ 8).toNat)).length = [(1 : Int), -2].length) ∧
    ([(1 : Int), -2].map fun x => byte ((x % 2 ^ 8).toNat)) = [1, 254] :=
  ⟨rfl, rfl,
    slice_concatenates.1 ⟨.int32, 0, .Int32 ⟨0, [0, 0, 0, 0]⟩, []⟩ [1, -2]
      (by simp [GoType.wide]) ⟨rfl, rfl⟩ (by decide),
    by decide,
    slice_concatenates.2 ⟨.int8, 0, []⟩ [1, -2] (Or.inr rfl) (by decide),
    by decide⟩

/-- C12. `NewTrie` returns a trie exactly when the key type is one of `uint8`,
`int8`, `uint16`, `int16`, `uint32`, `int32`, `uint64`, `int64`, `string`, or a
slice of one of those eight integer types; for every other key type it returns
no trie and the error `ErrorBadTrieKey`. -/
theorem NewTrie_succeeds_iff (V : Type) [Inhabited V] (T : GoType) (fs : List TransformFunc) :
    ((∃ t, NewTrie V T fs = .ok t) ↔
      T ∈ [GoType.uint8, .int8, .uint16, .int16, .uint32, .int32, .uint64, .int64, .string] ∨
      ∃ e ∈ [GoType.uint8, .int8, .uint16, .int16, .uint32, .int32, .uint64, .int64],
        T = .slice e) ∧
    ((∃ t, NewTrie V T fs = .ok t) ∨ NewTrie V T fs = .error .ErrorBadTrieKey) := by
  constructor
  · rw [NewTrie_ok_iff]
    cases T with
    | slice e => cases e <;> simp [selectConverter]
    | _ => simp [selectConverter]
  · by_cases h : ∃ s, selectConverter T = .ok s
    · exact Or.inl ((NewTrie_ok_iff V T fs).mpr h)
    · exact Or.inr (NewTrie_error V T fs h)

/-- C13, refuted on the code. The constraint `TrieKey` admits `uint`, `int`,
`uintptr`, every named type whose underlying type is listed, and the slices
`[]uint`, `[]int`, `[]uintptr`; for each of them the type switch of
`selectConverter` takes the `default` branch and `NewTrie` returns the error
`ErrorBadTrieKey` and no trie. -/
theorem trieKey_admits_unusable_types :
    (TrieKey .uint = true ∧ NewTrie Int .uint [] = .error .ErrorBadTrieKey) ∧
    (TrieKey .int = true ∧ NewTrie Int .int [] = .error .ErrorBadTrieKey) ∧
    (TrieKey .uintptr = true ∧ NewTrie Int .uintptr [] = .error .ErrorBadTrieKey) ∧
    (TrieKey (.slice .uint) = true ∧
      NewTrie Int (.slice .uint) [] = .error .ErrorBadTrieKey) ∧
    (TrieKey (.slice .int) = true ∧
      NewTrie Int (.slice .int) [] = .error .ErrorBadTrieKey) ∧
    (TrieKey (.slice .uintptr) = true ∧
      NewTrie Int (.slice .uintptr) [] = .error .ErrorBadTrieKey) ∧
    (∀ (id : Nat) (u : GoType) (fs : List TransformFunc),
      TrieKey (.named id u) = TrieKey u ∧
      NewTrie Int (.named id u) fs = .error .ErrorBadTrieKey) :=
  ⟨⟨rfl, rfl⟩, ⟨rfl, rfl⟩, ⟨rfl, rfl⟩, ⟨rfl, rfl⟩, ⟨rfl, rfl⟩, ⟨rfl, rfl⟩,
    fun _ _ _ => ⟨rfl, rfl⟩⟩

/-- C14. For every key type `NewTrie` supports (the integer and string types
that `NewTrieFromMap` admits among them) and every map of that key type, given
as the list of its pairs in iteration order with pairwise distinct keys,
`NewTrieFromMap` with no transforms returns a trie and a nil error; `Length()`
of the trie is the number of pairs, `Find(k)` returns `(v, true)` for every pair
`(k, v)` of the map, and `Find(k)` returns the zero value and `false` for every
key that is not a key of the map. -/
theorem from_map_represents {V : Type} [Inhabited V] (T : GoType) (m : List (Key × V))
    (hsel : ∃ t0, NewTrie V T [] = .ok t0) (hty : ∀ p ∈ m, p.1.HasType T = true)
    (hnd : (m.map Prod.fst).Nodup) :
    ∃ t, NewTrieFromMap V T m [] = .ok (.ok t) ∧ t.Length = m.length ∧
      (∀ k v, (k, v) ∈ m → ∃ t1, t.Find k = .ok ((v, true), t1)) ∧
      (∀ k, k.HasType T = true → k ∉ m.map Prod.fst →
        ∃ t1, t.Find k = .ok ((default, false), t1)) := by
  have hs : ∃ s, selectConverter T = .ok s := (NewTrie_ok_iff V T []).mp hsel
  have hnd1 : (m.map fun p => effective [] p.1).Nodup :=
    nodup_map_effective [] m hnd fun p hp q hq h =>
      effective_nil_inj T p.1 q.1 hs (hty p hp) (hty q hq) h
  obtain ⟨t, h1, hinv, hlen, hget⟩ := NewTrieFromMap_get T [] m hs hty hnd1
  have hlook : ∀ k, k.HasType T = true → t.head.get (effective [] k) = m.lookup k := by
    intro k hk
    rw [hget]
    exact lookup_map_inj (effective []) m k fun p hp h =>
      effective_nil_inj T p.1 k hs (hty p hp) hk h
  refine ⟨t, h1, hlen, ?_, ?_⟩
  · intro k v hkv
    have hk : k.HasType T = true := hty (k, v) hkv
    obtain ⟨t1, hfind, _⟩ := SimpleTrie.Find_obs T [] t k hinv hk
    refine ⟨t1, ?_⟩
    rw [hfind, hlook k hk, (lookup_eq_some_iff m hnd k v).mpr hkv]
    rfl
  · intro k hk hno
    obtain ⟨t1, hfind, _⟩ := SimpleTrie.Find_obs T [] t k hinv hk
    refine ⟨t1, ?_⟩
    have hnone : m.lookup k = none := by
      cases hl : m.lookup k with
      | none => rfl
      | some w =>
        exact absurd (List.mem_map_of_mem Prod.fst ((lookup_eq_some_iff m hnd k w).mp hl)) hno
    rw [hfind, hlook k hk, hnone]
    rfl

/-- Witness of C14: the map `{"hello": 1, "help": 7, "": 8}` of
`Benchmark_SimpleTrie_WithTransform`, without transforms. -/
theorem from_map_represents_witness :
    (∃ t0, NewTrie Int .string [] = .ok t0) ∧
    (∀ p ∈ [(stringKey "hello", (1 : Int)), (stringKey "help", 7), (stringKey "", 8)],
      p.1.HasType .string = true) ∧
    ([(stringKey "hello", (1 : Int)), (stringKey "help", 7), (stringKey "", 8)].map
      Prod.fst).Nodup ∧
    ∃ t, NewTrieFromMap Int .string
          [(stringKey "hello", 1), (stringKey "help", 7), (stringKey "", 8)] [] = .ok (.ok t) ∧
      t.Length = [(stringKey "hello", (1 : Int)), (stringKey "help", 7), (stringKey "", 8)].length ∧
      (∀ k v, (k, v) ∈ [(stringKey "hello", (1 : Int)), (stringKey "help", 7), (stringKey "", 8)] →
        ∃ t1, t.Find k = .ok ((v, true), t1)) ∧
      (∀ k, k.HasType .string = true →
        k ∉ [(stringKey "hello", (1 : Int)), (stringKey "help", 7), (stringKey "", 8)].map
          Prod.fst →
        ∃ t1, t.Find k = .ok ((default, false), t1)) :=
  ⟨⟨_, rfl⟩, by decide, by decide,
    from_map_represents .string
      [(stringKey "hello", 1), (stringKey "help", 7), (stringKey "", 8)] ⟨_, rfl⟩ (by decide)
      (by decide)⟩

/-- Counterexample to C15: under the transform of the tests the distinct keys
`Hello` and `hellO` have one effective stream, and the two orders of the map
`{"Hello": 1, "hellO": 2}` give tries in which `Find("hello")` returns `2` and
`1`. -/
theorem map_order_irrelevant_counterexample :
    [(stringKey "Hello", (1 : Int)), (stringKey "hellO", 2)].Perm
      [(stringKey "hellO", 2), (stringKey "Hello", 1)] ∧
    ([(stringKey "Hello", (1 : Int)), (stringKey "hellO", 2)].map Prod.fst).Nodup ∧
    ∃ t1 t2 u1 u2,
      NewTrieFromMap Int .string [(stringKey "Hello", 1), (stringKey "hellO", 2)]
        [testTransform] = .ok (.ok t1) ∧
      NewTrieFromMap Int .string [(stringKey "hellO", 2), (stringKey "Hello", 1)]
        [testTransform] = .ok (.ok t2) ∧
      t1.Find (stringKey "hello") = .ok ((2, true), u1) ∧
      t2.Find (stringKey "hello") = .ok ((1, true), u2) :=
  ⟨List.Perm.swap _ _ _, by decide, _, _, _, _, rfl, rfl, rfl, rfl⟩

/-- C15, amended. For every supported key type, every transform list and every
two orderings of the pairs of a map (pairwise distinct keys), one `Add` per
pair in either order yields tries with the same `Length()`; when the transform
list is empty, or the keys of the map have pairwise distinct byte streams under
the converter of the trie, `Find` returns the same result in both tries for
every key. -/
theorem map_order_irrelevant {V : Type} [Inhabited V] (T : GoType) (fs : List TransformFunc)
    (t0 : SimpleTrie V) (m1 m2 : List (Key × V)) (h0 : NewTrie V T fs = .ok t0)
    (hp : m1.Perm m2) (hty : ∀ p ∈ m1, p.1.HasType T = true)
    (hnd : (m1.map Prod.fst).Nodup) :
    ∃ t1 t2, NewTrieFromMap V T m1 fs = .ok (.ok t1) ∧
      NewTrieFromMap V T m2 fs = .ok (.ok t2) ∧ t1.Length = t2.Length ∧
      ((fs = [] ∨ ∀ p ∈ m1, ∀ q ∈ m1,
            t0.converter.stream p.1 = t0.converter.stream q.1 → p.1 = q.1) →
        ∀ k, k.HasType T = true →
          ∃ r u1 u2, t1.Find k = .ok (r, u1) ∧ t2.Find k = .ok (r, u2)) := by
  have hs : ∃ s, selectConverter T = .ok s := (NewTrie_ok_iff V T fs).mp ⟨t0, h0⟩
  have hty2 : ∀ p ∈ m2, p.1.HasType T = true := fun p h => hty p (hp.mem_iff.mpr h)
  obtain ⟨t1, h1, hinv1, hhead1, hlen1⟩ := NewTrieFromMap_spec T fs m1 hs hty
  obtain ⟨t2, h2, hinv2, hhead2, hlen2⟩ := NewTrieFromMap_spec T fs m2 hs hty2
  refine ⟨t1, t2, h1, h2, ?_, ?_⟩
  · simp only [SimpleTrie.Length, hlen1, hlen2]
    rw [List.toFinset_eq_of_perm _ _ (hp.map fun p => effective fs p.1)]
  · intro hinj k hk
    have hinj1 : ∀ p ∈ m1, ∀ q ∈ m1, effective fs p.1 = effective fs q.1 → p.1 = q.1 := by
      intro p hp1 q hq1 h
      rcases hinj with rfl | hinj
      · exact effective_nil_inj T p.1 q.1 hs (hty p hp1) (hty q hq1) h
      · apply hinj p hp1 q hq1
        rw [converter.stream_spec _ T fs p.1 (NewTrie_spec T fs t0 h0).1.1 (hty p hp1),
          converter.stream_spec _ T fs q.1 (NewTrie_spec T fs t0 h0).1.1 (hty q hq1), h]
    have hnd1 : ((m1.map fun p => (effective fs p.1, p.2)).map Prod.fst).Nodup := by
      simpa [Function.comp_def] using nodup_map_effective fs m1 hnd hinj1
    have hperm : (m1.map fun p => (effective fs p.1, p.2)).Perm
        (m2.map fun p => (effective fs p.1, p.2)) := hp.map _
    have hnd2 : ((m2.map fun p => (effective fs p.1, p.2)).map Prod.fst).Nodup :=
      (hperm.map Prod.fst).nodup_iff.mp hnd1
    obtain ⟨u1, hf1, _⟩ := SimpleTrie.Find_obs T fs t1 k hinv1 hk
    obtain ⟨u2, hf2, _⟩ := SimpleTrie.Find_obs T fs t2 k hinv2 hk
    refine ⟨_, u1, u2, hf1, ?_⟩
    rw [hf2, hhead1, hhead2, simpleNode.get_putAll_nodup _ _ _ hnd1,
      simpleNode.get_putAll_nodup _ _ _ hnd2, lookup_perm _ _ hperm hnd1]

/-- Witness of amended C15: the two orders of the map `{"Hello": 1, "help": 7}`
under the transform of the tests; the streams of the two keys differ. -/
theorem map_order_irrelevant_witness :
    NewTrie Int .string [testTransform] = .ok foldTrie ∧
    [(stringKey "Hello", (1 : Int)), (stringKey "help", 7)].Perm
      [(stringKey "help", 7), (stringKey "Hello", 1)] ∧
    (∀ p ∈ [(stringKey "Hello", (1 : Int)), (stringKey "help", 7)],
      p.1.HasType .string = true) ∧
    ([(stringKey "Hello", (1 : Int)), (stringKey "help", 7)].map Prod.fst).Nodup ∧
    (∀ p ∈ [(stringKey "Hello", (1 : Int)), (stringKey "help", 7)],
      ∀ q ∈ [(stringKey "Hello", (1 : Int)), (stringKey "help", 7)],
        foldTrie.converter.stream p.1 = foldTrie.converter.stream q.1 → p.1 = q.1) ∧
    ∃ t1 t2,
      NewTrieFromMap Int .string [(stringKey "Hello", 1), (stringKey "help", 7)]
        [testTransform] = .ok (.ok t1) ∧
      NewTrieFromMap Int .string [(stringKey "help", 7), (stringKey "Hello", 1)]
        [testTransform] = .ok (.ok t2) ∧
      t1.Length = t2.Length ∧
      ∀ k, k.HasType .string = true →
        ∃ r u1 u2, t1.Find k = .ok (r, u1) ∧ t2.Find k = .ok (r, u2) := by
  have hty : ∀ p ∈ [(stringKey "Hello", (1 : Int)), (stringKey "help", 7)],
      p.1.HasType .string = true := by decide
  have hdec : ∀ p ∈ [(stringKey "Hello", (1 : Int)), (stringKey "help", 7)],
      ∀ q ∈ [(stringKey "Hello", (1 : Int)), (stringKey "help", 7)],
        effective [testTransform] p.1 = effective [testTransform] q.1 → p.1 = q.1 := by decide
  have hinj : ∀ p ∈ [(stringKey "Hello", (1 : Int)), (stringKey "help", 7)],
      ∀ q ∈ [(stringKey "Hello", (1 : Int)), (stringKey "help", 7)],
        foldTrie.converter.stream p.1 = foldTrie.converter.stream q.1 → p.1 = q.1 :=
    fun p hp q hq h => hdec p hp q hq
      ((stream_ne_iff foldTrie.converter .string [testTransform] p.1 q.1 ⟨rfl, rfl⟩
        (hty p hp) (hty q hq)).mp h)
  obtain ⟨t1, t2, h1, h2, h3, h4⟩ :=
    map_order_irrelevant .string [testTransform] foldTrie
      [(stringKey "Hello", 1), (stringKey "help", 7)]
      [(stringKey "help", 7), (stringKey "Hello", 1)] rfl (List.Perm.swap _ _ _) hty
      (by decide)
  exact ⟨rfl, List.Perm.swap _ _ _, hty, by decide, hinj, t1, t2, h1, h2, h3, h4 (Or.inr hinj)⟩

/-- C16. In every state of the converter of a trie (any supported key type,
with or without transforms, after any sequence of `Load` and `Next` calls): when
`Next` returns `ok = false`, the byte it returns is `0`, and each of any number
of further calls of `Next` returns `(0, false)`. -/
theorem exhausted_stays_exhausted (T : GoType) (fs : List TransformFunc) (c c1 : converter)
    (v : Byte) (n : Nat) (hr : converter.Reached T fs c)
    (hn : c.Next = .ok ((v, false), c1)) :
    v = 0 ∧ ∃ c2, c1.NextTimes n = .ok (List.replicate n (0, false), c2) := by
  obtain ⟨hv, hs1, hrem⟩ := converter.next_false T fs c c1 v hr.serves hn
  obtain ⟨c2, h2, _⟩ := converter.NextTimes_exhausted T fs n c1 hs1 hrem
  exact ⟨hv, c2, h2⟩

/-- Witness of C16: the converter of a `[]uint16` trie after `Load` of
`[]uint16{258}` and two calls of `Next`; the third call reports no more, and so
do the next three. -/
theorem exhausted_stays_exhausted_witness :
    converter.Reached (.slice .uint16) []
      (.plain (.IntSlice ⟨.uint16, 0, .UInt16 ⟨2, [1, 2]⟩, [258]⟩)) ∧
    (converter.plain (.IntSlice ⟨.uint16, 0, .UInt16 ⟨2, [1, 2]⟩, [258]⟩)).Next =
      .ok ((0, false), .plain (.IntSlice ⟨.uint16, 1, .UInt16 ⟨2, [1, 2]⟩, [258]⟩)) ∧
    (0 : Byte) = 0 ∧
    ∃ c2, (converter.plain (.IntSlice ⟨.uint16, 1, .UInt16 ⟨2, [1, 2]⟩, [258]⟩)).NextTimes 3 =
      .ok (List.replicate 3 (0, false), c2) := by
  have h0 : converter.Reached (.slice .uint16) [] sliceTrie.converter :=
    @converter.Reached.new (.slice .uint16) [] Int _ sliceTrie rfl
  have h1 : converter.Reached (.slice .uint16) []
      (.plain (.IntSlice ⟨.uint16, 0, .UInt16 ⟨0, [1, 2]⟩, [258]⟩)) :=
    @converter.Reached.load (.slice .uint16) [] sliceTrie.converter _
      (.slice (.slice .uint16) [258]) none h0 rfl rfl
  have h2 : converter.Reached (.slice .uint16) []
      (.plain (.IntSlice ⟨.uint16, 0, .UInt16 ⟨1, [1, 2]⟩, [258]⟩)) :=
    @converter.Reached.next (.slice .uint16) [] _ _ (1, true) h1 rfl
  have h3 : converter.Reached (.slice .uint16) []
      (.plain (.IntSlice ⟨.uint16, 0, .UInt16 ⟨2, [1, 2]⟩, [258]⟩)) :=
    @converter.Reached.next (.slice .uint16) [] _ _ (2, true) h2 rfl
  exact ⟨h3, rfl,
    exhausted_stays_exhausted (.slice .uint16) [] _ _ 0 3 h3 rfl⟩

/-- C17. `Load` restarts the converter of a trie from every state (fresh,
partially consumed or exhausted, whatever key was loaded before): for every
key `k` of the key type, the bytes `Next` delivers after `Load(k)` are the
canonical encoding of `k`, passed through the transforms of the trie, so they
are the same from any two states. -/
theorem load_restarts (T : GoType) (fs : List TransformFunc) (c c1 : converter) (k : Key)
    (hr : converter.Reached T fs c) (hr1 : converter.Reached T fs c1)
    (hk : k.HasType T = true) :
    c.stream k = .ok (transformStream fs (encode k)) ∧ c1.stream k = c.stream k := by
  rw [converter.stream_spec c T fs k hr.serves hk, converter.stream_spec c1 T fs k hr1.serves hk]
  exact ⟨rfl, rfl⟩

/-- Witness of C17: the converter of a `[]uint16` trie, partially consumed
after `Load` of `[]uint16{258, 3}` and one call of `Next`, and the same
converter after `Load` of the empty slice; the key is `[]uint16{7}`. -/
theorem load_restarts_witness :
    converter.Reached (.slice .uint16) []
      (.plain (.IntSlice ⟨.uint16, 0, .UInt16 ⟨1, [1, 2]⟩, [258, 3]⟩)) ∧
    converter.Reached (.slice .uint16) []
      (.plain (.IntSlice ⟨.uint16, 0, .UInt16 ⟨1, [1, 2]⟩, []⟩)) ∧
    (Key.slice (.slice .uint16) [7]).HasType (.slice .uint16) = true ∧
    encode (.slice (.slice .uint16) [7]) = [0, 7] ∧
    (converter.plain (.IntSlice ⟨.uint16, 0, .UInt16 ⟨1, [1, 2]⟩, [258, 3]⟩)).stream
        (.slice (.slice .uint16) [7]) =
      .ok (transformStream [] (encode (.slice (.slice .uint16) [7]))) ∧
    (converter.plain (.IntSlice ⟨.uint16, 0, .UInt16 ⟨1, [1, 2]⟩, []⟩)).stream
        (.slice (.slice .uint16) [7]) =
      (converter.plain (.IntSlice ⟨.uint16, 0, .UInt16 ⟨1, [1, 2]⟩, [258, 3]⟩)).stream
        (.slice (.slice .uint16) [7]) := by
  have h0 : converter.Reached (.slice .uint16) [] sliceTrie.converter :=
    @converter.Reached.new (.slice .uint16) [] Int _ sliceTrie rfl
  have h1 : converter.Reached (.slice .uint16) []
      (.plain (.IntSlice ⟨.uint16, 0, .UInt16 ⟨0, [1, 2]⟩, [258, 3]⟩)) :=
    @converter.Reached.load (.slice .uint16) [] sliceTrie.converter _
      (.slice (.slice .uint16) [258, 3]) none h0 rfl rfl
  have h2 : converter.Reached (.slice .uint16) []
      (.plain (.IntSlice ⟨.uint16, 0, .UInt16 ⟨1, [1, 2]⟩, [258, 3]⟩)) :=
    @converter.Reached.next (.slice .uint16) [] _ _ (1, true) h1 rfl
  have h3 : converter.Reached (.slice .uint16) []
      (.plain (.IntSlice ⟨.uint16, 0, .UInt16 ⟨1, [1, 2]⟩, []⟩)) :=
    @converter.Reached.load (.slice .uint16) [] _ _ (.slice (.slice .uint16) []) none h2 rfl rfl
  exact ⟨h2, h3, rfl, by decide,
    load_restarts (.slice .uint16) [] _ _ (.slice (.slice .uint16) [7]) h2 h3 rfl⟩

/-- C18. On every reachable trie and for every key of the key type, `Load`
returns a nil error without a failed type assertion, and `Add` and `Find`
return a result: no type assertion fails, no index is out of bounds, no nil
pointer is followed and no loop exceeds its budget; `Find` reports an absent
key by `found = false` with the zero value. -/
theorem add_find_total {V : Type} [Inhabited V] (T : GoType) (fs : List TransformFunc)
    (t : SimpleTrie V) (k : Key) (v : V) (hr : Reachable T fs t) (hk : k.HasType T = true) :
    (∃ c1, t.converter.Load k = .ok (c1, none)) ∧
    (∃ e t1, t.Add k v = .ok (e, t1)) ∧
    (∃ r t1, t.Find k = .ok (r, t1) ∧ (r.2 = false → r.1 = default)) := by
  obtain ⟨c1, hl, _⟩ := converter.load_spec t.converter T fs k hr.inv.1 hk
  obtain ⟨t1, hadd, _⟩ := SimpleTrie.Add_obs T fs t k v hr.inv hk
  obtain ⟨t2, hfind, _⟩ := SimpleTrie.Find_obs T fs t k hr.inv hk
  refine ⟨⟨c1, hl⟩, ⟨_, t1, hadd⟩, ⟨_, t2, hfind, ?_⟩⟩
  cases t.head.get (effective fs k) <;> simp [findResult]

/-- Witness of C18: the empty `string` trie and the key `abc`. -/
theorem add_find_total_witness :
    Reachable .string [] stringTrie ∧ (stringKey "abc").HasType .string = true ∧
    (∃ c1, stringTrie.converter.Load (stringKey "abc") = .ok (c1, none)) ∧
    (∃ e t1, stringTrie.Add (stringKey "abc") 5 = .ok (e, t1)) ∧
    (∃ r t1, stringTrie.Find (stringKey "abc") = .ok (r, t1) ∧ (r.2 = false → r.1 = default)) :=
  ⟨Reachable.new rfl, rfl,
    add_find_total .string [] stringTrie (stringKey "abc") 5 (Reachable.new rfl) rfl⟩

/-- C19. In every trie reachable from `NewTrie` by `Add` and `Find` calls, the
children of every node of the tree are strictly ascending by edge byte, so no
two children of a node carry the same edge byte and no node has more than 256
children. -/
theorem children_strictly_sorted {V : Type} [Inhabited V] (T : GoType)
    (fs : List TransformFunc) (t : SimpleTrie V) (n : simpleNode V)
    (hr : Reachable T fs t) (hn : n ∈ t.head.nodes) :
    n.next.Pairwise (fun a b => a.key < b.key) ∧ (n.next.map simpleNode.key).Nodup ∧
      n.next.length ≤ 256 := by
  have hs : n.Sorted := simpleNode.Sorted.nodes hr.inv.2 n hn
  have hp := hs.pairwise
  have hnd : (n.next.map simpleNode.key).Nodup := by
    rw [List.Nodup, List.pairwise_map]
    exact hp.imp fun h => ne_of_lt h
  refine ⟨hp, hnd, ?_⟩
  have hc := hnd.length_le_card
  rw [List.length_map, Fintype.card_fin] at hc
  exact hc

/-- Witness of C19: the root of the `string` trie after `Add("b", 1)` and
`Add("a", 2)`, whose children carry the edge bytes 97 and 98, in this order. -/
theorem children_strictly_sorted_witness :
    Reachable .string [] pairTrie ∧ pairTrie.head ∈ pairTrie.head.nodes ∧
    pairTrie.head.next.map simpleNode.key = [97, 98] ∧
    pairTrie.head.next.Pairwise (fun a b => a.key < b.key) ∧
    (pairTrie.head.next.map simpleNode.key).Nodup ∧ pairTrie.head.next.length ≤ 256 :=
  ⟨pairTrie_reachable, simpleNode.self_mem_nodes _, rfl,
    children_strictly_sorted .string [] pairTrie pairTrie.head pairTrie_reachable
      (simpleNode.self_mem_nodes _)⟩

/-- C20. In every trie reachable from `NewTrie` by `Add` and `Find` calls, with
any transform list, `Length()` is the number of nodes of the tree, the root
included, whose flag `hasValue` is set. -/
theorem length_counts_value_nodes {V : Type} [Inhabited V] (T : GoType)
    (fs : List TransformFunc) (t : SimpleTrie V) (hr : Reachable T fs t) :
    t.Length = t.head.nodes.countP fun n => n.hasValue :=
  hr.count

/-- Witness of C20: the `string` trie after `Add("b", 1)` and `Add("a", 2)` has
three nodes, two of them with a value. -/
theorem length_counts_value_nodes_witness :
    Reachable .string [] pairTrie ∧ pairTrie.head.nodes.length = 3 ∧
    (pairTrie.head.nodes.countP fun n => n.hasValue) = 2 ∧
    pairTrie.Length = pairTrie.head.nodes.countP fun n => n.hasValue :=
  ⟨pairTrie_reachable, rfl, rfl,
    length_counts_value_nodes .string [] pairTrie pairTrie_reachable⟩

/-- C23. For a node whose children are strictly ascending by edge byte and a
byte `b`, `binarySearchNext(b)` returns `found = true` and the child with edge
byte `b` when there is one, and `found = false` when there is none; the search
loop ends for every node and byte, sorted or not, within a number of
iterations equal to the number of children, and at once on a node with no
children. -/
theorem binarySearchNext_finds {V : Type} (n : simpleNode V) (b : Byte) :
    (n.next.Pairwise (fun a c => a.key < c.key) →
      ((∃ c ∈ n.next, c.key = b) →
        ∃ i, ∃ h : i < n.next.length, n.next[i].key = b ∧
          n.binarySearchNext b = .ok (some i, true)) ∧
      ((∀ c ∈ n.next, c.key ≠ b) → ∃ nn, n.binarySearchNext b = .ok (nn, false))) ∧
    (∃ r, n.binarySearchNext b = .ok r) ∧
    (n.next = [] → n.binarySearchNext b = .ok (none, false)) := by
  refine ⟨?_, simpleNode.binarySearchNext_total n b, ?_⟩
  · intro hp
    rcases simpleNode.binarySearchNext_pairwise n b hp with ⟨i, h, hk, hr⟩ | ⟨hno, nn, hr⟩
    · exact ⟨fun _ => ⟨i, h, hk, hr⟩, fun hno => absurd hk (hno _ (List.getElem_mem h))⟩
    · refine ⟨?_, fun _ => ⟨nn, hr⟩⟩
      rintro ⟨c, hc, hk⟩
      exact absurd hk (hno c hc)
  · intro hnil
    simp [simpleNode.binarySearchNext, hnil, simpleNode.binarySearchNext.loop]

/-- Witness of C23: the root of the `string` trie after `Add("b", 1)` and
`Add("a", 2)`, searched for the edge bytes 98 (present) and 99 (absent). -/
theorem binarySearchNext_finds_witness :
    pairTrie.head.next.Pairwise (fun a c => a.key < c.key) ∧
    (∃ c ∈ pairTrie.head.next, c.key = 98) ∧ (∀ c ∈ pairTrie.head.next, c.key ≠ 99) ∧
    (∃ i, ∃ h : i < pairTrie.head.next.length, pairTrie.head.next[i].key = 98 ∧
      pairTrie.head.binarySearchNext 98 = .ok (some i, true)) ∧
    (∃ nn, pairTrie.head.binarySearchNext 99 = .ok (nn, false)) ∧
    pairTrie.head.binarySearchNext 98 = .ok (some 1, true) :=
  ⟨pairTrie_pairwise, by decide, by decide,
    ((binarySearchNext_finds pairTrie.head 98).1 pairTrie_pairwise).1 (by decide),
    ((binarySearchNext_finds pairTrie.head 99).1 pairTrie_pairwise).2 (by decide),
    rfl⟩

/-- C24. For a node whose children are strictly ascending by edge byte and a
byte `b` that is the edge byte of none of them, `insertNewNode(b)` returns a
pointer to a child with edge byte `b`, no value and no children; the children
are again strictly ascending, and without that child they are the old children,
each as it was and in the old order; the node's own fields are unchanged. -/
theorem insertNewNode_inserts {V : Type} [Inhabited V] (n : simpleNode V) (b : Byte)
    (hp : n.next.Pairwise (fun a c => a.key < c.key)) (hno : ∀ c ∈ n.next, c.key ≠ b) :
    ∃ n1 i, n.insertNewNode b = .ok (n1, i) ∧
      n1.hasValue = n.hasValue ∧ n1.value = n.value ∧ n1.key = n.key ∧
      n1.next.Pairwise (fun a c => a.key < c.key) ∧
      n1.next.eraseIdx i = n.next ∧
      ∃ h : i < n1.next.length, n1.next[i].key = b ∧ n1.next[i].hasValue = false ∧
        n1.next[i].next = [] := by
  obtain ⟨hv, v, k, next⟩ := n
  simp only [simpleNode.next_mk] at hp hno
  obtain ⟨m, hm, hins, hsorted⟩ := simpleNode.insertNewNode_pairwise hv v k next b hp hno
  have hlen : (next.take m).length = m := by rw [List.length_take]; omega
  refine ⟨_, m, hins, rfl, rfl, rfl, hsorted, ?_, ?_⟩
  · simp only [simpleNode.next_mk]
    rw [List.eraseIdx_append_of_length_le (by omega), hlen, Nat.sub_self]
    simp
  · simp only [simpleNode.next_mk]
    have hi : m < (next.take m ++ simpleNode.literal b :: next.drop m).length := by
      simp; omega
    refine ⟨hi, ?_⟩
    have hget : (next.take m ++ simpleNode.literal b :: next.drop m)[m] =
        simpleNode.literal b := by
      rw [List.getElem_append_right (by omega)]
      simp [hlen]
    rw [hget]
    exact ⟨rfl, rfl, rfl⟩

/-- Witness of C24: the root of the `string` trie after `Add("b", 1)` and
`Add("a", 2)`, with the new edge byte 96, which goes in front. -/
theorem insertNewNode_inserts_witness :
    pairTrie.head.next.Pairwise (fun a c => a.key < c.key) ∧
    (∀ c ∈ pairTrie.head.next, c.key ≠ 96) ∧
    (∃ n1, pairTrie.head.insertNewNode 96 = .ok (n1, 0) ∧
      n1.next.map simpleNode.key = [96, 97, 98]) ∧
    ∃ n1 i, pairTrie.head.insertNewNode 96 = .ok (n1, i) ∧
      n1.hasValue = pairTrie.head.hasValue ∧ n1.value = pairTrie.head.value ∧
      n1.key = pairTrie.head.key ∧
      n1.next.Pairwise (fun a c => a.key < c.key) ∧
      n1.next.eraseIdx i = pairTrie.head.next ∧
      ∃ h : i < n1.next.length, n1.next[i].key = 96 ∧ n1.next[i].hasValue = false ∧
        n1.next[i].next = [] :=
  ⟨pairTrie_pairwise, by decide, ⟨_, rfl, rfl⟩,
    insertNewNode_inserts pairTrie.head 96 pairTrie_pairwise (by decide)⟩

/-- C26. For every supported key type the encoding without transforms is
injective: two keys of the type make the selected converter deliver the same
byte sequence exactly when they are equal, so two slices do exactly when they
are the same sequence of elements; in a trie without transforms `Add` of a key
leaves what `Find` returns for every other key as it was. -/
theorem encoding_injective :
    (∀ (T : GoType) (s : plainConverter) (k1 k2 : Key), selectConverter T = .ok s →
        k1.HasType T = true → k2.HasType T = true →
        ((converter.plain s).stream k1 = (converter.plain s).stream k2 ↔ k1 = k2)) ∧
    (∀ (e : GoType) (s : plainConverter) (xs ys : List Int),
        selectConverter (.slice e) = .ok s →
        (Key.slice (.slice e) xs).HasType (.slice e) = true →
        (Key.slice (.slice e) ys).HasType (.slice e) = true →
        ((converter.plain s).stream (.slice (.slice e) xs) =
            (converter.plain s).stream (.slice (.slice e) ys) ↔ xs = ys)) ∧
    (∀ (V : Type) [Inhabited V] (T : GoType) (t : SimpleTrie V) (k1 k2 : Key) (v : V),
        Reachable T [] t → k1.HasType T = true → k2.HasType T = true → k1 ≠ k2 →
        ∃ e t1 r u u1, t.Add k1 v = .ok (e, t1) ∧ t.Find k2 = .ok (r, u) ∧
          t1.Find k2 = .ok (r, u1)) := by
  have hkey : ∀ (T : GoType) (s : plainConverter) (k1 k2 : Key), selectConverter T = .ok s →
      k1.HasType T = true → k2.HasType T = true →
      ((converter.plain s).stream k1 = (converter.plain s).stream k2 ↔ k1 = k2) := by
    intro T s k1 k2 hsel h1 h2
    rw [stream_ne_iff (.plain s) T [] k1 k2 ⟨rfl, selectConverter_serves T s hsel⟩ h1 h2]
    exact ⟨effective_nil_inj T k1 k2 ⟨s, hsel⟩ h1 h2, fun h => by rw [h]⟩
  refine ⟨hkey, ?_, ?_⟩
  · intro e s xs ys hsel h1 h2
    rw [hkey (.slice e) s _ _ hsel h1 h2]
    exact ⟨fun h => by injection h, fun h => by rw [h]⟩
  · intro V _ T t k1 k2 v hr h1 h2 hne
    obtain ⟨t1, hadd, hinv1, hhead1, _⟩ := SimpleTrie.Add_obs T [] t k1 v hr.inv h1
    obtain ⟨u, hfind, _⟩ := SimpleTrie.Find_obs T [] t k2 hr.inv h2
    obtain ⟨u1, hfind1, _⟩ := SimpleTrie.Find_obs T [] t1 k2 hinv1 h2
    refine ⟨_, t1, _, u, u1, hadd, hfind, ?_⟩
    rw [hfind1, hhead1, simpleNode.get_put]
    have : effective [] k2 ≠ effective [] k1 := fun h =>
      hne (effective_nil_inj T k2 k1 hr.supported h2 h1 h).symm
    simp [this]

/-- Witness of C26: the `[]uint16` keys `{1, 2}` and `{258}` (both four and two
bytes long, with different bytes) and the `string` keys `Hello` and `Help`. -/
theorem encoding_injective_witness :
    selectConverter (.slice .uint16) = .ok (.IntSlice ⟨.uint16, 0, .UInt16 ⟨0, [0, 0]⟩, []⟩) ∧
    ((converter.plain (.IntSlice ⟨.uint16, 0, .UInt16 ⟨0, [0, 0]⟩, []⟩)).stream
          (.slice (.slice .uint16) [1, 2]) =
        (converter.plain (.IntSlice ⟨.uint16, 0, .UInt16 ⟨0, [0, 0]⟩, []⟩)).stream
          (.slice (.slice .uint16) [258]) ↔
      Key.slice (.slice .uint16) [1, 2] = Key.slice (.slice .uint16) [258]) ∧
    ((converter.plain (.IntSlice ⟨.uint16, 0, .UInt16 ⟨0, [0, 0]⟩, []⟩)).stream
          (.slice (.slice .uint16) [1, 2]) =
        (converter.plain (.IntSlice ⟨.uint16, 0, .UInt16 ⟨0, [0, 0]⟩, []⟩)).stream
          (.slice (.slice .uint16) [258]) ↔ [(1 : Int), 2] = [258]) ∧
    Reachable .string [] stringTrie ∧ stringKey "Hello" ≠ stringKey "Help" ∧
    ∃ e t1 r u u1, stringTrie.Add (stringKey "Hello") 1 = .ok (e, t1) ∧
      stringTrie.Find (stringKey "Help") = .ok (r, u) ∧
      t1.Find (stringKey "Help") = .ok (r, u1) :=
  ⟨rfl,
    encoding_injective.1 (.slice .uint16) _ (.slice (.slice .uint16) [1, 2])
      (.slice (.slice .uint16) [258]) rfl (by decide) (by decide),
    encoding_injective.2.1 .uint16 _ [1, 2] [258] rfl (by decide) (by decide),
    Reachable.new rfl, by decide,
    encoding_injective.2.2 Int .string stringTrie (stringKey "Hello") (stringKey "Help") 1
      (Reachable.new rfl) rfl rfl (by decide)⟩

/-- C25. On every reachable trie and for every key of the key type, with `s`
the effective byte stream of the key: after `Load` the recursion of
`simpleNode.add` and of `simpleNode.Find` returns within a depth budget of
`len(s) + 1` nodes, with the result it has under the larger budget of `Add` and
`Find`, and the raw bytes the converter has not pulled when the call returns
are a suffix of the raw encoding of the key, so at most `len(encode k)` raw
bytes are pulled.  In every state of a transform-wrapped converter the loop of
`Next` returns within a budget of one iteration more than the raw bytes not
yet pulled, and leaves a suffix of them. -/
theorem bounded_work {V : Type} [Inhabited V] (T : GoType) (fs : List TransformFunc)
    (t : SimpleTrie V) (k : Key) (v : V) (hr : Reachable T fs t) (hk : k.HasType T = true) :
    (∃ c s, t.converter.Load k = .ok (c, none) ∧ t.converter.stream k = .ok s ∧
      c.rawRemaining = encode k ∧
      (∃ r c1 c2, t.head.add (s.length + 1) c v = .ok (r, c1) ∧
        t.head.add (c.bound + 1) c v = .ok (r, c2) ∧ c1.rawRemaining <:+ encode k) ∧
      (∃ r c1 c2, t.head.Find (s.length + 1) c = .ok (r, c1) ∧
        t.head.Find (c.bound + 1) c = .ok (r, c2) ∧ c1.rawRemaining <:+ encode k)) ∧
    (∀ ct : converterTransforms, converter.Reached T fs (.Transforms ct) →
      ∃ r sub1,
        converterTransforms.Next.loop ct.transforms (ct.subConverter.remaining.length + 1)
          ct.subConverter = .ok (r, sub1) ∧
        sub1.remaining <:+ ct.subConverter.remaining) := by
  constructor
  · obtain ⟨c, hl, hs, hrem, hraw⟩ := converter.load_raw t.converter T fs k hr.inv.1 hk
    have hb := converter.remaining_le_bound c T fs hs
    refine ⟨c, effective fs k, hl, converter.stream_spec t.converter T fs k hr.inv.1 hk, hraw,
      ?_, ?_⟩
    · obtain ⟨c1, _, hsuf, h1⟩ := simpleNode.node_add_raw T fs v ((effective fs k).length + 1)
        t.head c hr.inv.2 hs (by rw [hrem]; omega)
      obtain ⟨c2, _, _, h2⟩ := simpleNode.node_add_raw T fs v (c.bound + 1)
        t.head c hr.inv.2 hs (by omega)
      exact ⟨_, c1, c2, h1, h2, by rw [← hraw]; exact hsuf⟩
    · obtain ⟨c1, _, hsuf, h1⟩ := simpleNode.node_Find_raw T fs ((effective fs k).length + 1)
        t.head c hr.inv.2 hs (by rw [hrem]; omega)
      obtain ⟨c2, _, _, h2⟩ := simpleNode.node_Find_raw T fs (c.bound + 1)
        t.head c hr.inv.2 hs (by omega)
      exact ⟨_, c1, c2, h1, h2, by rw [← hraw]; exact hsuf⟩
  · intro ct hct
    obtain ⟨hfs, hsub⟩ := hct.serves
    obtain ⟨sub1, _, h1⟩ := converterTransforms.transform_loop_spec ct.transforms T
      (ct.subConverter.remaining.length + 1) ct.subConverter hsub (by omega)
    split at h1
    · exact ⟨_, sub1, h1.1,
        (converterTransforms.loop_raw ct.transforms T _ ct.subConverter sub1 _ hsub h1.1).2⟩
    · exact ⟨_, sub1, h1.1,
        (converterTransforms.loop_raw ct.transforms T _ ct.subConverter sub1 _ hsub h1.1).2⟩

/-- Witness of C25: the empty `string` trie with the transform of the tests
and the key `-H-e`, whose raw encoding has four bytes and whose effective
stream is `he`. -/
theorem bounded_work_witness :
    Reachable .string [testTransform] foldTrie ∧
    (stringKey "-H-e").HasType .string = true ∧
    encode (stringKey "-H-e") = [45, 72, 45, 101] ∧
    foldTrie.converter.stream (stringKey "-H-e") = .ok [104, 101] ∧
    (∃ c s, foldTrie.converter.Load (stringKey "-H-e") = .ok (c, none) ∧
      foldTrie.converter.stream (stringKey "-H-e") = .ok s ∧
      c.rawRemaining = encode (stringKey "-H-e") ∧
      (∃ r c1 c2, foldTrie.head.add (s.length + 1) c 5 = .ok (r, c1) ∧
        foldTrie.head.add (c.bound + 1) c 5 = .ok (r, c2) ∧
        c1.rawRemaining <:+ encode (stringKey "-H-e")) ∧
      (∃ r c1 c2, foldTrie.head.Find (s.length + 1) c = .ok (r, c1) ∧
        foldTrie.head.Find (c.bound + 1) c = .ok (r, c2) ∧
        c1.rawRemaining <:+ encode (stringKey "-H-e"))) ∧
    (∀ ct : converterTransforms, converter.Reached .string [testTransform] (.Transforms ct) →
      ∃ r sub1,
        converterTransforms.Next.loop ct.transforms (ct.subConverter.remaining.length + 1)
          ct.subConverter = .ok (r, sub1) ∧
        sub1.remaining <:+ ct.subConverter.remaining) :=
  ⟨Reachable.new rfl, rfl, by decide, rfl,
    bounded_work .string [testTransform] foldTrie (stringKey "-H-e") 5 (Reachable.new rfl) rfl⟩

/-- Counterexample to C21: the trie `NewTrie` returns is reachable, its tree
has one node, the root, and no key has been added, so the root lies on the path
of no added key. -/
theorem value_iff_added_stream_counterexample :
    NewTrie Int .string [] = .ok stringTrie ∧
    stringTrie.run [] = .ok ([], stringTrie) ∧
    stringTrie.head.paths = [([], stringTrie.head)] ∧
    ¬ ∃ k v s, Call.Add k v ∈ ([] : List (Call Int)) ∧
      stringTrie.converter.stream k = .ok s ∧ ([] : List Byte) <+: s :=
  ⟨rfl, rfl, rfl, by simp⟩

/-- C21, amended. In the trie that a sequence of `Add` and `Find` calls makes of
the trie `NewTrie` returns, for every node of the tree and its path `p` from
the root: the node holds a value exactly when `p` is the effective byte stream
of a key of an `Add` call of the sequence; when the node is not the root, or
the sequence has an `Add` call, `p` is a prefix of the effective byte stream
of a key of an `Add` call; and a node other than the root that has no children
holds a value.  The nodes listed with their paths are the nodes of the tree. -/
theorem value_iff_added_stream {V : Type} [Inhabited V] (T : GoType)
    (fs : List TransformFunc) (t0 : SimpleTrie V) (calls : List (Call V))
    (h0 : NewTrie V T fs = .ok t0) (hty : ∀ c ∈ calls, c.key.HasType T = true) :
    ∃ outs t1, t0.run calls = .ok (outs, t1) ∧
      t1.head.paths.map Prod.snd = t1.head.nodes ∧
      ∀ p m, (p, m) ∈ t1.head.paths →
        (m.hasValue = true ↔
          ∃ k v, Call.Add k v ∈ calls ∧ t0.converter.stream k = .ok p) ∧
        ((p ≠ [] ∨ ∃ k v, Call.Add k v ∈ calls) →
          ∃ k v s, Call.Add k v ∈ calls ∧ t0.converter.stream k = .ok s ∧ p <+: s) ∧
        (p ≠ [] → m.next = [] → m.hasValue = true) := by
  obtain ⟨hinv0, hh, _⟩ := NewTrie_spec T fs t0 h0
  obtain ⟨outs, t1, hrun, hinv1, hhead⟩ := SimpleTrie.run_spec T fs calls t0 hinv0 hty
  rw [hh] at hhead
  have hstream : ∀ k v, Call.Add k v ∈ calls →
      t0.converter.stream k = .ok (effective fs k) := fun k v hc =>
    converter.stream_spec t0.converter T fs k hinv0.1 (hty _ hc)
  have hmem : ∀ s : List Byte,
      s ∈ ((calls.filterMap Call.added).map fun p => (effective fs p.1, p.2)).map Prod.fst ↔
        ∃ k v, Call.Add k v ∈ calls ∧ effective fs k = s := by
    intro s
    simp only [List.map_map, List.mem_map, Function.comp_def, Prod.exists]
    constructor
    · rintro ⟨k, v, hkv, rfl⟩
      exact ⟨k, v, (Call.mem_added calls k v).mp hkv, rfl⟩
    · rintro ⟨k, v, hc, rfl⟩
      exact ⟨k, v, (Call.mem_added calls k v).mpr hc, rfl⟩
  have hsome : ∀ s : List Byte, (t1.head.get s).isSome = true ↔
      ∃ k v, Call.Add k v ∈ calls ∧ effective fs k = s := by
    intro s
    rw [hhead, simpleNode.isSome_get_putAll, simpleNode.get_literal, hmem]
    simp
  have hcov : ∀ p m, (p, m) ∈ t1.head.paths →
      (p ≠ [] ∨ ∃ k v, Call.Add k v ∈ calls) →
      ∃ k v, Call.Add k v ∈ calls ∧ p <+: effective fs k := by
    intro p m hm hp
    by_cases hnil : p = []
    · subst hnil
      rcases hp with hp | ⟨k, v, hc⟩
      · exact absurd rfl hp
      · exact ⟨k, v, hc, List.nil_prefix⟩
    · rw [hhead] at hm
      obtain ⟨s, hs, hpre⟩ := simpleNode.putAll_covered _ (simpleNode.literal 0)
        (fun _ => False)
        (by
          intro q m0 hm0 hq
          rcases (simpleNode.mem_paths_iff _ q m0).mp hm0 with ⟨h, _⟩ | ⟨c, hc, _⟩
          · exact absurd h hq
          · simp [simpleNode.literal] at hc)
        p m hm hnil
      rcases hs with hs | hs
      · exact absurd hs id
      · obtain ⟨k, v, hc, rfl⟩ := (hmem s).mp hs
        exact ⟨k, v, hc, hpre⟩
  refine ⟨outs, t1, hrun, simpleNode.paths_map_snd hinv1.2, ?_⟩
  intro p m hm
  have hval := simpleNode.hasValue_of_path t1.head m p hinv1.2 hm
  refine ⟨?_, ?_, ?_⟩
  · rw [← hval, hsome]
    constructor
    · rintro ⟨k, v, hc, rfl⟩
      exact ⟨k, v, hc, hstream k v hc⟩
    · rintro ⟨k, v, hc, hs⟩
      rw [hstream k v hc] at hs
      injection hs with hs
      exact ⟨k, v, hc, hs⟩
  · intro hp
    obtain ⟨k, v, hc, hpre⟩ := hcov p m hm hp
    exact ⟨k, v, _, hc, hstream k v hc, hpre⟩
  · intro hp hnext
    obtain ⟨k, v, hc, q, hq⟩ := hcov p m hm (Or.inl hp)
    have hs := (hsome (effective fs k)).mpr ⟨k, v, hc, rfl⟩
    rw [← hq, simpleNode.get_of_path p t1.head m q hinv1.2 hm] at hs
    cases q with
    | nil =>
      rw [simpleNode.get_nil] at hs
      cases hv : m.hasValue
      · simp [hv] at hs
      · rfl
    | cons b q =>
      rw [simpleNode.get_cons, hnext] at hs
      simp at hs

/-- Witness of amended C21: the calls `Add("b", 1)`, `Find("a")`, `Add("a", 2)`
on the trie `NewTrie[string, int]()` returns. -/
theorem value_iff_added_stream_witness :
    NewTrie Int .string [] = .ok stringTrie ∧
    (∀ c ∈ [Call.Add (stringKey "b") (1 : Int), .Find (stringKey "a"),
        .Add (stringKey "a") 2], c.key.HasType .string = true) ∧
    (∃ outs, stringTrie.run [.Add (stringKey "b") 1, .Find (stringKey "a"),
      .Add (stringKey "a") 2] = .ok (outs, pairTrie)) ∧
    ∃ outs t1, stringTrie.run [.Add (stringKey "b") 1, .Find (stringKey "a"),
        .Add (stringKey "a") 2] = .ok (outs, t1) ∧
      t1.head.paths.map Prod.snd = t1.head.nodes ∧
      ∀ p m, (p, m) ∈ t1.head.paths →
        (m.hasValue = true ↔
          ∃ k v, Call.Add k v ∈ [Call.Add (stringKey "b") (1 : Int), .Find (stringKey "a"),
            .Add (stringKey "a") 2] ∧ stringTrie.converter.stream k = .ok p) ∧
        ((p ≠ [] ∨ ∃ k v, Call.Add k v ∈ [Call.Add (stringKey "b") (1 : Int),
            .Find (stringKey "a"), .Add (stringKey "a") 2]) →
          ∃ k v s, Call.Add k v ∈ [Call.Add (stringKey "b") (1 : Int), .Find (stringKey "a"),
            .Add (stringKey "a") 2] ∧ stringTrie.converter.stream k = .ok s ∧ p <+: s) ∧
        (p ≠ [] → m.next = [] → m.hasValue = true) :=
  ⟨rfl, by decide, ⟨_, rfl⟩,
    value_iff_added_stream .string [] stringTrie
      [.Add (stringKey "b") 1, .Find (stringKey "a"), .Add (stringKey "a") 2] rfl (by decide)⟩

/-- C22. On every reachable trie, `Add(k, v)` with `s` the effective byte
stream of `k`: every node of the tree before the call is a node of the tree
after it, at the same path and with the same edge byte, and with the same flag
and value unless its path is `s`; the tree has `len(s) - d` nodes more, where
`d` is the length of the longest prefix of `s` that was a path from the root.
When `Add` returns `expanded = false`, the paths, edge bytes and flags of the
nodes of the tree are as before, in the same order, and the node at path `s`
had a value and holds `v`. -/
theorem add_keeps_nodes {V : Type} [Inhabited V] (T : GoType) (fs : List TransformFunc)
    (t : SimpleTrie V) (k : Key) (v : V) (hr : Reachable T fs t) (hk : k.HasType T = true) :
    ∃ e t1 s, t.Add k v = .ok (e, t1) ∧ t.converter.stream k = .ok s ∧
      (∀ p m, (p, m) ∈ t.head.paths → ∃ m1, (p, m1) ∈ t1.head.paths ∧ m1.key = m.key ∧
        (p ≠ s → m1.hasValue = m.hasValue ∧ m1.value = m.value)) ∧
      (∃ d, d ≤ s.length ∧ (∃ m, (s.take d, m) ∈ t.head.paths) ∧
        (d < s.length → ∀ m, (s.take (d + 1), m) ∉ t.head.paths) ∧
        t1.head.nodes.length = t.head.nodes.length + (s.length - d)) ∧
      (e = false →
        t1.head.paths.map (fun q => (q.1, q.2.key, q.2.hasValue)) =
          t.head.paths.map (fun q => (q.1, q.2.key, q.2.hasValue)) ∧
        t1.head.nodes.length = t.head.nodes.length ∧
        ∃ m m1, (s, m) ∈ t.head.paths ∧ (s, m1) ∈ t1.head.paths ∧ m.hasValue = true ∧
          m1.hasValue = true ∧ m1.value = v) := by
  obtain ⟨t1, hadd, hinv1, hhead, _⟩ := SimpleTrie.Add_obs T fs t k v hr.inv hk
  have hs := hr.inv.2
  refine ⟨_, t1, effective fs k, hadd,
    converter.stream_spec t.converter T fs k hr.inv.1 hk, ?_, ?_, ?_⟩
  · intro p m hm
    obtain ⟨m1, hm1, hkey, hne, _⟩ := simpleNode.put_paths_old (effective fs k) v t.head m p hm
    rw [← hhead] at hm1
    exact ⟨m1, hm1, hkey, hne⟩
  · refine ⟨simpleNode.matched t.head (effective fs k), simpleNode.matched_le _ _,
      simpleNode.matched_path _ _, simpleNode.matched_longest _ _ hs, ?_⟩
    rw [hhead]
    exact simpleNode.nodes_length_put _ v t.head hs
  · intro he
    have hpresent : (t.head.get (effective fs k)).isSome = true := by
      cases h : (t.head.get (effective fs k)).isSome
      · rw [h] at he; cases he
      · rfl
    have hshape := simpleNode.shape_put_present (effective fs k) v t.head hs hpresent
    rw [← hhead] at hshape
    have hlen : t1.head.nodes.length = t.head.nodes.length := by
      rw [← simpleNode.paths_length hinv1.2, ← simpleNode.paths_length hs]
      have := congrArg List.length hshape
      simpa using this
    refine ⟨hshape, hlen, ?_⟩
    have hfull : simpleNode.matched t.head (effective fs k) = (effective fs k).length := by
      have h1 := simpleNode.nodes_length_put (effective fs k) v t.head hs
      rw [← hhead, hlen] at h1
      have h2 := simpleNode.matched_le (effective fs k) t.head
      omega
    obtain ⟨m, hm⟩ := simpleNode.matched_path (effective fs k) t.head
    rw [hfull, List.take_length] at hm
    obtain ⟨m1, hm1, _, _, heq⟩ := simpleNode.put_paths_old (effective fs k) v t.head m _ hm
    rw [← hhead] at hm1
    have hmv : m.hasValue = true := by
      rw [← simpleNode.hasValue_of_path t.head m _ hs hm]
      exact hpresent
    exact ⟨m, m1, hm, hm1, hmv, (heq rfl).1, (heq rfl).2⟩

/-- Witness of C22: the `string` trie after `Add("b", 1)` and `Add("a", 2)`, and
the key `ab`: the prefix `a` is present, one node is created. -/
theorem add_keeps_nodes_witness :
    Reachable .string [] pairTrie ∧ (stringKey "ab").HasType .string = true ∧
    (∃ t1, pairTrie.Add (stringKey "ab") 3 = .ok (true, t1) ∧
      pairTrie.head.nodes.length = 3 ∧ t1.head.nodes.length = 4) ∧
    ∃ e t1 s, pairTrie.Add (stringKey "ab") 3 = .ok (e, t1) ∧
      pairTrie.converter.stream (stringKey "ab") = .ok s ∧
      (∀ p m, (p, m) ∈ pairTrie.head.paths → ∃ m1, (p, m1) ∈ t1.head.paths ∧
        m1.key = m.key ∧ (p ≠ s → m1.hasValue = m.hasValue ∧ m1.value = m.value)) ∧
      (∃ d, d ≤ s.length ∧ (∃ m, (s.take d, m) ∈ pairTrie.head.paths) ∧
        (d < s.length → ∀ m, (s.take (d + 1), m) ∉ pairTrie.head.paths) ∧
        t1.head.nodes.length = pairTrie.head.nodes.length + (s.length - d)) ∧
      (e = false →
        t1.head.paths.map (fun q => (q.1, q.2.key, q.2.hasValue)) =
          pairTrie.head.paths.map (fun q => (q.1, q.2.key, q.2.hasValue)) ∧
        t1.head.nodes.length = pairTrie.head.nodes.length ∧
        ∃ m m1, (s, m) ∈ pairTrie.head.paths ∧ (s, m1) ∈ t1.head.paths ∧
          m.hasValue = true ∧ m1.hasValue = true ∧ m1.value = 3) :=
  ⟨pairTrie_reachable, rfl, ⟨_, rfl, rfl, rfl⟩,
    add_keeps_nodes .string [] pairTrie (stringKey "ab") 3 pairTrie_reachable rfl⟩

end tries
